import Mathlib

/-!
Minesweeper: board and cell model.

A shallow embedding of `cell.cpp`, `board.cpp` and the set-up loop of
`main.cpp`.  C++ `int` values are `Int` (no computation in these functions
leaves the range of `int` on a board of at most 50 x 50 cells), the
`std::vector<std::vector<Cell>>` is a list of rows, and the random number
generator is replaced by the list of the coordinate pairs it hands out.

Indexing `board[i][j]` outside the grid is undefined behaviour in C++; in the
model a read outside the grid yields a default cell and a write outside the
grid does nothing.  Statements about the program carry the hypotheses (a
well-formed grid, in-bounds coordinates) under which every access is inside
the grid.
-/

set_option maxRecDepth 1000000

namespace Minesweeper

/-! ## cell.h / cell.cpp -/

/-- The four private fields of `class Cell`. -/
structure Cell where
  is_bomb : Bool
  is_marked : Bool
  is_revealed : Bool
  bombs_around : Int
deriving DecidableEq

namespace Cell

/-- The constructor `Cell::Cell()`: all flags false, counter 0. -/
def new : Cell :=
  { is_bomb := false, is_marked := false, is_revealed := false, bombs_around := 0 }

/-- The method `Cell::mark_as_bomb`. -/
def mark_as_bomb (c : Cell) : Cell := { c with is_bomb := true }

/-- The method `Cell::flag_bomb`: toggles the player's flag. -/
def flag_bomb (c : Cell) : Cell := { c with is_marked := !c.is_marked }

/-- The method `Cell::reveal`. -/
def reveal (c : Cell) : Cell := { c with is_revealed := true }

/-- The method `Cell::update_counter`. -/
def update_counter (c : Cell) : Cell := { c with bombs_around := c.bombs_around + 1 }

/-- The method `Cell::display`: the text it writes to the stream (`os << bombs_around`
writes the counter in decimal). -/
def display (c : Cell) : String :=
  if c.is_marked then "⚐"
  else if !c.is_revealed then "■"
  else if c.is_bomb then "⚹"
  else if c.bombs_around ≠ 0 then toString c.bombs_around
  else " "

end Cell

instance : Inhabited Cell := ⟨Cell.new⟩

/-- The constructor `MineCell::MineCell()`: the base constructor followed by
`mark_as_bomb()`.  The board stores plain `Cell` values, so assigning a
`MineCell` to a grid slot copies exactly these four fields. -/
def MineCell : Cell := Cell.new.mark_as_bomb

/-! ## board.h / board.cpp -/

/-- The data members of `class Board` (the generator `rng` is modelled by the
list of draws passed to `place_bombs`). -/
structure Board where
  board : List (List Cell)
  width : Int
  height : Int
  bomb_amount : Int
  first_x : Int
  first_y : Int
deriving DecidableEq

/-- The integers `lo, lo+1, ..., hi-1` in increasing order: the values taken by
the variable of `for (int i = lo; i < hi; ++i)`. -/
def intRange (lo hi : Int) : List Int :=
  (List.range (hi - lo).toNat).map (fun (k : Nat) => lo + (k : Int))

namespace Board

/-- The read `board[row][col]` (the accessor `Board::get_cell`). -/
def get_cell (b : Board) (row col : Int) : Cell :=
  if 0 ≤ row ∧ 0 ≤ col then
    (((b.board[row.toNat]?).getD [])[col.toNat]?).getD Cell.new
  else Cell.new

/-- The write `board[row][col] = f(board[row][col])`: the effect of calling a
mutating `Cell` method on, or assigning to, the slot `(row, col)`. -/
def update_cell (b : Board) (row col : Int) (f : Cell → Cell) : Board :=
  if 0 ≤ row ∧ 0 ≤ col then
    { b with board := b.board.modify (fun r => r.modify f col.toNat) row.toNat }
  else b

/-- The method `Board::create_board`: a `height` x `width` vector of
value-initialised cells, every slot then assigned `Cell()`. -/
def create_board (b : Board) : List (List Cell) :=
  let new_board : Board :=
    { b with board := List.replicate b.height.toNat (List.replicate b.width.toNat Cell.new) }
  ((intRange 0 b.height).foldl (fun nb i =>
    (intRange 0 b.width).foldl (fun nb j => nb.update_cell i j (fun _ => Cell.new)) nb)
    new_board).board

/-- The constructor `Board::Board(w, h, bombs, x, y)`. -/
def new (w h bombs x y : Int) : Board :=
  let b : Board :=
    { board := [], width := w, height := h, bomb_amount := bombs, first_x := x, first_y := y }
  { b with board := b.create_board }

/-- The method `Board::count_bombs(x, y)`: one `update_counter` on the cell
`(x, y)` per mine found in the clamped 3 x 3 window, the cell itself excepted. -/
def count_bombs (b : Board) (x y : Int) : Board :=
  (intRange (max 0 (x - 1)) (min b.height (x + 2))).foldl (fun b i =>
    (intRange (max 0 (y - 1)) (min b.width (y + 2))).foldl (fun b j =>
      if (b.get_cell i j).is_bomb && decide ((i, j) ≠ (x, y)) then
        b.update_cell x y Cell.update_counter
      else b) b) b

/-- The nine coordinates pushed on `already_changed` before the loop of
`Board::place_bombs`, in the order of the `offsets` vector. -/
def place_bombs_offsets : List (Int × Int) :=
  [(-1, -1), (0, -1), (1, -1), (-1, 0), (0, 0), (1, 0), (-1, 1), (0, 1), (1, 1)]

/-- The `while (changed < bomb_amount)` loop of `Board::place_bombs`.  Each
element of `draws` is the pair `(row, column)` returned by the two calls of
`rng.get_random_number` in one iteration; `none` means the draws ran out while
the loop condition still held. -/
def place_bombs_loop : List (Int × Int) → Int → List (Int × Int) → Board → Option Board
  | [], changed, _, b => if changed < b.bomb_amount then none else some b
  | (row, column) :: draws, changed, already_changed, b =>
    if changed < b.bomb_amount then
      if (row, column) ∉ already_changed then
        place_bombs_loop draws (changed + 1) (already_changed ++ [(row, column)])
          (b.update_cell row column (fun _ => MineCell))
      else place_bombs_loop draws changed already_changed b
    else some b

/-- The method `Board::place_bombs`, run on the sequence `draws` of random
coordinate pairs. -/
def place_bombs (b : Board) (draws : List (Int × Int)) : Option Board :=
  place_bombs_loop draws 0
    (place_bombs_offsets.map (fun offset => (b.first_x + offset.1, b.first_y + offset.2))) b

/-- The set-up loop of `game_loop` in `main.cpp`: `count_bombs(i, j)` for
`i < size_y`, `j < size_x`. -/
def count_all_bombs (b : Board) (size_x size_y : Int) : Board :=
  (intRange 0 size_y).foldl (fun b i =>
    (intRange 0 size_x).foldl (fun b j => b.count_bombs i j) b) b

/-- The method `Board::handle_lose_condition`: reveal every cell. -/
def handle_lose_condition (b : Board) : Board :=
  { b with board := b.board.map (fun row => row.map Cell.reveal) }

/-- The method `Board::handle_win_condition`: `true` as soon as some cell is
an unrevealed non-mine or an unflagged mine, `false` (won) after a full scan. -/
def handle_win_condition (b : Board) : Bool :=
  b.board.any (fun row => row.any (fun cell =>
    (!cell.is_revealed && !cell.is_bomb) || (cell.is_bomb && !cell.is_marked)))

/-- The method `Board::handle_second_mode` on the cell `(row, col)`. -/
def handle_second_mode (b : Board) (row col : Int) : Board :=
  if !(b.get_cell row col).is_revealed then b.update_cell row col Cell.flag_bomb else b

/-- Body of the two nested loops of `Board::reveal_around` at the scanned
cell `(i, j)`; `recurse` is the recursive call. -/
def reveal_around_visit (recurse : Board → Int → Int → Option Board) (b : Board) (i j : Int) :
    Option Board :=
  if !(b.get_cell i j).is_revealed && !(b.get_cell i j).is_bomb then
    let b1 := b.update_cell i j Cell.reveal
    if (b1.get_cell i j).bombs_around == 0 && !(b1.get_cell i j).is_bomb then
      recurse b1 i j
    else some b1
  else some b

/-- The method `Board::reveal_around` with a bound on the recursion depth;
`none` means the bound was reached. -/
def reveal_around_fuel : Nat → Board → Int → Int → Option Board
  | 0, _, _, _ => none
  | fuel + 1, b, row, column =>
    if (b.get_cell row column).bombs_around ≠ 0 then some b
    else
      (intRange (max 0 (row - 1)) (min (row + 2) b.height)).foldlM (fun b i =>
        (intRange (max 0 (column - 1)) (min (column + 2) b.width)).foldlM
          (fun b j => reveal_around_visit (reveal_around_fuel fuel) b i j) b) b

/-- Number of cells of the grid that are not revealed. -/
def unrevealed (b : Board) : Nat :=
  (b.board.map (fun row => row.countP (fun cell => !cell.is_revealed))).sum

/-- The method `Board::reveal_around`.  A recursive call is only made on a
cell that has just been revealed, so the depth never exceeds the number of
unrevealed cells plus one (`reveal_around_fuel_total`). -/
def reveal_around (b : Board) (row column : Int) : Option Board :=
  reveal_around_fuel (b.unrevealed + 1) b row column

/-- The method `Board::handle_first_mode`, as it is called in `main.cpp`:
on the board itself with `cell` the slot `(row, column)`.  The result is the
returned flag and the board after the call. -/
def handle_first_mode (b : Board) (row column : Int) : Option (Bool × Board) :=
  let b1 := if (b.get_cell row column).is_marked then b.update_cell row column Cell.flag_bomb
    else b
  if !(b1.get_cell row column).is_revealed && !(b1.get_cell row column).is_bomb then
    (reveal_around (b1.update_cell row column Cell.reveal) row column).map
      (fun b2 => (true, b2))
  else if (b1.get_cell row column).is_bomb then some (false, b1.handle_lose_condition)
  else some (true, b1)

/-! ## Instrumented runs: grid indices used and recursive calls made -/

/-- What an instrumented run of `reveal_around` records: the index of a `board[i][j]`
expression that is evaluated, or a recursive call `reveal_around(i, j)`. -/
inductive Event where
  | access (i j : Int)
  | call (i j : Int)
deriving DecidableEq

/-- The method `Board::count_bombs(x, y)` together with the grid indices it uses, in
order: `(i, j)` for the read `board[i][j]` of each iteration and `(x, y)` for
each `board[x][y].update_counter()`. -/
def count_bombs_log (b : Board) (x y : Int) : Board × List (Int × Int) :=
  (intRange (max 0 (x - 1)) (min b.height (x + 2))).foldl (fun s i =>
    (intRange (max 0 (y - 1)) (min s.1.width (y + 2))).foldl (fun s j =>
      if (s.1.get_cell i j).is_bomb && decide ((i, j) ≠ (x, y)) then
        (s.1.update_cell x y Cell.update_counter, s.2 ++ [(i, j), (x, y)])
      else (s.1, s.2 ++ [(i, j)])) s) (b, [])

/-- Body of the loops of `Board::reveal_around` at the scanned cell `(i, j)`, with
what it records: every `board[i][j]` expression of the body has the index
`(i, j)`, and the recursive call is recorded before the events of its run. -/
def reveal_around_visit_log (recurse : Board → Int → Int → Option (Board × List Event))
    (b : Board) (i j : Int) : Option (Board × List Event) :=
  if !(b.get_cell i j).is_revealed && !(b.get_cell i j).is_bomb then
    let b1 := b.update_cell i j Cell.reveal
    if (b1.get_cell i j).bombs_around == 0 && !(b1.get_cell i j).is_bomb then
      (recurse b1 i j).map (fun r => (r.1, Event.access i j :: Event.call i j :: r.2))
    else some (b1, [Event.access i j])
  else some (b, [Event.access i j])

/-- The method `Board::reveal_around` with a bound on the recursion depth, together
with the events of the run; the first event is the read `board[row][column]` of
the test on entry. -/
def reveal_around_log_fuel : Nat → Board → Int → Int → Option (Board × List Event)
  | 0, _, _, _ => none
  | fuel + 1, b, row, column =>
    if (b.get_cell row column).bombs_around ≠ 0 then some (b, [Event.access row column])
    else
      (intRange (max 0 (row - 1)) (min (row + 2) b.height)).foldlM (fun s i =>
        (intRange (max 0 (column - 1)) (min (column + 2) s.1.width)).foldlM
          (fun s j => (reveal_around_visit_log (reveal_around_log_fuel fuel) s.1 i j).map
            (fun r => (r.1, s.2 ++ r.2))) s) (b, [Event.access row column])

/-- The method `Board::reveal_around` together with the events of the run. -/
def reveal_around_log (b : Board) (row column : Int) : Option (Board × List Event) :=
  reveal_around_log_fuel (b.unrevealed + 1) b row column

/-- Number of recursive calls recorded in a run. -/
def calls (log : List Event) : Nat :=
  log.countP (fun e => match e with
    | Event.call _ _ => true
    | Event.access _ _ => false)

/-! ## Vocabulary of the statements -/

/-- The class invariant of `Board`: the grid has `height` rows of `width`
cells each, as built by `create_board` and kept by every method. -/
def WF (b : Board) : Prop :=
  b.board.length = b.height.toNat ∧ ∀ row ∈ b.board, row.length = b.width.toNat

instance (b : Board) : Decidable b.WF := by unfold WF; infer_instance

/-- The coordinate `(i, j)` lies in `[0, height) x [0, width)`. -/
def inGrid (b : Board) (i j : Int) : Prop :=
  0 ≤ i ∧ i < b.height ∧ 0 ≤ j ∧ j < b.width

instance (b : Board) (i j : Int) : Decidable (b.inGrid i j) := by unfold inGrid; infer_instance

/-- The cell `(i, j)` is one of the eight neighbours of `(r, c)`. -/
def adjacent (r c i j : Int) : Prop :=
  (i ≠ r ∨ j ≠ c) ∧ r - 1 ≤ i ∧ i ≤ r + 1 ∧ c - 1 ≤ j ∧ j ≤ c + 1

instance (r c i j : Int) : Decidable (adjacent r c i j) := by unfold adjacent; infer_instance

/-- Number of cells of the grid with `is_bomb == true`. -/
def mines (b : Board) : Nat :=
  (b.board.map (fun row => row.countP (fun cell => cell.is_bomb))).sum

/-- Number of mine cells among the in-grid neighbours of `(r, c)`: the cells
of the grid that are adjacent to `(r, c)` and are mines. -/
def mine_neighbours (b : Board) (r c : Int) : Nat :=
  ((intRange 0 b.height).map (fun i =>
    (intRange 0 b.width).countP (fun j =>
      decide (adjacent r c i j) && (b.get_cell i j).is_bomb))).sum

/-- The adjacency counts of `b` are correct: the counter of every in-grid non-mine
cell is the number of mines among its in-grid neighbours. -/
def CorrectCounts (b : Board) : Prop :=
  ∀ r ∈ intRange 0 b.height, ∀ c ∈ intRange 0 b.width,
    (b.get_cell r c).is_bomb = false →
      (b.get_cell r c).bombs_around = (b.mine_neighbours r c : Int)

instance (b : Board) : Decidable b.CorrectCounts := by unfold CorrectCounts; infer_instance

/-- The in-grid cell `(i, j)` has counter 0 and is not a mine. -/
def blank (b : Board) (i j : Int) : Prop :=
  b.inGrid i j ∧ (b.get_cell i j).bombs_around = 0 ∧ (b.get_cell i j).is_bomb = false

/-- The in-grid cell `(i, j)` has counter 0. -/
def zero_count (b : Board) (i j : Int) : Prop :=
  b.inGrid i j ∧ (b.get_cell i j).bombs_around = 0

/-- The cell `(i, j)` is reached from `(r, c)` by steps from a cell to one of its
eight neighbours, every cell on the way, `(r, c)` and `(i, j)` included,
satisfying `good`. -/
inductive Connected (good : Int → Int → Prop) (r c : Int) : Int → Int → Prop
  | start : good r c → Connected good r c r c
  | step {i j i' j' : Int} : Connected good r c i j → adjacent i j i' j' → good i' j' →
      Connected good r c i' j'

/-- The states of a game started on `b0`: those reached by a sequence of
`handle_first_mode` and `handle_second_mode` calls on in-bounds cells. -/
inductive Reachable (b0 : Board) : Board → Prop
  | init : Reachable b0 b0
  | first {b b' : Board} {row col : Int} {continues : Bool} : Reachable b0 b →
      b.inGrid row col → b.handle_first_mode row col = some (continues, b') → Reachable b0 b'
  | second {b : Board} {row col : Int} : Reachable b0 b → b.inGrid row col →
      Reachable b0 (b.handle_second_mode row col)

/-- The coordinates put on `already_changed` before the loop of `place_bombs`: the
3 x 3 block around the origin, not clamped to the grid. -/
def exclusion_zone (b : Board) : List (Int × Int) :=
  place_bombs_offsets.map (fun offset => (b.first_x + offset.1, b.first_y + offset.2))

/-- The coordinates of the grid cells outside the exclusion zone around the origin. -/
def free_cells (b : Board) : List (Int × Int) :=
  (List.product (intRange 0 b.height) (intRange 0 b.width)).filter
    (fun p => decide (p ∉ b.exclusion_zone))

/-- The display rule in the words of the specification, as a priority chain: the
flag marker if flagged; else the hidden marker if not revealed; else the mine
marker if a mine; else the adjacency count if it is positive; else a blank. -/
def display_by_priority (is_bomb is_marked is_revealed : Bool) (bombs_around : Int) : String :=
  if is_marked = true then "⚐"
  else if is_revealed = false then "■"
  else if is_bomb = true then "⚹"
  else if 0 < bombs_around then toString bombs_around
  else " "

/-! ## Relations and invariants used in the proofs -/

/-- Number of times `count_bombs(x, y)` finds its condition true: the mines in
the clamped window other than `(x, y)` itself. -/
def window_mines (b : Board) (x y : Int) : Nat :=
  ((intRange (max 0 (x - 1)) (min b.height (x + 2))).map (fun i =>
    (intRange (max 0 (y - 1)) (min b.width (y + 2))).countP (fun j =>
      (b.get_cell i j).is_bomb && decide ((i, j) ≠ (x, y))))).sum

/-- The board `b'` is `b` with some unrevealed non-mine cells revealed and nothing
else changed. -/
def Extends (b b' : Board) : Prop :=
  b'.width = b.width ∧ b'.height = b.height ∧ b'.bomb_amount = b.bomb_amount ∧
  b'.first_x = b.first_x ∧ b'.first_y = b.first_y ∧ (b.WF → b'.WF) ∧
  ∀ r c, b'.get_cell r c = b.get_cell r c ∨
    ((b.get_cell r c).is_revealed = false ∧ (b.get_cell r c).is_bomb = false ∧
      b'.get_cell r c = (b.get_cell r c).reveal)

/-- The board `b'` has the dimensions of `b` and its cells differ from those of `b`
in `bombs_around` at most. -/
def CountersOnly (b b' : Board) : Prop :=
  b'.width = b.width ∧ b'.height = b.height ∧ (b.WF → b'.WF) ∧
  ∀ r c, (b'.get_cell r c).is_bomb = (b.get_cell r c).is_bomb ∧
    (b'.get_cell r c).is_marked = (b.get_cell r c).is_marked ∧
    (b'.get_cell r c).is_revealed = (b.get_cell r c).is_revealed

/-- The board `b'` has the dimensions of `b`, and the same mines and counters. -/
def SameMines (b b' : Board) : Prop :=
  b'.width = b.width ∧ b'.height = b.height ∧
  ∀ r c, (b'.get_cell r c).is_bomb = (b.get_cell r c).is_bomb ∧
    (b'.get_cell r c).bombs_around = (b.get_cell r c).bombs_around

/-- No blank cell of `b` has a mine among its in-grid neighbours. -/
def MinesApart (b : Board) : Prop :=
  ∀ p q, b.blank p q → ∀ i j, b.inGrid i j → adjacent p q i j →
    (b.get_cell i j).is_bomb = false

/-- Every revealed blank cell of `b`, except possibly `(row, col)`, has all its
in-grid neighbours revealed. -/
def ClosedExcept (b : Board) (row col : Int) : Prop :=
  ∀ p q, b.blank p q → (b.get_cell p q).is_revealed = true → ¬(p = row ∧ q = col) →
    ∀ i j, b.inGrid i j → adjacent p q i j → (b.get_cell i j).is_revealed = true

/-- Every revealed blank cell of `b` has all its in-grid neighbours revealed. -/
def Closed (b : Board) : Prop :=
  ∀ p q, b.blank p q → (b.get_cell p q).is_revealed = true →
    ∀ i j, b.inGrid i j → adjacent p q i j → (b.get_cell i j).is_revealed = true

/-! ## Example boards -/

/-- A sequence of draws that produces the mines of `sampleBoard`; it contains
a draw inside the safe zone and a repeated draw, both rejected. -/
def sampleDraws : List (Int × Int) :=
  [(0, 0), (0, 2), (1, 2), (1, 1), (2, 2), (0, 2), (3, 2), (4, 2)]

/-- The board `sampleBoard` right after `place_bombs`, before the counters are
computed. -/
def sampleMinedBoard : Board :=
  { board := (List.range 5).map (fun _ => (List.range 5).map (fun j =>
      { is_bomb := decide (j = 2), is_marked := false, is_revealed := false,
        bombs_around := 0 })),
    width := 5, height := 5, bomb_amount := 5, first_x := 0, first_y := 0 }

/-- A 5 x 5 board after set-up: mines in column 2, counters as computed by
`count_bombs`, nothing revealed or flagged, origin `(0, 0)`. -/
def sampleBoard : Board :=
  { board := (List.range 5).map (fun i => (List.range 5).map (fun j =>
      { is_bomb := decide (j = 2), is_marked := false, is_revealed := false,
        bombs_around :=
          if j = 0 ∨ j = 4 then 0
          else if j = 2 then (if i = 0 ∨ i = 4 then 1 else 2)
          else (if i = 0 ∨ i = 4 then 2 else 3) })),
    width := 5, height := 5, bomb_amount := 5, first_x := 0, first_y := 0 }

/-- The board `sampleBoard` later in the game: the first click on `(0, 0)` has
revealed columns 0 and 1, the player has flagged the non-mine cell `(0, 3)`,
and the cell `(0, 4)` has just been revealed by a click on it. -/
def flaggedBoard : Board :=
  { board := (List.range 5).map (fun i => (List.range 5).map (fun j =>
      { is_bomb := decide (j = 2), is_marked := decide (i = 0 ∧ j = 3),
        is_revealed := decide (j ≤ 1 ∨ (i = 0 ∧ j = 4)),
        bombs_around :=
          if j = 0 ∨ j = 4 then 0
          else if j = 2 then (if i = 0 ∨ i = 4 then 1 else 2)
          else (if i = 0 ∨ i = 4 then 2 else 3) })),
    width := 5, height := 5, bomb_amount := 5, first_x := 0, first_y := 0 }

/-- A 5 x 5 board after set-up with two mines, at `(0, 2)` and `(2, 0)`, counters
as computed by `count_bombs`, and nothing revealed or flagged.  The corner
`(0, 0)` has counter 0 and its three neighbours have non-zero counters. -/
def cornerBoard : Board :=
  { board := ([[(false, 0), (false, 1), (true, 0), (false, 1), (false, 0)],
               [(false, 1), (false, 2), (false, 1), (false, 1), (false, 0)],
               [(true, 0), (false, 1), (false, 0), (false, 0), (false, 0)],
               [(false, 1), (false, 1), (false, 0), (false, 0), (false, 0)],
               [(false, 0), (false, 0), (false, 0), (false, 0), (false, 0)]] :
                List (List (Bool × Int))).map (fun row => row.map (fun p =>
      { is_bomb := p.1, is_marked := false, is_revealed := false, bombs_around := p.2 })),
    width := 5, height := 5, bomb_amount := 2, first_x := 4, first_y := 4 }

/-- The 5 x 5 board of the win-condition example: one mine at `(0, 0)`, flagged
or not, and the 24 other cells revealed. -/
def winExample (flagged : Bool) : Board :=
  { board := (List.range 5).map (fun i => (List.range 5).map (fun j =>
      if i = 0 ∧ j = 0 then
        { is_bomb := true, is_marked := flagged, is_revealed := false, bombs_around := 0 }
      else
        { is_bomb := false, is_marked := false, is_revealed := true,
          bombs_around := if i ≤ 1 ∧ j ≤ 1 then 1 else 0 })),
    width := 5, height := 5, bomb_amount := 1, first_x := 4, first_y := 4 }

/-- The board `flaggedBoard` after `reveal_around(0, 4)`: columns 3 and 4 are
revealed as well, and the cell `(0, 3)` is revealed and still flagged. -/
def floodedBoard : Board :=
  { board := (List.range 5).map (fun i => (List.range 5).map (fun j =>
      { is_bomb := decide (j = 2), is_marked := decide (i = 0 ∧ j = 3),
        is_revealed := decide (j ≠ 2),
        bombs_around :=
          if j = 0 ∨ j = 4 then 0
          else if j = 2 then (if i = 0 ∨ i = 4 then 1 else 2)
          else (if i = 0 ∨ i = 4 then 2 else 3) })),
    width := 5, height := 5, bomb_amount := 5, first_x := 0, first_y := 0 }

/-- A sequence of draws that visits every cell of a 5 x 5 grid, row by row. -/
def fullDraws : List (Int × Int) :=
  List.product (intRange 0 5) (intRange 0 5)

/-- What a run of `reveal_around` records, relative to the board `b` it starts from
and the board `b'` it ends with: every recursive call consumes an unrevealed
cell, is made on a cell that was unrevealed and is now revealed, and every
index used lies in the grid. -/
def RunSound (b b' : Board) (log : List Event) : Prop :=
  calls log + b'.unrevealed ≤ b.unrevealed ∧
  (∀ i j, Event.call i j ∈ log →
    (b.get_cell i j).is_revealed = false ∧ (b'.get_cell i j).is_revealed = true) ∧
  ∀ i j, Event.access i j ∈ log ∨ Event.call i j ∈ log → b.inGrid i j

end Board

/-! ## player.cpp -/

/-- The method `Player::verify_input`, run on the integers `inputs` that the lines
read from the standard input parse to, in order (a line that is empty or is not
an integer prints a message and the loop reads the next one).  The first value
with `temp >= min && temp <= max` is stored and the method returns; the result
pairs it with the inputs not yet read.  `none` means the inputs ran out while
the loop was still asking. -/
def verify_input : List Int → Int → Int → Option (Int × List Int)
  | [], _, _ => none
  | temp :: rest, min, max =>
    if temp ≥ min ∧ temp ≤ max then some (temp, rest) else verify_input rest min max

/-- The method `Player::get_board_dimensions`: the width, then the height, each read
by `verify_input` with the bounds 5 and 50. -/
def get_board_dimensions (inputs : List Int) : Option ((Int × Int) × List Int) :=
  match verify_input inputs 5 50 with
  | none => none
  | some (width, rest) =>
    match verify_input rest 5 50 with
    | none => none
    | some (height, rest') => some ((width, height), rest')

/-! ## main.cpp -/

/-- The literal `0.2` as an IEEE 754 binary64 number: the double nearest to one fifth
is `point_two_mantissa * 2 ^ (-55)`. -/
def point_two_mantissa : Nat := 7205759403792794

def bit_length_fuel : Nat → Nat → Nat
  | 0, _ => 0
  | fuel + 1, n => if n = 0 then 0 else bit_length_fuel fuel (n / 2) + 1

/-- Number of binary digits of `n`, for `n < 2 ^ 128`. -/
def bit_length (n : Nat) : Nat := bit_length_fuel 128 n

/-- Rounding of the natural number `N` to 53 significant binary digits, to nearest
with ties to even: the rounding of a binary64 operation whose exact result is
`N * 2 ^ e` (exponent range left aside: the values met here are far from it). -/
def round_to_double (N : Nat) : Nat :=
  if bit_length N ≤ 53 then N
  else
    let s := bit_length N - 53
    let q := N / 2 ^ s
    let r := N % 2 ^ s
    if r < 2 ^ (s - 1) then q * 2 ^ s
    else if 2 ^ (s - 1) < r then (q + 1) * 2 ^ s
    else if q % 2 = 0 then q * 2 ^ s
    else (q + 1) * 2 ^ s

/-- The expression `std::floor(n * 0.2)` for an `int` value `n`: `n` converts to a
double exactly, the product with the double `0.2` is rounded to a double,
`std::floor` rounds that down to an integer. -/
def floor_times_point_two (n : Int) : Int :=
  if 0 ≤ n then ((round_to_double (n.toNat * point_two_mantissa) / 2 ^ 55 : Nat) : Int)
  else -(((round_to_double (n.natAbs * point_two_mantissa) + (2 ^ 55 - 1)) / 2 ^ 55 : Nat) : Int)

/-- The line `int bomb_amount = std::floor((size_x * size_y) * 0.2);` of `game_loop`.
The product `size_x * size_y` is taken in `Int`: for the dimensions that
`get_board_dimensions` returns it is at most 2500 and does not overflow an `int`. -/
def game_loop_bomb_amount (size_x size_y : Int) : Int :=
  floor_times_point_two (size_x * size_y)

/-- The board that `game_loop` builds for the first move `(row, column)`:
`Board board(size_x, size_y, bomb_amount, row, column)`. -/
def game_loop_board (size_x size_y row column : Int) : Board :=
  Board.new size_x size_y (game_loop_bomb_amount size_x size_y) row column

/-- Exhaustive test of `p` on the `2 ^ d` naturals from `lo` on, by halving. -/
def check_block (p : Nat → Bool) : Nat → Nat → Bool
  | 0, lo => p lo
  | d + 1, lo => check_block p d lo && check_block p d (lo + 2 ^ d)

namespace Board

/-! ## Lemmas on the grid accessors -/

theorem mem_intRange {lo hi i : Int} : i ∈ intRange lo hi ↔ lo ≤ i ∧ i < hi := by
  unfold intRange
  simp only [List.mem_map, List.mem_range]
  constructor
  · rintro ⟨k, hk, rfl⟩
    omega
  · rintro ⟨h1, h2⟩
    exact ⟨(i - lo).toNat, by omega, by omega⟩

@[simp] theorem update_cell_width (b : Board) (i j : Int) (f : Cell → Cell) :
    (b.update_cell i j f).width = b.width := by
  unfold update_cell; split <;> rfl

@[simp] theorem update_cell_height (b : Board) (i j : Int) (f : Cell → Cell) :
    (b.update_cell i j f).height = b.height := by
  unfold update_cell; split <;> rfl

@[simp] theorem update_cell_bomb_amount (b : Board) (i j : Int) (f : Cell → Cell) :
    (b.update_cell i j f).bomb_amount = b.bomb_amount := by
  unfold update_cell; split <;> rfl

@[simp] theorem update_cell_first_x (b : Board) (i j : Int) (f : Cell → Cell) :
    (b.update_cell i j f).first_x = b.first_x := by
  unfold update_cell; split <;> rfl

@[simp] theorem update_cell_first_y (b : Board) (i j : Int) (f : Cell → Cell) :
    (b.update_cell i j f).first_y = b.first_y := by
  unfold update_cell; split <;> rfl

theorem update_cell_WF {b : Board} (h : b.WF) (i j : Int) (f : Cell → Cell) :
    (b.update_cell i j f).WF := by
  obtain ⟨h1, h2⟩ := h
  unfold update_cell
  split
  · refine ⟨by simpa using h1, ?_⟩
    intro row hrow
    simp only at hrow ⊢
    obtain ⟨n, hn, rfl⟩ := List.getElem_of_mem hrow
    rw [List.getElem_modify]
    split
    · rw [List.length_modify]; exact h2 _ (List.getElem_mem _)
    · exact h2 _ (List.getElem_mem _)
  · exact ⟨h1, h2⟩

theorem get_cell_update_cell_ne (b : Board) {i j r c : Int} (f : Cell → Cell)
    (hne : ¬(r = i ∧ c = j)) : (b.update_cell i j f).get_cell r c = b.get_cell r c := by
  unfold update_cell get_cell
  by_cases hij : 0 ≤ i ∧ 0 ≤ j
  · by_cases hrc : 0 ≤ r ∧ 0 ≤ c
    · simp only [hij, hrc, and_self, if_true]
      rw [List.getElem?_modify]
      by_cases hir : i.toNat = r.toNat
      · have hjc : j.toNat ≠ c.toNat := by omega
        cases hrow : b.board[r.toNat]? with
        | none => simp
        | some row => simp [hir, List.getElem?_modify, hjc]
      · cases hrow : b.board[r.toNat]? with
        | none => simp
        | some row => simp [hir]
    · simp [hrc]
  · simp [hij]

theorem get_cell_update_cell_same {b : Board} (h : b.WF) {i j : Int} (hg : b.inGrid i j)
    (f : Cell → Cell) : (b.update_cell i j f).get_cell i j = f (b.get_cell i j) := by
  obtain ⟨h1, h2⟩ := h
  obtain ⟨hi0, hi1, hj0, hj1⟩ := hg
  unfold update_cell get_cell
  simp only [hi0, hj0, and_self, if_true]
  have hi : i.toNat < b.board.length := by omega
  rw [List.getElem?_modify]
  simp only [List.getElem?_eq_getElem hi, if_true, Option.map_eq_map, Option.map_some', Option.getD_some]
  have hj : j.toNat < (b.board[i.toNat]).length := by
    rw [h2 _ (List.getElem_mem _)]; omega
  rw [List.getElem?_modify]
  simp [List.getElem?_eq_getElem hj]

theorem get_cell_update_cell {b : Board} (h : b.WF) {i j : Int} (hg : b.inGrid i j)
    (f : Cell → Cell) (r c : Int) :
    (b.update_cell i j f).get_cell r c =
      if r = i ∧ c = j then f (b.get_cell r c) else b.get_cell r c := by
  by_cases hrc : r = i ∧ c = j
  · obtain ⟨rfl, rfl⟩ := hrc
    simp [get_cell_update_cell_same h hg]
  · simp [hrc, get_cell_update_cell_ne b f hrc]

/-- A write through `update_cell` leaves a slot as it was or applies `f` to it. -/
theorem get_cell_update_cell_cases (b : Board) (i j r c : Int) (f : Cell → Cell) :
    (b.update_cell i j f).get_cell r c = b.get_cell r c ∨
      (r = i ∧ c = j ∧ (b.update_cell i j f).get_cell r c = f (b.get_cell r c)) := by
  by_cases hrc : r = i ∧ c = j
  · obtain ⟨rfl, rfl⟩ := hrc
    unfold update_cell get_cell
    by_cases hij : 0 ≤ r ∧ 0 ≤ c
    · simp only [hij, and_self, if_true, true_and]
      rw [List.getElem?_modify]
      cases hrow : b.board[r.toNat]? with
      | none => simp
      | some row =>
        simp only [if_true, Option.map_eq_map, Option.map_some', Option.getD_some]
        rw [List.getElem?_modify]
        cases hcell : row[c.toNat]? with
        | none => simp
        | some cell => simp
    · simp [hij]
  · exact Or.inl (get_cell_update_cell_ne b f hrc)

/-! ## Lemmas on `reveal_around` -/

theorem foldlM_option_inv {α β : Type} (f : β → α → Option β) (I : β → Prop) :
    ∀ (l : List α) (b b' : β), I b →
      (∀ b x b', x ∈ l → I b → f b x = some b' → I b') → l.foldlM f b = some b' → I b'
  | [], b, b', hb, _, h => by
    simp only [List.foldlM_nil, pure, Option.some.injEq] at h
    exact h ▸ hb
  | a :: l, b, b', hb, hstep, h => by
    simp only [List.foldlM_cons, bind, Option.bind_eq_some] at h
    obtain ⟨b1, h1, h2⟩ := h
    exact foldlM_option_inv f I l b1 b' (hstep b a b1 (List.mem_cons_self _ _) hb h1)
      (fun b x b' hx => hstep b x b' (List.mem_cons_of_mem _ hx)) h2

theorem foldlM_option_total {α β : Type} (f : β → α → Option β) (I : β → Prop) :
    ∀ (l : List α) (b : β), I b →
      (∀ b x, x ∈ l → I b → ∃ b', f b x = some b' ∧ I b') → ∃ b', l.foldlM f b = some b' ∧ I b'
  | [], b, hb, _ => ⟨b, rfl, hb⟩
  | a :: l, b, hb, hstep => by
    obtain ⟨b1, h1, hb1⟩ := hstep b a (List.mem_cons_self _ _) hb
    obtain ⟨b2, h2, hb2⟩ := foldlM_option_total f I l b1 hb1
      (fun b x hx => hstep b x (List.mem_cons_of_mem _ hx))
    refine ⟨b2, ?_, hb2⟩
    simp only [List.foldlM_cons, bind, Option.bind_eq_some]
    exact ⟨b1, h1, h2⟩

theorem Extends.ext_refl (b : Board) : Extends b b :=
  ⟨rfl, rfl, rfl, rfl, rfl, id, fun _ _ => Or.inl rfl⟩

theorem Extends.ext_trans {a b c : Board} (h1 : Extends a b) (h2 : Extends b c) : Extends a c := by
  obtain ⟨w1, hh1, ba1, x1, y1, wf1, c1⟩ := h1
  obtain ⟨w2, hh2, ba2, x2, y2, wf2, c2⟩ := h2
  refine ⟨w2.trans w1, hh2.trans hh1, ba2.trans ba1, x2.trans x1, y2.trans y1,
    fun h => wf2 (wf1 h), ?_⟩
  intro r col
  rcases c1 r col with e1 | ⟨u1, n1, e1⟩
  · rcases c2 r col with e2 | ⟨u2, n2, e2⟩
    · exact Or.inl (e2.trans e1)
    · right
      rw [e1] at u2 n2 e2
      exact ⟨u2, n2, e2⟩
  · rcases c2 r col with e2 | ⟨u2, n2, e2⟩
    · right
      exact ⟨u1, n1, e2.trans e1⟩
    · rw [e1] at u2
      simp [Cell.reveal] at u2

theorem Extends.ext_update_reveal (b : Board) (i j : Int)
    (hu : (b.get_cell i j).is_revealed = false) (hn : (b.get_cell i j).is_bomb = false) :
    Extends b (b.update_cell i j Cell.reveal) := by
  refine ⟨by simp, by simp, by simp, by simp, by simp, fun h => update_cell_WF h i j _, ?_⟩
  intro r c
  rcases get_cell_update_cell_cases b i j r c Cell.reveal with e | ⟨rfl, rfl, e⟩
  · exact Or.inl e
  · exact Or.inr ⟨hu, hn, e⟩

theorem reveal_around_visit_extends (recurse : Board → Int → Int → Option Board)
    (hrec : ∀ b i j b', recurse b i j = some b' → Extends b b')
    (b : Board) (i j : Int) (b' : Board) (h : reveal_around_visit recurse b i j = some b') :
    Extends b b' := by
  unfold reveal_around_visit at h
  split at h
  · rename_i hc
    simp only [Bool.and_eq_true, Bool.not_eq_true'] at hc
    have hext := Extends.ext_update_reveal b i j hc.1 hc.2
    simp only at h
    split at h
    · exact hext.ext_trans (hrec _ _ _ _ h)
    · simp only [Option.some.injEq] at h
      exact h ▸ hext
  · simp only [Option.some.injEq] at h
    exact h ▸ Extends.ext_refl b

theorem reveal_around_fuel_extends : ∀ (fuel : Nat) (b : Board) (row column : Int) (b' : Board),
    reveal_around_fuel fuel b row column = some b' → Extends b b'
  | 0, _, _, _, _, h => by simp [reveal_around_fuel] at h
  | fuel + 1, b, row, column, b', h => by
    unfold reveal_around_fuel at h
    split at h
    · simp only [Option.some.injEq] at h
      exact h ▸ Extends.ext_refl b
    · refine foldlM_option_inv _ (Extends b) _ b b' (Extends.ext_refl b) ?_ h
      intro b1 i b2 _ hb1 hrow
      refine foldlM_option_inv _ (Extends b) _ b1 b2 hb1 ?_ hrow
      intro b3 j b4 _ hb3 hv
      exact hb3.ext_trans (reveal_around_visit_extends _
        (reveal_around_fuel_extends fuel) b3 i j b4 hv)

theorem sum_map_modify_lt {α : Type} (g : α → Nat) (f : α → α) :
    ∀ (l : List α) (n : Nat) (hn : n < l.length), g (f (l.get ⟨n, hn⟩)) + 1 = g (l.get ⟨n, hn⟩) →
      ((l.modify f n).map g).sum + 1 = (l.map g).sum
  | [], n, hn, _ => by simp at hn
  | a :: l, 0, _, h => by
    simp only [List.get_eq_getElem, List.getElem_cons_zero] at h
    simp only [List.modify_zero_cons, List.map_cons, List.sum_cons]
    omega
  | a :: l, n + 1, hn, h => by
    simp only [List.get_eq_getElem, List.getElem_cons_succ] at h
    have ih := sum_map_modify_lt g f l n (by simpa using hn) (by simpa using h)
    simp only [List.modify_succ_cons, List.map_cons, List.sum_cons]
    omega

theorem sum_map_modify_le {α : Type} (g : α → Nat) (f : α → α) (hf : ∀ a, g (f a) ≤ g a) :
    ∀ (l : List α) (n : Nat), ((l.modify f n).map g).sum ≤ (l.map g).sum
  | [], n => by simp
  | a :: l, 0 => by
    simp only [List.modify_zero_cons, List.map_cons, List.sum_cons]
    have := hf a
    omega
  | a :: l, n + 1 => by
    have ih := sum_map_modify_le g f hf l n
    simp only [List.modify_succ_cons, List.map_cons, List.sum_cons]
    omega

theorem countP_eq_sum_map {α : Type} (p : α → Bool) (l : List α) :
    l.countP p = (l.map (fun a => if p a then 1 else 0)).sum := by
  induction l with
  | nil => rfl
  | cons a l ih =>
    simp only [List.countP_cons, ih, List.map_cons, List.sum_cons]
    omega

theorem unrevealed_update_reveal_le (b : Board) (i j : Int) :
    (b.update_cell i j Cell.reveal).unrevealed ≤ b.unrevealed := by
  unfold update_cell
  split
  · unfold unrevealed
    apply sum_map_modify_le
    intro row
    simp only [countP_eq_sum_map]
    apply sum_map_modify_le
    intro c
    simp [Cell.reveal]
  · exact Nat.le_refl _

theorem get_cell_eq_get {b : Board} (h : b.WF) {i j : Int} (hg : b.inGrid i j) :
    ∃ (hi : i.toNat < b.board.length) (hj : j.toNat < (b.board.get ⟨i.toNat, hi⟩).length),
      b.get_cell i j = (b.board.get ⟨i.toNat, hi⟩).get ⟨j.toNat, hj⟩ := by
  obtain ⟨h1, h2⟩ := h
  obtain ⟨hi0, hi1, hj0, hj1⟩ := hg
  have hi : i.toNat < b.board.length := by omega
  have hj : j.toNat < (b.board.get ⟨i.toNat, hi⟩).length := by
    rw [h2 _ (List.get_mem _ _ _)]; omega
  refine ⟨hi, hj, ?_⟩
  unfold get_cell
  simp only [hi0, hj0, and_self, if_true, List.get_eq_getElem]
  simp only [List.get_eq_getElem] at hj
  simp [List.getElem?_eq_getElem hi, List.getElem?_eq_getElem hj]

theorem unrevealed_update_reveal_lt {b : Board} (h : b.WF) {i j : Int} (hg : b.inGrid i j)
    (hu : (b.get_cell i j).is_revealed = false) :
    (b.update_cell i j Cell.reveal).unrevealed < b.unrevealed := by
  obtain ⟨hi, hj, hget⟩ := get_cell_eq_get h hg
  rw [hget] at hu
  have h0 : 0 ≤ i ∧ 0 ≤ j := ⟨hg.1, hg.2.2.1⟩
  unfold update_cell
  simp only [h0, and_self, if_true]
  unfold unrevealed
  have key := sum_map_modify_lt (fun row : List Cell => row.countP (fun cell => !cell.is_revealed))
    (fun r => r.modify Cell.reveal j.toNat) b.board i.toNat hi ?_
  · simp only at key ⊢
    omega
  · simp only [countP_eq_sum_map]
    apply sum_map_modify_lt _ _ _ _ hj
    simp only [List.get_eq_getElem] at hu
    simp [Cell.reveal, hu]

theorem reveal_around_visit_total (recurse : Board → Int → Int → Option Board) (bound : Nat)
    (hrec : ∀ b i j, b.WF → b.unrevealed < bound →
      ∃ b', recurse b i j = some b' ∧ b'.unrevealed ≤ b.unrevealed)
    (b : Board) (hwf : b.WF) (i j : Int) (hg : b.inGrid i j) (hb : b.unrevealed < bound + 1) :
    ∃ b', reveal_around_visit recurse b i j = some b' ∧ b'.unrevealed ≤ b.unrevealed := by
  unfold reveal_around_visit
  split
  · rename_i hc
    simp only [Bool.and_eq_true, Bool.not_eq_true'] at hc
    have hlt := unrevealed_update_reveal_lt hwf hg hc.1
    simp only
    split
    · obtain ⟨b', h1, h2⟩ := hrec (b.update_cell i j Cell.reveal) i j
        (update_cell_WF hwf i j _) (by omega)
      exact ⟨b', h1, by omega⟩
    · exact ⟨_, rfl, by omega⟩
  · exact ⟨b, rfl, Nat.le_refl _⟩

theorem reveal_around_fuel_total : ∀ (fuel : Nat) (b : Board) (row column : Int),
    b.WF → b.unrevealed < fuel →
      ∃ b', reveal_around_fuel fuel b row column = some b' ∧ b'.unrevealed ≤ b.unrevealed
  | 0, _, _, _, _, h => by omega
  | fuel + 1, b, row, column, hwf, hlt => by
    unfold reveal_around_fuel
    split
    · exact ⟨b, rfl, Nat.le_refl _⟩
    · have key := foldlM_option_total
        (fun b i => (intRange (max 0 (column - 1)) (min (column + 2) b.width)).foldlM
          (fun b j => reveal_around_visit (reveal_around_fuel fuel) b i j) b)
        (fun bk => Extends b bk ∧ bk.unrevealed ≤ b.unrevealed)
        (intRange (max 0 (row - 1)) (min (row + 2) b.height)) b ⟨Extends.ext_refl b, Nat.le_refl _⟩ ?_
      · obtain ⟨b', h1, _, h2⟩ := key
        exact ⟨b', h1, h2⟩
      · intro b1 i hi ⟨he1, hu1⟩
        have hw1 : b1.width = b.width := he1.1
        have key2 := foldlM_option_total
          (fun b j => reveal_around_visit (reveal_around_fuel fuel) b i j)
          (fun bk => Extends b bk ∧ bk.unrevealed ≤ b.unrevealed)
          (intRange (max 0 (column - 1)) (min (column + 2) b1.width)) b1 ⟨he1, hu1⟩ ?_
        · exact key2
        · intro b2 j hj ⟨he2, hu2⟩
          have hwf2 : b2.WF := he2.2.2.2.2.2.1 hwf
          rw [mem_intRange] at hi hj
          have hg : b2.inGrid i j := by
            refine ⟨by omega, ?_, by omega, ?_⟩
            · rw [he2.2.1]; omega
            · rw [he2.1]; omega
          obtain ⟨b3, h3, hu3⟩ := reveal_around_visit_total (reveal_around_fuel fuel) fuel
            (fun b i j hw hl => reveal_around_fuel_total fuel b i j hw hl) b2 hwf2 i j hg (by omega)
          refine ⟨b3, h3, ?_, by omega⟩
          exact he2.ext_trans (reveal_around_visit_extends _ (reveal_around_fuel_extends fuel) b2 i j b3 h3)

theorem reveal_around_total (b : Board) (hwf : b.WF) (row column : Int) :
    ∃ b', b.reveal_around row column = some b' ∧ Extends b b' := by
  obtain ⟨b', h, _⟩ := reveal_around_fuel_total (b.unrevealed + 1) b row column hwf (by omega)
  exact ⟨b', h, reveal_around_fuel_extends _ _ _ _ _ h⟩

theorem foldlM_option_mono {α β : Type} (f g : β → α → Option β) :
    ∀ (l : List α) (b b' : β), (∀ b x b', x ∈ l → f b x = some b' → g b x = some b') →
      l.foldlM f b = some b' → l.foldlM g b = some b'
  | [], _, _, _, h => h
  | a :: l, b, b', hfg, h => by
    simp only [List.foldlM_cons, bind, Option.bind_eq_some] at h ⊢
    obtain ⟨b1, h1, h2⟩ := h
    exact ⟨b1, hfg b a b1 (List.mem_cons_self _ _) h1,
      foldlM_option_mono f g l b1 b' (fun b x b' hx => hfg b x b' (List.mem_cons_of_mem _ hx)) h2⟩

/-- The depth bound does not influence the result of `reveal_around`: a run that
completes within one bound completes with the same board within any larger one. -/
theorem reveal_around_fuel_mono : ∀ (fuel fuel' : Nat) (b : Board) (row column : Int)
    (b' : Board), fuel ≤ fuel' → reveal_around_fuel fuel b row column = some b' →
      reveal_around_fuel fuel' b row column = some b'
  | 0, _, _, _, _, _, _, h => by simp [reveal_around_fuel] at h
  | fuel + 1, 0, _, _, _, _, hle, _ => by omega
  | fuel + 1, fuel' + 1, b, row, column, b', hle, h => by
    unfold reveal_around_fuel at h ⊢
    split
    · rename_i hz
      rw [if_pos hz] at h
      exact h
    · rename_i hz
      rw [if_neg hz] at h
      refine foldlM_option_mono _ _ _ b b' ?_ h
      intro b1 i b2 _ hf
      refine foldlM_option_mono _ _ _ b1 b2 ?_ hf
      intro b3 j b4 _ hv
      unfold reveal_around_visit at hv ⊢
      split
      · rename_i hc
        rw [if_pos hc] at hv
        simp only at hv ⊢
        split
        · rename_i hc2
          rw [if_pos hc2] at hv
          exact reveal_around_fuel_mono fuel fuel' _ i j b4 (by omega) hv
        · rename_i hc2
          rw [if_neg hc2] at hv
          exact hv
      · rename_i hc
        rw [if_neg hc] at hv
        exact hv

/-! ## Lemmas on `handle_lose_condition` and `handle_first_mode` -/

theorem Extends.revealed {b b' : Board} (h : Extends b b') {r c : Int}
    (hr : (b.get_cell r c).is_revealed = true) : (b'.get_cell r c).is_revealed = true := by
  rcases h.2.2.2.2.2.2 r c with e | ⟨u, _, _⟩
  · rw [e]; exact hr
  · rw [hr] at u; cases u

theorem handle_lose_condition_WF {b : Board} (h : b.WF) : b.handle_lose_condition.WF := by
  obtain ⟨h1, h2⟩ := h
  refine ⟨by simpa [handle_lose_condition] using h1, ?_⟩
  intro row hrow
  simp only [handle_lose_condition, List.mem_map] at hrow
  obtain ⟨row0, hrow0, rfl⟩ := hrow
  simpa [handle_lose_condition] using h2 row0 hrow0

theorem handle_lose_condition_mem (b : Board) :
    ∀ row ∈ b.handle_lose_condition.board, ∀ cell ∈ row, cell.is_revealed = true := by
  intro row hrow cell hcell
  simp only [handle_lose_condition, List.mem_map] at hrow
  obtain ⟨row0, _, rfl⟩ := hrow
  simp only [List.mem_map] at hcell
  obtain ⟨cell0, _, rfl⟩ := hcell
  rfl

theorem get_cell_handle_lose_condition (b : Board) (r c : Int) :
    b.handle_lose_condition.get_cell r c = b.get_cell r c ∨
      b.handle_lose_condition.get_cell r c = (b.get_cell r c).reveal := by
  unfold handle_lose_condition get_cell
  by_cases hrc : 0 ≤ r ∧ 0 ≤ c
  · simp only [hrc, and_self, if_true, List.getElem?_map]
    cases hrow : b.board[r.toNat]? with
    | none => simp
    | some row =>
      simp only [Option.map_some', Option.getD_some, List.getElem?_map]
      cases hcell : row[c.toNat]? with
      | none => simp
      | some cell => simp
  · simp [hrc]

theorem get_cell_mem {b : Board} (h : b.WF) {i j : Int} (hg : b.inGrid i j) :
    ∃ row ∈ b.board, b.get_cell i j ∈ row := by
  obtain ⟨hi, hj, hget⟩ := get_cell_eq_get h hg
  exact ⟨_, List.get_mem _ _ _, hget ▸ List.get_mem _ _ _⟩

/-- The first `if` of `handle_first_mode` (clearing the flag of the target)
changes no field other than `is_marked`. -/
theorem unflag_get_cell (b : Board) (row col r c : Int) :
    ((if (b.get_cell row col).is_marked = true then b.update_cell row col Cell.flag_bomb
      else b).get_cell r c).is_bomb = (b.get_cell r c).is_bomb ∧
    ((if (b.get_cell row col).is_marked = true then b.update_cell row col Cell.flag_bomb
      else b).get_cell r c).is_revealed = (b.get_cell r c).is_revealed ∧
    ((if (b.get_cell row col).is_marked = true then b.update_cell row col Cell.flag_bomb
      else b).get_cell r c).bombs_around = (b.get_cell r c).bombs_around := by
  split
  · rcases get_cell_update_cell_cases b row col r c Cell.flag_bomb with e | ⟨_, _, e⟩
    · rw [e]; exact ⟨rfl, rfl, rfl⟩
    · rw [e]; exact ⟨rfl, rfl, rfl⟩
  · exact ⟨rfl, rfl, rfl⟩

theorem unflag_WF {b : Board} (h : b.WF) (row col : Int) :
    (if (b.get_cell row col).is_marked = true then b.update_cell row col Cell.flag_bomb
      else b).WF := by
  split
  · exact update_cell_WF h _ _ _
  · exact h

/-! ## Win and lose conditions -/

/-- The sample board is what set-up computes from the sample draws. -/
theorem sampleBoard_setup :
    ((Board.new 5 5 5 0 0).place_bombs sampleDraws).map (fun b => b.count_all_bombs 5 5) =
      some sampleBoard := by
  decide

/-- The win-condition example is reached in play: one mine drawn at `(0, 0)`,
first click on `(4, 4)`, then the mine is flagged. -/
theorem winExample_reached :
    (((Board.new 5 5 1 4 4).place_bombs [(0, 0)]).bind
      (fun b => (b.count_all_bombs 5 5).handle_first_mode 4 4)) = some (true, winExample false) ∧
    (winExample false).handle_second_mode 0 0 = winExample true := by
  decide

/-- Claim C4: `handle_win_condition` returns `false` exactly when every
non-mine cell is revealed and every mine is flagged, and `true` in every other
case; on the 5 x 5 example with one mine at `(0, 0)` and the 24 other cells
revealed it returns `false` when the mine is flagged and `true` when not. -/
theorem handle_win_condition_exact (b : Board) :
    (b.handle_win_condition = false ↔
      ∀ row ∈ b.board, ∀ cell ∈ row,
        (cell.is_bomb = false → cell.is_revealed = true) ∧
        (cell.is_bomb = true → cell.is_marked = true)) ∧
    (b.handle_win_condition = true ↔
      ¬ ∀ row ∈ b.board, ∀ cell ∈ row,
        (cell.is_bomb = false → cell.is_revealed = true) ∧
        (cell.is_bomb = true → cell.is_marked = true)) ∧
    (winExample true).handle_win_condition = false ∧
    (winExample false).handle_win_condition = true := by
  have key : b.handle_win_condition = false ↔
      ∀ row ∈ b.board, ∀ cell ∈ row,
        (cell.is_bomb = false → cell.is_revealed = true) ∧
        (cell.is_bomb = true → cell.is_marked = true) := by
    unfold handle_win_condition
    rw [Bool.eq_false_iff]
    simp only [ne_eq, List.any_eq_true, not_exists, not_and, Bool.or_eq_true, Bool.and_eq_true,
      Bool.not_eq_true', not_or]
    constructor
    · intro h row hrow cell hcell
      have := h row hrow cell hcell
      cases hb : cell.is_bomb <;> cases hr : cell.is_revealed <;> cases hm : cell.is_marked <;>
        simp_all
    · intro h row hrow cell hcell
      have := h row hrow cell hcell
      cases hb : cell.is_bomb <;> cases hr : cell.is_revealed <;> cases hm : cell.is_marked <;>
        simp_all
  refine ⟨key, ?_, by decide, by decide⟩
  rw [← key]
  simp

/-- Claim C5: `handle_first_mode` on an in-bounds mine cell reports the loss
and leaves every cell of the grid revealed. -/
theorem lose_full_disclosure (b : Board) (hwf : b.WF) (row col : Int)
    (_hin : b.inGrid row col) (hmine : (b.get_cell row col).is_bomb = true) :
    ∃ b', b.handle_first_mode row col = some (false, b') ∧
      (∀ r ∈ b'.board, ∀ cell ∈ r, cell.is_revealed = true) ∧
      b'.WF ∧ b'.width = b.width ∧ b'.height = b.height ∧
      ∀ r c, b'.inGrid r c → (b'.get_cell r c).is_revealed = true := by
  have hb := (unflag_get_cell b row col row col).1
  have hwf1 := unflag_WF hwf row col
  rw [hmine] at hb
  refine ⟨_, ?_, handle_lose_condition_mem _, handle_lose_condition_WF hwf1, ?_, ?_, ?_⟩
  · unfold handle_first_mode
    simp only [hb, Bool.not_true, Bool.and_false, Bool.false_eq_true, if_false, if_true]
  · split <;> simp [handle_lose_condition]
  · split <;> simp [handle_lose_condition]
  · intro r c hg
    obtain ⟨rw_, hrow, hcell⟩ := get_cell_mem (handle_lose_condition_WF hwf1) hg
    exact handle_lose_condition_mem _ rw_ hrow _ hcell

/-- Instance of claim C5: a click on the mine `(1, 2)` of the sample board. -/
theorem lose_full_disclosure_witness :
    ∃ b', sampleBoard.handle_first_mode 1 2 = some (false, b') ∧
      (∀ r ∈ b'.board, ∀ cell ∈ r, cell.is_revealed = true) ∧
      b'.WF ∧ b'.width = sampleBoard.width ∧ b'.height = sampleBoard.height ∧
      ∀ r c, b'.inGrid r c → (b'.get_cell r c).is_revealed = true :=
  lose_full_disclosure sampleBoard (by decide) 1 2 (by decide) (by decide)

/-! ## Monotonic reveal -/

/-- What a call of `handle_first_mode` on a well-formed board does: it returns,
and the new board is the old one with its target unflagged and then either
extended by reveals, or fully revealed. -/
theorem handle_first_mode_cases (b : Board) (hwf : b.WF) (row col : Int) :
    ∃ res, b.handle_first_mode row col = some res ∧
      (Extends (if (b.get_cell row col).is_marked = true then
          b.update_cell row col Cell.flag_bomb else b) res.2 ∨
        res.2 = (if (b.get_cell row col).is_marked = true then
          b.update_cell row col Cell.flag_bomb else b).handle_lose_condition) := by
  have hwf1 := unflag_WF hwf row col
  have key : ∀ b1 : Board, b1.WF → ∃ res,
      (if (!(b1.get_cell row col).is_revealed && !(b1.get_cell row col).is_bomb) = true then
        ((b1.update_cell row col Cell.reveal).reveal_around row col).map (fun b2 => (true, b2))
      else if (b1.get_cell row col).is_bomb = true then some (false, b1.handle_lose_condition)
      else some (true, b1)) = some res ∧
      (Extends b1 res.2 ∨ res.2 = b1.handle_lose_condition) := by
    intro b1 hb1
    by_cases hc : (!(b1.get_cell row col).is_revealed && !(b1.get_cell row col).is_bomb) = true
    · rw [if_pos hc]
      simp only [Bool.and_eq_true, Bool.not_eq_true'] at hc
      have hext := Extends.ext_update_reveal _ row col hc.1 hc.2
      obtain ⟨b2, h2, hext2⟩ := reveal_around_total _ (update_cell_WF hb1 row col Cell.reveal)
        row col
      refine ⟨(true, b2), ?_, Or.inl (hext.ext_trans hext2)⟩
      rw [h2]; rfl
    · rw [if_neg hc]
      by_cases hm : (b1.get_cell row col).is_bomb = true
      · rw [if_pos hm]; exact ⟨_, rfl, Or.inr rfl⟩
      · rw [if_neg hm]; exact ⟨_, rfl, Or.inl (Extends.ext_refl _)⟩
  exact key _ hwf1

/-- Claim C9: a cell that is revealed stays revealed under each of
`handle_first_mode`, `handle_second_mode`, `reveal_around` and
`handle_lose_condition` (all of which return). -/
theorem monotonic_reveal (b : Board) (hwf : b.WF) (row col : Int) (_hin : b.inGrid row col)
    (r c : Int) (hrev : (b.get_cell r c).is_revealed = true) :
    (∃ res, b.handle_first_mode row col = some res ∧
      (res.2.get_cell r c).is_revealed = true) ∧
    ((b.handle_second_mode row col).get_cell r c).is_revealed = true ∧
    (∃ b', b.reveal_around row col = some b' ∧ (b'.get_cell r c).is_revealed = true) ∧
    (b.handle_lose_condition.get_cell r c).is_revealed = true := by
  have hlose : ∀ b0 : Board, (b0.get_cell r c).is_revealed = true →
      (b0.handle_lose_condition.get_cell r c).is_revealed = true := by
    intro b0 h0
    rcases get_cell_handle_lose_condition b0 r c with e | e
    · rw [e]; exact h0
    · rw [e]; rfl
  refine ⟨?_, ?_, ?_, hlose b hrev⟩
  · obtain ⟨res, hres, hcase⟩ := handle_first_mode_cases b hwf row col
    have h1 := (unflag_get_cell b row col r c).2.1
    rw [hrev] at h1
    refine ⟨res, hres, ?_⟩
    rcases hcase with hext | heq
    · exact hext.revealed h1
    · rw [heq]; exact hlose _ h1
  · unfold handle_second_mode
    split
    · rcases get_cell_update_cell_cases b row col r c Cell.flag_bomb with e | ⟨_, _, e⟩
      · rw [e]; exact hrev
      · rw [e]; exact hrev
    · exact hrev
  · obtain ⟨b', h, hext⟩ := reveal_around_total b hwf row col
    exact ⟨b', h, hext.revealed hrev⟩

/-- Instance of claim C9: the revealed cell `(4, 4)` of the win-condition example
under the four actions at `(0, 1)`. -/
theorem monotonic_reveal_witness :
    (∃ res, (winExample false).handle_first_mode 0 1 = some res ∧
      (res.2.get_cell 4 4).is_revealed = true) ∧
    (((winExample false).handle_second_mode 0 1).get_cell 4 4).is_revealed = true ∧
    (∃ b', (winExample false).reveal_around 0 1 = some b' ∧
      (b'.get_cell 4 4).is_revealed = true) ∧
    ((winExample false).handle_lose_condition.get_cell 4 4).is_revealed = true :=
  monotonic_reveal (winExample false) (by decide) 0 1 (by decide) 4 4 (by decide)

/-! ## Construction and mine placement -/

theorem modify_eq_self_of_fixed {α : Type} (f : α → α) :
    ∀ (l : List α) (n : Nat), (∀ a ∈ l, f a = a) → l.modify f n = l
  | [], n, _ => by simp
  | a :: l, 0, h => by simp [h a (List.mem_cons_self _ _)]
  | a :: l, n + 1, h => by
    simp [modify_eq_self_of_fixed f l n (fun a ha => h a (List.mem_cons_of_mem _ ha))]

theorem foldl_fixed {α β : Type} (f : β → α → β) (b : β) (hf : ∀ a, f b a = b) :
    ∀ l : List α, l.foldl f b = b
  | [] => rfl
  | a :: l => by rw [List.foldl_cons, hf a]; exact foldl_fixed f b hf l

theorem create_board_eq (b : Board) :
    b.create_board = List.replicate b.height.toNat (List.replicate b.width.toNat Cell.new) := by
  unfold create_board
  simp only
  rw [foldl_fixed]
  intro i
  rw [foldl_fixed]
  intro j
  unfold update_cell
  split
  · simp only
    rw [modify_eq_self_of_fixed]
    intro row hrow
    rw [List.eq_of_mem_replicate hrow]
    apply modify_eq_self_of_fixed
    intro a ha
    rw [List.eq_of_mem_replicate ha]
  · rfl

theorem new_board (w h bombs x y : Int) :
    (Board.new w h bombs x y).board = List.replicate h.toNat (List.replicate w.toNat Cell.new) := by
  simp [Board.new, create_board_eq]

theorem new_WF (w h bombs x y : Int) : (Board.new w h bombs x y).WF := by
  refine ⟨?_, ?_⟩
  · rw [new_board]; simp [Board.new]
  · intro row hrow
    rw [new_board] at hrow
    rw [List.eq_of_mem_replicate hrow]
    simp [Board.new]

theorem new_get_cell (w h bombs x y r c : Int) :
    (Board.new w h bombs x y).get_cell r c = Cell.new := by
  unfold get_cell
  rw [new_board]
  split
  · cases hrow : (List.replicate h.toNat (List.replicate w.toNat Cell.new))[r.toNat]? with
    | none => simp
    | some row =>
      have hmem := List.getElem?_mem hrow
      rw [List.eq_of_mem_replicate hmem]
      cases hcell : (List.replicate w.toNat Cell.new)[c.toNat]? with
      | none => simp
      | some cell =>
        have hmem2 := List.getElem?_mem hcell
        simp only [Option.getD_some, hcell]
        exact List.eq_of_mem_replicate hmem2
  · rfl

/-- The guard of `place_bombs` keeps mines out of every coordinate that is already on
`already_changed`. -/
theorem place_bombs_loop_excludes (zone : List (Int × Int)) :
    ∀ (draws : List (Int × Int)) (changed : Int) (already_changed : List (Int × Int))
      (b b' : Board), place_bombs_loop draws changed already_changed b = some b' →
      (∀ p ∈ zone, p ∈ already_changed) →
      (∀ p ∈ zone, (b.get_cell p.1 p.2).is_bomb = false) →
      ∀ p ∈ zone, (b'.get_cell p.1 p.2).is_bomb = false
  | [], changed, ac, b, b', h, _, hb => by
    unfold place_bombs_loop at h
    split at h
    · cases h
    · simp only [Option.some.injEq] at h
      exact h ▸ hb
  | (row, column) :: draws, changed, ac, b, b', h, hz, hb => by
    unfold place_bombs_loop at h
    split at h
    · split at h
      · rename_i hnot
        refine place_bombs_loop_excludes zone draws _ _ _ b' h ?_ ?_
        · intro p hp
          exact List.mem_append_left _ (hz p hp)
        · intro p hp
          rw [get_cell_update_cell_ne]
          · exact hb p hp
          · rintro ⟨h1, h2⟩
            apply hnot
            have : p = (row, column) := Prod.ext h1 h2
            exact this ▸ hz p hp
      · exact place_bombs_loop_excludes zone draws _ _ _ b' h hz hb
    · simp only [Option.some.injEq] at h
      exact h ▸ hb

/-- No mine is placed within distance one of the origin in both coordinates. -/
theorem place_bombs_zone_free (w h bombs x y : Int) (draws : List (Int × Int)) (b' : Board)
    (hplace : (Board.new w h bombs x y).place_bombs draws = some b')
    (r c : Int) (hr : |r - x| ≤ 1) (hc : |c - y| ≤ 1) :
    (b'.get_cell r c).is_bomb = false := by
  unfold place_bombs at hplace
  have key := place_bombs_loop_excludes
    (place_bombs_offsets.map (fun offset =>
      ((Board.new w h bombs x y).first_x + offset.1, (Board.new w h bombs x y).first_y + offset.2)))
    draws 0 _ _ b' hplace (fun p hp => hp) (fun p _ => by rw [new_get_cell]; rfl) (r, c) ?_
  · exact key
  · have hfx : (Board.new w h bombs x y).first_x = x := rfl
    have hfy : (Board.new w h bombs x y).first_y = y := rfl
    rw [hfx, hfy]
    rw [abs_le] at hr hc
    have hr' : r - x = -1 ∨ r - x = 0 ∨ r - x = 1 := by omega
    have hc' : c - y = -1 ∨ c - y = 0 ∨ c - y = 1 := by omega
    simp only [place_bombs_offsets, List.map_cons, List.map_nil, List.mem_cons, Prod.mk.injEq,
      List.mem_nil_iff, or_false]
    omega

/-- Claim C1: after `place_bombs` on a freshly constructed board with an in-bounds
origin, whatever the draws on which it terminates, no cell within distance one
of the origin in both coordinates is a mine. -/
theorem place_bombs_excludes_origin (w h bombs x y : Int) (_hx : 0 ≤ x ∧ x < h)
    (_hy : 0 ≤ y ∧ y < w) (draws : List (Int × Int)) (b' : Board)
    (hplace : (Board.new w h bombs x y).place_bombs draws = some b')
    (r c : Int) (hr : |r - x| ≤ 1) (hc : |c - y| ≤ 1) :
    (b'.get_cell r c).is_bomb = false :=
  place_bombs_zone_free w h bombs x y draws b' hplace r c hr hc

/-- Instance of claim C1: the sample draws on a fresh 5 x 5 board with origin
`(0, 0)`, and the cell `(1, 1)`. -/
theorem place_bombs_excludes_origin_witness :
    (Board.new 5 5 5 0 0).place_bombs sampleDraws = some sampleMinedBoard ∧
      (sampleMinedBoard.get_cell 1 1).is_bomb = false :=
  ⟨by decide, place_bombs_excludes_origin 5 5 5 0 0 (by decide) (by decide) sampleDraws
    sampleMinedBoard (by decide) 1 1 (by decide) (by decide)⟩

theorem sum_map_modify {α : Type} (g : α → Nat) (f : α → α) :
    ∀ (l : List α) (n : Nat) (hn : n < l.length),
      ((l.modify f n).map g).sum + g (l.get ⟨n, hn⟩) = (l.map g).sum + g (f (l.get ⟨n, hn⟩))
  | [], n, hn => by simp at hn
  | a :: l, 0, _ => by
    simp only [List.modify_zero_cons, List.map_cons, List.sum_cons, List.get_eq_getElem,
      List.getElem_cons_zero]
    omega
  | a :: l, n + 1, hn => by
    have ih := sum_map_modify g f l n (by simpa using hn)
    simp only [List.get_eq_getElem] at ih
    simp only [List.modify_succ_cons, List.map_cons, List.sum_cons, List.get_eq_getElem,
      List.getElem_cons_succ]
    omega

theorem mines_update_MineCell {b : Board} (h : b.WF) {i j : Int} (hg : b.inGrid i j)
    (hn : (b.get_cell i j).is_bomb = false) :
    (b.update_cell i j (fun _ => MineCell)).mines = b.mines + 1 := by
  obtain ⟨hi, hj, hget⟩ := get_cell_eq_get h hg
  rw [hget] at hn
  have h0 : 0 ≤ i ∧ 0 ≤ j := ⟨hg.1, hg.2.2.1⟩
  unfold update_cell
  simp only [h0, and_self, if_true]
  unfold mines
  have hrow : ((b.board.get ⟨i.toNat, hi⟩).modify (fun _ => MineCell) j.toNat).countP
      (fun cell => cell.is_bomb) = (b.board.get ⟨i.toNat, hi⟩).countP (fun cell => cell.is_bomb) + 1 := by
    have key2 := sum_map_modify (fun cell : Cell => if cell.is_bomb then 1 else 0)
      (fun _ => MineCell) (b.board.get ⟨i.toNat, hi⟩) j.toNat hj
    have hM : MineCell.is_bomb = true := rfl
    simp only [hn, hM, Bool.false_eq_true, if_false, if_true] at key2
    simp only [countP_eq_sum_map]
    omega
  have key := sum_map_modify (fun row : List Cell => row.countP (fun cell => cell.is_bomb))
    (fun r => r.modify (fun _ => MineCell) j.toNat) b.board i.toNat hi
  simp only [hrow] at key
  show (List.map (fun row : List Cell => row.countP (fun cell => cell.is_bomb))
    (b.board.modify (fun r => r.modify (fun _ => MineCell) j.toNat) i.toNat)).sum = _
  omega

/-- Invariant of the loop of `place_bombs`: the mines placed so far are counted by
`changed` and all lie on `already_changed`. -/
theorem place_bombs_loop_count :
    ∀ (draws : List (Int × Int)) (changed : Int) (already_changed : List (Int × Int))
      (b b' : Board), place_bombs_loop draws changed already_changed b = some b' →
      b.WF → (∀ d ∈ draws, b.inGrid d.1 d.2) →
      (∀ r c, (b.get_cell r c).is_bomb = true → (r, c) ∈ already_changed) →
      (b.mines : Int) = changed → changed ≤ b.bomb_amount →
      (b'.mines : Int) = b.bomb_amount ∧ b'.WF ∧ b'.width = b.width ∧ b'.height = b.height
  | [], changed, ac, b, b', h, hwf, _, _, hm, hle => by
    unfold place_bombs_loop at h
    split at h
    · cases h
    · simp only [Option.some.injEq] at h
      subst h
      exact ⟨by omega, hwf, rfl, rfl⟩
  | (row, column) :: draws, changed, ac, b, b', h, hwf, hd, hac, hm, hle => by
    unfold place_bombs_loop at h
    split at h
    · split at h
      · rename_i hlt hnot
        have hg : b.inGrid row column := hd (row, column) (List.mem_cons_self _ _)
        have hnb : (b.get_cell row column).is_bomb = false := by
          cases hb : (b.get_cell row column).is_bomb
          · rfl
          · exact absurd (hac row column hb) hnot
        have ih := place_bombs_loop_count draws _ _ _ b' h (update_cell_WF hwf _ _ _)
          (fun d hd' => by
            have := hd d (List.mem_cons_of_mem _ hd')
            simpa [inGrid] using this)
          (fun r c hb => by
            by_cases hrc : r = row ∧ c = column
            · obtain ⟨rfl, rfl⟩ := hrc
              exact List.mem_append_right _ (List.mem_singleton_self _)
            · rw [get_cell_update_cell_ne b _ hrc] at hb
              exact List.mem_append_left _ (hac r c hb))
          (by rw [mines_update_MineCell hwf hg hnb]; push_cast; omega)
          (by simp only [update_cell_bomb_amount]; omega)
        simpa using ih
      · exact place_bombs_loop_count draws _ _ _ b' h hwf
          (fun d hd' => hd d (List.mem_cons_of_mem _ hd')) hac hm hle
    · simp only [Option.some.injEq] at h
      subst h
      exact ⟨by omega, hwf, rfl, rfl⟩

theorem new_mines (w h bombs x y : Int) : (Board.new w h bombs x y).mines = 0 := by
  unfold mines
  rw [new_board]
  apply List.sum_eq_zero
  intro n hn
  simp only [List.map_replicate, List.mem_replicate] at hn
  rw [hn.2]
  simp [Cell.new]

/-- Claim C2: after `place_bombs` on a freshly constructed board with
`bomb_amount >= 0`, whatever the in-range draws on which it terminates, exactly
`bomb_amount` cells of the grid are mines. -/
theorem place_bombs_count (w h bombs x y : Int) (hbombs : 0 ≤ bombs)
    (draws : List (Int × Int))
    (hdraws : ∀ d ∈ draws, 0 ≤ d.1 ∧ d.1 ≤ h - 1 ∧ 0 ≤ d.2 ∧ d.2 ≤ w - 1) (b' : Board)
    (hplace : (Board.new w h bombs x y).place_bombs draws = some b') :
    (b'.mines : Int) = bombs ∧ b'.WF ∧ b'.width = w ∧ b'.height = h := by
  unfold place_bombs at hplace
  have key := place_bombs_loop_count draws 0 _ _ b' hplace (new_WF w h bombs x y) ?_ ?_ ?_ ?_
  · exact key
  · intro d hd
    have := hdraws d hd
    show 0 ≤ d.1 ∧ d.1 < h ∧ 0 ≤ d.2 ∧ d.2 < w
    omega
  · intro r c hb
    rw [new_get_cell] at hb
    cases hb
  · rw [new_mines]; rfl
  · exact hbombs

/-- Instance of claim C2: the sample draws place exactly 5 mines on a fresh 5 x 5
board. -/
theorem place_bombs_count_witness :
    (Board.new 5 5 5 0 0).place_bombs sampleDraws = some sampleMinedBoard ∧
      ((sampleMinedBoard.mines : Int) = 5 ∧ sampleMinedBoard.WF ∧
        sampleMinedBoard.width = 5 ∧ sampleMinedBoard.height = 5) :=
  ⟨by decide, place_bombs_count 5 5 5 0 0 (by decide) sampleDraws (by decide) sampleMinedBoard
    (by decide)⟩

/-! ## Adjacency counting -/

theorem CountersOnly.co_refl (b : Board) : CountersOnly b b :=
  ⟨rfl, rfl, id, fun _ _ => ⟨rfl, rfl, rfl⟩⟩

theorem CountersOnly.co_trans {a b c : Board} (h1 : CountersOnly a b) (h2 : CountersOnly b c) :
    CountersOnly a c := by
  obtain ⟨w1, hh1, wf1, c1⟩ := h1
  obtain ⟨w2, hh2, wf2, c2⟩ := h2
  refine ⟨w2.trans w1, hh2.trans hh1, fun h => wf2 (wf1 h), fun r c => ?_⟩
  obtain ⟨x1, x2, x3⟩ := c1 r c
  obtain ⟨y1, y2, y3⟩ := c2 r c
  exact ⟨y1.trans x1, y2.trans x2, y3.trans x3⟩

theorem CountersOnly.update_counter (b : Board) (x y : Int) :
    CountersOnly b (b.update_cell x y Cell.update_counter) := by
  refine ⟨by simp, by simp, fun h => update_cell_WF h _ _ _, fun r c => ?_⟩
  rcases get_cell_update_cell_cases b x y r c Cell.update_counter with e | ⟨_, _, e⟩
  · rw [e]; exact ⟨rfl, rfl, rfl⟩
  · rw [e]; exact ⟨rfl, rfl, rfl⟩

theorem window_mines_congr {b b' : Board} (h : CountersOnly b b') (x y : Int) :
    b'.window_mines x y = b.window_mines x y := by
  unfold window_mines
  rw [h.1, h.2.1]
  congr 1
  apply List.map_congr_left
  intro i _
  apply List.countP_congr
  intro j _
  rw [(h.2.2.2 i j).1]

theorem mine_neighbours_congr {b b' : Board} (h : CountersOnly b b') (x y : Int) :
    b'.mine_neighbours x y = b.mine_neighbours x y := by
  unfold mine_neighbours
  rw [h.1, h.2.1]
  congr 1
  apply List.map_congr_left
  intro i _
  apply List.countP_congr
  intro j _
  rw [(h.2.2.2 i j).1]

/-- State of `count_bombs(x, y)` after `k` increments, relative to the board `b`
it started from. -/
theorem count_bombs_inner (b : Board) (hwf : b.WF) (x y : Int) (hg : b.inGrid x y) (i : Int) :
    ∀ (js : List Int) (b1 : Board) (k : Nat), CountersOnly b b1 →
      (∀ r c, (b1.get_cell r c).bombs_around =
        (b.get_cell r c).bombs_around + (if r = x ∧ c = y then (k : Int) else 0)) →
      CountersOnly b (js.foldl (fun b j =>
        if (b.get_cell i j).is_bomb && decide ((i, j) ≠ (x, y)) then
          b.update_cell x y Cell.update_counter else b) b1) ∧
      ∀ r c, ((js.foldl (fun b j =>
        if (b.get_cell i j).is_bomb && decide ((i, j) ≠ (x, y)) then
          b.update_cell x y Cell.update_counter else b) b1).get_cell r c).bombs_around =
        (b.get_cell r c).bombs_around + (if r = x ∧ c = y then
          ((k + js.countP (fun j => (b.get_cell i j).is_bomb && decide ((i, j) ≠ (x, y))) : Nat) : Int)
          else 0)
  | [], b1, k, hco, hk => by
    simpa using ⟨hco, hk⟩
  | j :: js, b1, k, hco, hk => by
    rw [List.foldl_cons, List.countP_cons]
    have hbomb : (b1.get_cell i j).is_bomb = (b.get_cell i j).is_bomb := (hco.2.2.2 i j).1
    rw [hbomb]
    by_cases hc : ((b.get_cell i j).is_bomb && decide ((i, j) ≠ (x, y))) = true
    · rw [if_pos hc]
      have hwf1 : b1.WF := hco.2.2.1 hwf
      have hg1 : b1.inGrid x y := by
        unfold inGrid; rw [hco.1, hco.2.1]; exact hg
      have ih := count_bombs_inner b hwf x y hg i js (b1.update_cell x y Cell.update_counter)
        (k + 1) (hco.co_trans (CountersOnly.update_counter b1 x y)) ?_
      · simp only [hc, if_true] at ih ⊢
        have e : k + 1 + List.countP (fun j =>
            (b.get_cell i j).is_bomb && decide ((i, j) ≠ (x, y))) js =
          k + (List.countP (fun j =>
            (b.get_cell i j).is_bomb && decide ((i, j) ≠ (x, y))) js + 1) := by omega
        rw [e] at ih
        exact ih
      · intro r c
        rw [get_cell_update_cell hwf1 hg1]
        by_cases hrc : r = x ∧ c = y
        · simp only [hrc, and_self, if_true, Cell.update_counter]
          have := hk x y
          simp only [and_self, if_true] at this
          rw [this]; push_cast; ring
        · simp only [hrc, if_false]
          have := hk r c
          simp only [hrc, if_false] at this
          exact this
    · rw [if_neg hc]
      have ih := count_bombs_inner b hwf x y hg i js b1 k hco hk
      simp only [hc] at ih ⊢
      simpa using ih

theorem count_bombs_outer (b : Board) (hwf : b.WF) (x y : Int) (hg : b.inGrid x y) :
    ∀ (is : List Int) (b1 : Board) (k : Nat), CountersOnly b b1 →
      (∀ r c, (b1.get_cell r c).bombs_around =
        (b.get_cell r c).bombs_around + (if r = x ∧ c = y then (k : Int) else 0)) →
      CountersOnly b (is.foldl (fun b i =>
        (intRange (max 0 (y - 1)) (min b.width (y + 2))).foldl (fun b j =>
          if (b.get_cell i j).is_bomb && decide ((i, j) ≠ (x, y)) then
            b.update_cell x y Cell.update_counter else b) b) b1) ∧
      ∀ r c, ((is.foldl (fun b i =>
        (intRange (max 0 (y - 1)) (min b.width (y + 2))).foldl (fun b j =>
          if (b.get_cell i j).is_bomb && decide ((i, j) ≠ (x, y)) then
            b.update_cell x y Cell.update_counter else b) b) b1).get_cell r c).bombs_around =
        (b.get_cell r c).bombs_around + (if r = x ∧ c = y then
          ((k + (is.map (fun i => (intRange (max 0 (y - 1)) (min b.width (y + 2))).countP
            (fun j => (b.get_cell i j).is_bomb && decide ((i, j) ≠ (x, y))))).sum : Nat) : Int)
          else 0)
  | [], b1, k, hco, hk => by
    simpa using ⟨hco, hk⟩
  | i :: is, b1, k, hco, hk => by
    rw [List.foldl_cons, List.map_cons, List.sum_cons]
    have hw : b1.width = b.width := hco.1
    obtain ⟨hco2, hk2⟩ := count_bombs_inner b hwf x y hg i
      (intRange (max 0 (y - 1)) (min b.width (y + 2))) b1 k hco hk
    have ih := count_bombs_outer b hwf x y hg is _ _ hco2 hk2
    rw [hw]
    simp only [Nat.add_assoc] at ih ⊢
    exact ih

/-- Effect of `count_bombs(x, y)`: the counter of `(x, y)` grows by the number of
mines in its window, and nothing else changes. -/
theorem count_bombs_spec (b : Board) (hwf : b.WF) (x y : Int) (hg : b.inGrid x y) :
    CountersOnly b (b.count_bombs x y) ∧
    ∀ r c, ((b.count_bombs x y).get_cell r c).bombs_around =
      (b.get_cell r c).bombs_around +
        (if r = x ∧ c = y then (b.window_mines x y : Int) else 0) := by
  have key := count_bombs_outer b hwf x y hg (intRange (max 0 (x - 1)) (min b.height (x + 2)))
    b 0 (CountersOnly.co_refl b) (fun r c => by simp)
  simp only [Nat.zero_add] at key
  exact key

theorem intRange_nodup (lo hi : Int) : (intRange lo hi).Nodup := by
  unfold intRange
  refine List.Nodup.map ?_ (List.nodup_range _)
  intro a b hab
  simp only at hab
  omega

theorem count_all_inner (b : Board) (hwf : b.WF) (i : Int) :
    ∀ (js : List Int), js.Nodup → (∀ j ∈ js, b.inGrid i j) → ∀ (b1 : Board),
      CountersOnly b b1 →
      CountersOnly b (js.foldl (fun b j => b.count_bombs i j) b1) ∧
      ∀ r c, ((js.foldl (fun b j => b.count_bombs i j) b1).get_cell r c).bombs_around =
        (b1.get_cell r c).bombs_around +
          (if r = i ∧ c ∈ js then (b.window_mines r c : Int) else 0)
  | [], _, _, b1, hco => by
    simpa using hco
  | j :: js, hnd, hin, b1, hco => by
    rw [List.foldl_cons]
    have hwf1 : b1.WF := hco.2.2.1 hwf
    have hg1 : b1.inGrid i j := by
      unfold inGrid; rw [hco.1, hco.2.1]; exact hin j (List.mem_cons_self _ _)
    obtain ⟨hco2, hk2⟩ := count_bombs_spec b1 hwf1 i j hg1
    rw [window_mines_congr hco] at hk2
    obtain ⟨hco3, hk3⟩ := count_all_inner b hwf i js (List.nodup_cons.mp hnd).2
      (fun j' hj' => hin j' (List.mem_cons_of_mem _ hj')) _ (hco.co_trans hco2)
    refine ⟨hco3, fun r c => ?_⟩
    rw [hk3 r c, hk2 r c]
    have hnot : j ∉ js := (List.nodup_cons.mp hnd).1
    by_cases hr : r = i
    · subst hr
      by_cases hcj : c = j
      · subst hcj
        simp [hnot]
      · by_cases hcjs : c ∈ js
        · simp [hcj, hcjs]
        · simp [hcj, hcjs]
    · simp [hr]

theorem count_all_outer (b : Board) (hwf : b.WF) (js : List Int) (hjs : js.Nodup) :
    ∀ (is : List Int), is.Nodup → (∀ i ∈ is, ∀ j ∈ js, b.inGrid i j) → ∀ (b1 : Board),
      CountersOnly b b1 →
      CountersOnly b (is.foldl (fun b i => js.foldl (fun b j => b.count_bombs i j) b) b1) ∧
      ∀ r c, ((is.foldl (fun b i => js.foldl (fun b j => b.count_bombs i j) b) b1).get_cell
          r c).bombs_around =
        (b1.get_cell r c).bombs_around +
          (if r ∈ is ∧ c ∈ js then (b.window_mines r c : Int) else 0)
  | [], _, _, b1, hco => by
    simpa using hco
  | i :: is, hnd, hin, b1, hco => by
    rw [List.foldl_cons]
    obtain ⟨hco2, hk2⟩ := count_all_inner b hwf i js hjs
      (fun j hj => hin i (List.mem_cons_self _ _) j hj) b1 hco
    obtain ⟨hco3, hk3⟩ := count_all_outer b hwf js hjs is (List.nodup_cons.mp hnd).2
      (fun i' hi' => hin i' (List.mem_cons_of_mem _ hi')) _ hco2
    refine ⟨hco3, fun r c => ?_⟩
    rw [hk3 r c, hk2 r c]
    have hnot : i ∉ is := (List.nodup_cons.mp hnd).1
    by_cases hr : r = i
    · subst hr
      by_cases hcjs : c ∈ js
      · simp [hnot, hcjs]
      · simp [hcjs]
    · by_cases hris : r ∈ is
      · simp [hr, hris]
      · simp [hr, hris]

/-- Effect of the set-up loop of `game_loop`: every in-grid counter grows by the number
of mines in the window of its cell, and nothing else changes. -/
theorem count_all_bombs_spec (b : Board) (hwf : b.WF) :
    CountersOnly b (b.count_all_bombs b.width b.height) ∧
    ∀ r c, b.inGrid r c →
      ((b.count_all_bombs b.width b.height).get_cell r c).bombs_around =
        (b.get_cell r c).bombs_around + (b.window_mines r c : Int) := by
  obtain ⟨hco, hk⟩ := count_all_outer b hwf (intRange 0 b.width) (intRange_nodup _ _)
    (intRange 0 b.height) (intRange_nodup _ _)
    (fun i hi j hj => by
      rw [mem_intRange] at hi hj
      exact ⟨hi.1, hi.2, hj.1, hj.2⟩) b (CountersOnly.co_refl b)
  refine ⟨hco, fun r c hg => ?_⟩
  have := hk r c
  unfold count_all_bombs
  rw [this, if_pos]
  exact ⟨mem_intRange.mpr ⟨hg.1, hg.2.1⟩, mem_intRange.mpr ⟨hg.2.2.1, hg.2.2.2⟩⟩

theorem intRange_append {lo mid hi : Int} (h1 : lo ≤ mid) (h2 : mid ≤ hi) :
    intRange lo hi = intRange lo mid ++ intRange mid hi := by
  unfold intRange
  have e : (hi - lo).toNat = (mid - lo).toNat + (hi - mid).toNat := by omega
  rw [e, List.range_add, List.map_append, List.map_map]
  congr 1
  apply List.map_congr_left
  intro k _
  simp only [Function.comp_apply]
  push_cast
  omega

theorem countP_intRange_restrict (p : Int → Bool) {lo lo' hi' hi : Int} (h1 : lo ≤ lo')
    (h2 : lo' ≤ hi') (h3 : hi' ≤ hi) (hp : ∀ i, lo ≤ i → i < hi → p i = true → lo' ≤ i ∧ i < hi') :
    (intRange lo hi).countP p = (intRange lo' hi').countP p := by
  rw [intRange_append h1 (by omega : lo' ≤ hi), intRange_append h2 h3, List.countP_append,
    List.countP_append]
  have z1 : (intRange lo lo').countP p = 0 := by
    rw [List.countP_eq_zero]
    intro i hi hpi
    rw [mem_intRange] at hi
    have := hp i (by omega) (by omega) hpi
    omega
  have z2 : (intRange hi' hi).countP p = 0 := by
    rw [List.countP_eq_zero]
    intro i hi hpi
    rw [mem_intRange] at hi
    have := hp i (by omega) (by omega) hpi
    omega
  omega

theorem sum_intRange_restrict (f : Int → Nat) {lo lo' hi' hi : Int} (h1 : lo ≤ lo')
    (h2 : lo' ≤ hi') (h3 : hi' ≤ hi) (hf : ∀ i, lo ≤ i → i < hi → f i ≠ 0 → lo' ≤ i ∧ i < hi') :
    ((intRange lo hi).map f).sum = ((intRange lo' hi').map f).sum := by
  rw [intRange_append h1 (by omega : lo' ≤ hi), intRange_append h2 h3, List.map_append,
    List.map_append, List.sum_append, List.sum_append]
  have z1 : ((intRange lo lo').map f).sum = 0 := by
    apply List.sum_eq_zero
    intro n hn
    rw [List.mem_map] at hn
    obtain ⟨i, hi, rfl⟩ := hn
    rw [mem_intRange] at hi
    by_contra hne
    have := hf i (by omega) (by omega) hne
    omega
  have z2 : ((intRange hi' hi).map f).sum = 0 := by
    apply List.sum_eq_zero
    intro n hn
    rw [List.mem_map] at hn
    obtain ⟨i, hi, rfl⟩ := hn
    rw [mem_intRange] at hi
    by_contra hne
    have := hf i (by omega) (by omega) hne
    omega
  omega

/-- The clamped window scanned by `count_bombs` holds exactly the in-grid neighbours of
the cell and the cell itself, so the number of increments is the number of mine
neighbours. -/
theorem window_mines_eq_mine_neighbours (b : Board) (x y : Int) (hg : b.inGrid x y) :
    b.window_mines x y = b.mine_neighbours x y := by
  obtain ⟨hx0, hx1, hy0, hy1⟩ := hg
  unfold window_mines mine_neighbours
  rw [sum_intRange_restrict _ (by omega : (0 : Int) ≤ max 0 (x - 1))
    (by omega : max 0 (x - 1) ≤ min b.height (x + 2)) (by omega : min b.height (x + 2) ≤ b.height)]
  · apply congrArg
    apply List.map_congr_left
    intro i hi
    rw [mem_intRange] at hi
    rw [countP_intRange_restrict _ (by omega : (0 : Int) ≤ max 0 (y - 1))
      (by omega : max 0 (y - 1) ≤ min b.width (y + 2)) (by omega : min b.width (y + 2) ≤ b.width)]
    · apply List.countP_congr
      intro j hj
      rw [mem_intRange] at hj
      have hadj : (decide (adjacent x y i j)) = decide ((i, j) ≠ (x, y)) := by
        apply decide_eq_decide.mpr
        unfold adjacent
        simp only [ne_eq, Prod.mk.injEq]
        omega
      rw [hadj, Bool.and_comm]
    · intro j hj0 hj1 hj
      simp only [Bool.and_eq_true, decide_eq_true_eq] at hj
      have := hj.1
      unfold adjacent at this
      omega
  · intro i hi0 hi1 hne
    by_contra hout
    apply hne
    rw [List.countP_eq_zero]
    intro j _ hj
    simp only [Bool.and_eq_true, decide_eq_true_eq] at hj
    have := hj.1
    unfold adjacent at this
    omega

/-- Claim C3: on a well-formed board whose counters are all 0, after the set-up
loop has run `count_bombs` once on every coordinate, the counter of every in-grid
cell (mine or not) is the number of mine cells among its in-grid neighbours. -/
theorem adjacency_correct (b : Board) (hwf : b.WF)
    (hzero : ∀ row ∈ b.board, ∀ cell ∈ row, cell.bombs_around = 0)
    (r c : Int) (hin : b.inGrid r c) :
    ((b.count_all_bombs b.width b.height).get_cell r c).bombs_around =
      ((b.count_all_bombs b.width b.height).mine_neighbours r c : Int) := by
  obtain ⟨hco, hk⟩ := count_all_bombs_spec b hwf
  obtain ⟨row, hrow, hcell⟩ := get_cell_mem hwf hin
  rw [hk r c hin, hzero row hrow _ hcell, mine_neighbours_congr hco,
    window_mines_eq_mine_neighbours b r c hin]
  simp

/-- Instance of claim C3: the cell `(1, 1)` of the sample board after counting. -/
theorem adjacency_correct_witness :
    ((sampleMinedBoard.count_all_bombs sampleMinedBoard.width
        sampleMinedBoard.height).get_cell 1 1).bombs_around =
      ((sampleMinedBoard.count_all_bombs sampleMinedBoard.width
        sampleMinedBoard.height).mine_neighbours 1 1 : Int) :=
  adjacency_correct sampleMinedBoard (by decide) (by decide) 1 1 (by decide)

/-- The loop of `place_bombs` keeps the grid well formed and leaves every cell
either untouched or freshly assigned `MineCell()`. -/
theorem place_bombs_loop_cells :
    ∀ (draws : List (Int × Int)) (changed : Int) (already_changed : List (Int × Int))
      (b b' : Board), place_bombs_loop draws changed already_changed b = some b' →
      b.WF → (∀ r c, b.get_cell r c = Cell.new ∨ b.get_cell r c = MineCell) →
      b'.WF ∧ b'.width = b.width ∧ b'.height = b.height ∧
        ∀ r c, b'.get_cell r c = Cell.new ∨ b'.get_cell r c = MineCell
  | [], changed, ac, b, b', h, hwf, hc => by
    unfold place_bombs_loop at h
    split at h
    · cases h
    · simp only [Option.some.injEq] at h
      subst h
      exact ⟨hwf, rfl, rfl, hc⟩
  | (row, column) :: draws, changed, ac, b, b', h, hwf, hc => by
    unfold place_bombs_loop at h
    split at h
    · split at h
      · have ih := place_bombs_loop_cells draws _ _ _ b' h (update_cell_WF hwf _ _ _) ?_
        · simpa using ih
        · intro r c
          rcases get_cell_update_cell_cases b row column r c (fun _ => MineCell) with
            e | ⟨_, _, e⟩
          · rw [e]; exact hc r c
          · exact Or.inr e
      · exact place_bombs_loop_cells draws _ _ _ b' h hwf hc
    · simp only [Option.some.injEq] at h
      subst h
      exact ⟨hwf, rfl, rfl, hc⟩

theorem place_bombs_cells (w h bombs x y : Int) (draws : List (Int × Int)) (b' : Board)
    (hplace : (Board.new w h bombs x y).place_bombs draws = some b') :
    b'.WF ∧ b'.width = w ∧ b'.height = h ∧
      ∀ r c, b'.get_cell r c = Cell.new ∨ b'.get_cell r c = MineCell := by
  unfold place_bombs at hplace
  exact place_bombs_loop_cells draws 0 _ _ b' hplace (new_WF w h bombs x y)
    (fun r c => Or.inl (new_get_cell w h bombs x y r c))

theorem foldlM_option_forall {α β : Type} (f : β → α → Option β) (I : β → Prop)
    (Q : α → β → Prop) :
    ∀ (l : List α) (b b' : β), I b →
      (∀ b x b', x ∈ l → I b → f b x = some b' → I b' ∧ Q x b') →
      (∀ b x y b', y ∈ l → I b → f b y = some b' → Q x b → Q x b') →
      l.foldlM f b = some b' → ∀ x ∈ l, Q x b'
  | [], _, _, _, _, _, _ => by simp
  | a :: l, b, b', hb, hdo, hkeep, h => by
    simp only [List.foldlM_cons, bind, Option.bind_eq_some] at h
    obtain ⟨b1, h1, h2⟩ := h
    have hb1 := hdo b a b1 (List.mem_cons_self _ _) hb h1
    intro x hx
    rcases List.mem_cons.mp hx with rfl | hx'
    · have hI : ∀ b x b', x ∈ l → I b → f b x = some b' → I b' :=
        fun b x b' hx hb hf => (hdo b x b' (List.mem_cons_of_mem _ hx) hb hf).1
      have hQ : ∀ (l' : List α) (b b' : β), (∀ z ∈ l', z ∈ l) → I b → Q x b →
          l'.foldlM f b = some b' → Q x b' := by
        intro l'
        induction l' with
        | nil =>
          intro b b' _ _ hq h
          simp only [List.foldlM_nil, pure, Option.some.injEq] at h
          exact h ▸ hq
        | cons c l' ih =>
          intro b b' hsub hb hq h
          simp only [List.foldlM_cons, bind, Option.bind_eq_some] at h
          obtain ⟨b1, h1, h2⟩ := h
          have hc : c ∈ l := hsub c (List.mem_cons_self _ _)
          exact ih b1 b' (fun z hz => hsub z (List.mem_cons_of_mem _ hz)) (hI b c b1 hc hb h1)
            (hkeep b x c b1 (List.mem_cons_of_mem _ hc) hb h1 hq) h2
      exact hQ l b1 b' (fun z hz => hz) hb1.1 hb1.2 h2
    · exact foldlM_option_forall f I Q l b1 b' hb1.1
        (fun b x b' hx => hdo b x b' (List.mem_cons_of_mem _ hx))
        (fun b x y b' hy => hkeep b x y b' (List.mem_cons_of_mem _ hy)) h2 x hx'

theorem Extends.done {b b' : Board} (h : Extends b b') {r c : Int}
    (hd : (b.get_cell r c).is_revealed = true ∨ (b.get_cell r c).is_bomb = true) :
    (b'.get_cell r c).is_revealed = true ∨ (b'.get_cell r c).is_bomb = true := by
  rcases hd with hr | hb
  · exact Or.inl (h.revealed hr)
  · rcases h.2.2.2.2.2.2 r c with e | ⟨_, n, _⟩
    · rw [e]; exact Or.inr hb
    · rw [hb] at n; cases n

theorem Extends.ext_inGrid {b b' : Board} (h : Extends b b') {r c : Int} (hg : b.inGrid r c) :
    b'.inGrid r c := by
  unfold Board.inGrid
  rw [h.1, h.2.1]
  exact hg

/-- After the loop body of `reveal_around` has visited an in-grid cell, the cell is
revealed unless it is a mine. -/
theorem reveal_around_visit_done (recurse : Board → Int → Int → Option Board)
    (hrec : ∀ b i j b', recurse b i j = some b' → Extends b b')
    (b : Board) (hwf : b.WF) (i j : Int) (hg : b.inGrid i j) (b' : Board)
    (h : reveal_around_visit recurse b i j = some b') :
    (b'.get_cell i j).is_revealed = true ∨ (b'.get_cell i j).is_bomb = true := by
  unfold reveal_around_visit at h
  split at h
  · have hrev : ((b.update_cell i j Cell.reveal).get_cell i j).is_revealed = true := by
      rw [get_cell_update_cell_same hwf hg]; rfl
    simp only at h
    split at h
    · exact Or.inl ((hrec _ _ _ _ h).revealed hrev)
    · simp only [Option.some.injEq] at h
      exact Or.inl (h ▸ hrev)
  · rename_i hc
    simp only [Option.some.injEq] at h
    subst h
    cases hr : (b.get_cell i j).is_revealed
    · cases hb : (b.get_cell i j).is_bomb
      · simp [hr, hb] at hc
      · exact Or.inr rfl
    · exact Or.inl rfl

/-- After `reveal_around(row, column)` on a cell whose counter is 0, every cell of the
clamped window is revealed unless it is a mine. -/
theorem reveal_around_fuel_window (fuel : Nat) (b : Board) (row column : Int) (b' : Board)
    (h : reveal_around_fuel fuel b row column = some b') (hwf : b.WF)
    (hz : (b.get_cell row column).bombs_around = 0) (i j : Int) (hg : b.inGrid i j)
    (hi : row - 1 ≤ i ∧ i ≤ row + 1) (hj : column - 1 ≤ j ∧ j ≤ column + 1) :
    (b'.get_cell i j).is_revealed = true ∨ (b'.get_cell i j).is_bomb = true := by
  cases fuel with
  | zero => simp [reveal_around_fuel] at h
  | succ fuel =>
    unfold reveal_around_fuel at h
    rw [if_neg (by simpa using hz)] at h
    have hvisit : ∀ (b3 : Board) (i j : Int) (b4 : Board),
        reveal_around_visit (reveal_around_fuel fuel) b3 i j = some b4 → Extends b3 b4 :=
      fun b3 i j b4 => reveal_around_visit_extends _ (reveal_around_fuel_extends fuel) b3 i j b4
    have hinner : ∀ (b1 : Board) (i : Int) (b2 : Board),
        (intRange (max 0 (column - 1)) (min (column + 2) b1.width)).foldlM
          (fun b j => reveal_around_visit (reveal_around_fuel fuel) b i j) b1 = some b2 →
        Extends b1 b2 := by
      intro b1 i b2 hf
      refine foldlM_option_inv _ (Extends b1) _ b1 b2 (Extends.ext_refl b1) ?_ hf
      intro b3 j b4 _ hb3 hv
      exact hb3.ext_trans (hvisit b3 i j b4 hv)
    have key := foldlM_option_forall _ (Extends b)
      (fun i bk => ∀ j ∈ intRange (max 0 (column - 1)) (min (column + 2) b.width),
        (bk.get_cell i j).is_revealed = true ∨ (bk.get_cell i j).is_bomb = true)
      _ b b' (Extends.ext_refl b) ?_ ?_ h i
      (mem_intRange.mpr ⟨by have := hg.1; omega, by have := hg.2.1; omega⟩) j
      (mem_intRange.mpr ⟨by have := hg.2.2.1; omega, by have := hg.2.2.2; omega⟩)
    · exact key
    · intro b1 i1 b2 hi1 hb1 hf
      refine ⟨hb1.ext_trans (hinner b1 i1 b2 hf), ?_⟩
      have hw : b1.width = b.width := hb1.1
      rw [hw] at hf
      refine foldlM_option_forall _ (Extends b)
        (fun j bk => (bk.get_cell i1 j).is_revealed = true ∨ (bk.get_cell i1 j).is_bomb = true)
        _ b1 b2 hb1 ?_ ?_ hf
      · intro b3 j1 b4 hj1 hb3 hv
        refine ⟨hb3.ext_trans (hvisit b3 i1 j1 b4 hv), ?_⟩
        rw [mem_intRange] at hi1 hj1
        have hg3 : b3.inGrid i1 j1 := by
          refine hb3.ext_inGrid ⟨by omega, by omega, by omega, by omega⟩
        exact reveal_around_visit_done _ (reveal_around_fuel_extends fuel) b3
          (hb3.2.2.2.2.2.1 hwf) i1 j1 hg3 b4 hv
      · intro b3 x y b4 _ _ hv hq
        exact (hvisit b3 i1 y b4 hv).done hq
    · intro b1 x y b2 _ _ hf hq j1 hj1
      exact (hinner b1 y b2 hf).done (hq j1 hj1)

/-! ## First click -/

theorem Extends.is_bomb {b b' : Board} (h : Extends b b') (r c : Int) :
    (b'.get_cell r c).is_bomb = (b.get_cell r c).is_bomb := by
  rcases h.2.2.2.2.2.2 r c with e | ⟨_, _, e⟩
  · rw [e]
  · rw [e]; rfl

theorem Extends.bombs_around {b b' : Board} (h : Extends b b') (r c : Int) :
    (b'.get_cell r c).bombs_around = (b.get_cell r c).bombs_around := by
  rcases h.2.2.2.2.2.2 r c with e | ⟨_, _, e⟩
  · rw [e]
  · rw [e]; rfl

theorem Extends.is_marked {b b' : Board} (h : Extends b b') (r c : Int) :
    (b'.get_cell r c).is_marked = (b.get_cell r c).is_marked := by
  rcases h.2.2.2.2.2.2 r c with e | ⟨_, _, e⟩
  · rw [e]
  · rw [e]; rfl

theorem mine_neighbours_eq_zero (b : Board) (x y : Int)
    (h : ∀ i j, adjacent x y i j → (b.get_cell i j).is_bomb = false) :
    b.mine_neighbours x y = 0 := by
  unfold mine_neighbours
  apply List.sum_eq_zero
  intro n hn
  rw [List.mem_map] at hn
  obtain ⟨i, _, rfl⟩ := hn
  rw [List.countP_eq_zero]
  intro j _ hj
  simp only [Bool.and_eq_true, decide_eq_true_eq] at hj
  rw [h i j hj.1] at hj
  exact absurd hj.2 (by simp)

/-- Claim C8: on a fresh board with in-bounds origin, once `place_bombs` has
terminated and the set-up loop has run `count_bombs` on every coordinate, the
counter of the origin is 0, `handle_first_mode` on the origin returns `true`,
and afterwards every in-grid cell of the 3 x 3 block around the origin is
revealed. -/
theorem first_click_safe (w h bombs x y : Int) (hx : 0 ≤ x ∧ x < h) (hy : 0 ≤ y ∧ y < w)
    (draws : List (Int × Int)) (b1 : Board)
    (hplace : (Board.new w h bombs x y).place_bombs draws = some b1) :
    ((b1.count_all_bombs w h).get_cell x y).bombs_around = 0 ∧
    ∃ b2, (b1.count_all_bombs w h).handle_first_mode x y = some (true, b2) ∧
      ∀ r c, b2.inGrid r c → |r - x| ≤ 1 → |c - y| ≤ 1 →
        (b2.get_cell r c).is_revealed = true := by
  obtain ⟨hwf1, hw1, hh1, hcells⟩ := place_bombs_cells w h bombs x y draws b1 hplace
  have hfree := place_bombs_zone_free w h bombs x y draws b1 hplace
  subst hw1 hh1
  obtain ⟨hco, hk⟩ := count_all_bombs_spec b1 hwf1
  have hg1 : b1.inGrid x y := ⟨hx.1, hx.2, hy.1, hy.2⟩
  have hfresh : ∀ r c, (b1.get_cell r c).is_marked = false ∧
      (b1.get_cell r c).is_revealed = false ∧ (b1.get_cell r c).bombs_around = 0 := by
    intro r c
    rcases hcells r c with e | e <;> rw [e] <;> exact ⟨rfl, rfl, rfl⟩
  -- the board after counting
  generalize hb3 : b1.count_all_bombs b1.width b1.height = b3 at hco hk ⊢
  have hwf3 : b3.WF := hco.2.2.1 hwf1
  have hg3 : b3.inGrid x y := by
    unfold inGrid; rw [hco.1, hco.2.1]; exact hg1
  have hzero : (b3.get_cell x y).bombs_around = 0 := by
    rw [hk x y hg1, (hfresh x y).2.2, window_mines_eq_mine_neighbours b1 x y hg1,
      mine_neighbours_eq_zero]
    · simp
    · intro i j hadj
      unfold adjacent at hadj
      exact hfree i j (abs_le.mpr ⟨by omega, by omega⟩) (abs_le.mpr ⟨by omega, by omega⟩)
  have hmark : (b3.get_cell x y).is_marked = false := by
    rw [(hco.2.2.2 x y).2.1]; exact (hfresh x y).1
  have hrev : (b3.get_cell x y).is_revealed = false := by
    rw [(hco.2.2.2 x y).2.2]; exact (hfresh x y).2.1
  have hbomb : (b3.get_cell x y).is_bomb = false := by
    rw [(hco.2.2.2 x y).1]; exact hfree x y (by simp) (by simp)
  refine ⟨hzero, ?_⟩
  have hwf4 : (b3.update_cell x y Cell.reveal).WF := update_cell_WF hwf3 _ _ _
  have hext4 := Extends.ext_update_reveal b3 x y hrev hbomb
  obtain ⟨b2, h2, _⟩ := reveal_around_fuel_total
    ((b3.update_cell x y Cell.reveal).unrevealed + 1) _ x y hwf4 (by omega)
  have hext2 := reveal_around_fuel_extends _ _ _ _ _ h2
  refine ⟨b2, ?_, ?_⟩
  · unfold handle_first_mode
    simp only [hmark, Bool.false_eq_true, if_false, hrev, hbomb, Bool.not_false, Bool.and_self,
      if_true]
    unfold reveal_around
    rw [h2]
    rfl
  · intro r c hg hr hc
    have hg4 : (b3.update_cell x y Cell.reveal).inGrid r c := by
      unfold inGrid at hg ⊢
      rw [hext2.1, hext2.2.1] at hg
      exact hg
    rw [abs_le] at hr hc
    have hz4 : ((b3.update_cell x y Cell.reveal).get_cell x y).bombs_around = 0 := by
      rw [hext4.bombs_around]; exact hzero
    rcases reveal_around_fuel_window _ _ x y b2 h2 hwf4 hz4 r c hg4 ⟨by omega, by omega⟩
      ⟨by omega, by omega⟩ with hdone | hmine
    · exact hdone
    · rw [hext2.is_bomb, hext4.is_bomb, (hco.2.2.2 r c).1,
        hfree r c (abs_le.mpr ⟨by omega, by omega⟩) (abs_le.mpr ⟨by omega, by omega⟩)] at hmine
      cases hmine

/-- Instance of claim C8: the sample draws on a fresh 5 x 5 board, first click on
the origin `(0, 0)`. -/
theorem first_click_safe_witness :
    (Board.new 5 5 5 0 0).place_bombs sampleDraws = some sampleMinedBoard ∧
    (((sampleMinedBoard.count_all_bombs 5 5).get_cell 0 0).bombs_around = 0 ∧
    ∃ b2, (sampleMinedBoard.count_all_bombs 5 5).handle_first_mode 0 0 = some (true, b2) ∧
      ∀ r c, b2.inGrid r c → |r - 0| ≤ 1 → |c - 0| ≤ 1 →
        (b2.get_cell r c).is_revealed = true) :=
  ⟨by decide, first_click_safe 5 5 5 0 0 (by decide) (by decide) sampleDraws sampleMinedBoard
    (by decide)⟩

/-! ## Flood fill and flags -/

/-- The board `flaggedBoard` arises in play from `sampleBoard`: first click on
`(0, 0)`, flag on `(0, 3)`, then the reveal of `(0, 4)` with which
`handle_first_mode` precedes its call of `reveal_around(0, 4)`. -/
theorem flaggedBoard_reached :
    (sampleBoard.handle_first_mode 0 0).map
      (fun res => (res.2.handle_second_mode 0 3).update_cell 0 4 Cell.reveal) =
      some flaggedBoard := by
  decide

/-- Counterexample to claim C10 as stated: on `flaggedBoard` the cell `(0, 3)` is
flagged and unrevealed, and `reveal_around(0, 4)` reveals it. -/
theorem reveal_around_reveals_flagged :
    flaggedBoard.WF ∧ flaggedBoard.inGrid 0 4 ∧
    (flaggedBoard.get_cell 0 3).is_marked = true ∧
    (flaggedBoard.get_cell 0 3).is_revealed = false ∧
    (flaggedBoard.reveal_around 0 4).map (fun b' => (b'.get_cell 0 3).is_revealed) =
      some true := by
  decide

/-- Claim C10, amended: `reveal_around` never reads or writes a flag.  A cell
that is flagged and unrevealed before `reveal_around(row, col)` is still flagged
after it, and is still unrevealed if it is a mine; a flagged cell that is
revealed by the call was not a mine. -/
theorem reveal_around_flagged (b : Board) (hwf : b.WF) (row col : Int)
    (_hin : b.inGrid row col) :
    ∃ b', b.reveal_around row col = some b' ∧
      ∀ r c, (b.get_cell r c).is_marked = true → (b.get_cell r c).is_revealed = false →
        (b'.get_cell r c).is_marked = true ∧
        ((b.get_cell r c).is_bomb = true → (b'.get_cell r c).is_revealed = false) ∧
        ((b'.get_cell r c).is_revealed = true → (b.get_cell r c).is_bomb = false) := by
  obtain ⟨b', h, hext⟩ := reveal_around_total b hwf row col
  refine ⟨b', h, fun r c hm hu => ?_⟩
  rcases hext.2.2.2.2.2.2 r c with e | ⟨_, n, e⟩
  · rw [e]
    refine ⟨hm, fun _ => hu, fun hr => ?_⟩
    rw [hu] at hr; cases hr
  · rw [e]
    refine ⟨hm, fun hb => ?_, fun _ => n⟩
    rw [n] at hb; cases hb

/-- Instance of claim C10 as amended: `reveal_around(0, 4)` on `flaggedBoard`. -/
theorem reveal_around_flagged_witness :
    ∃ b', flaggedBoard.reveal_around 0 4 = some b' ∧
      ∀ r c, (flaggedBoard.get_cell r c).is_marked = true →
        (flaggedBoard.get_cell r c).is_revealed = false →
        (b'.get_cell r c).is_marked = true ∧
        ((flaggedBoard.get_cell r c).is_bomb = true → (b'.get_cell r c).is_revealed = false) ∧
        ((b'.get_cell r c).is_revealed = true → (flaggedBoard.get_cell r c).is_bomb = false) :=
  reveal_around_flagged flaggedBoard (by decide) 0 4 (by decide)

/-! ## Flood fill stays within the border -/

theorem Extends.ext_blank {b b' : Board} (h : Extends b b') {i j : Int} :
    b'.blank i j ↔ b.blank i j := by
  unfold Board.blank Board.inGrid
  rw [h.1, h.2.1, h.bombs_around, h.is_bomb]

/-- One visit of the loop body of `reveal_around(row, column)`, run on a blank cell
`(row, column)` connected to `(r0, c0)`: a cell that it reveals is `(row, column)`
itself or a neighbour of a blank cell connected to `(r0, c0)`. -/
theorem reveal_around_visit_border (b0 : Board) (r0 c0 : Int)
    (recurse : Board → Int → Int → Option Board)
    (hrec : ∀ b i j b', Extends b0 b → Connected b0.blank r0 c0 i j →
      recurse b i j = some b' → ∀ i' j', (b.get_cell i' j').is_revealed = false →
        (b'.get_cell i' j').is_revealed = true →
        (i' = i ∧ j' = j) ∨ ∃ p q, Connected b0.blank r0 c0 p q ∧ adjacent p q i' j')
    (b : Board) (hext : Extends b0 b) (row column : Int)
    (hconn : Connected b0.blank r0 c0 row column) (i1 j1 : Int) (hg : b.inGrid i1 j1)
    (hi : row - 1 ≤ i1 ∧ i1 ≤ row + 1) (hj : column - 1 ≤ j1 ∧ j1 ≤ column + 1) (b' : Board)
    (h : reveal_around_visit recurse b i1 j1 = some b') (i j : Int)
    (hu : (b.get_cell i j).is_revealed = false) (hr : (b'.get_cell i j).is_revealed = true) :
    (i = row ∧ j = column) ∨ ∃ p q, Connected b0.blank r0 c0 p q ∧ adjacent p q i j := by
  have hhere : ∀ i j : Int, i = i1 ∧ j = j1 →
      (i = row ∧ j = column) ∨ ∃ p q, Connected b0.blank r0 c0 p q ∧ adjacent p q i j := by
    rintro i j ⟨rfl, rfl⟩
    by_cases hsame : i = row ∧ j = column
    · exact Or.inl hsame
    · refine Or.inr ⟨row, column, hconn, ?_⟩
      unfold adjacent
      omega
  unfold reveal_around_visit at h
  split at h
  · rename_i hc
    simp only [Bool.and_eq_true, Bool.not_eq_true'] at hc
    have hext1 := Extends.ext_update_reveal b i1 j1 hc.1 hc.2
    simp only at h
    by_cases hij : i = i1 ∧ j = j1
    · exact hhere i j hij
    · have hu1 : ((b.update_cell i1 j1 Cell.reveal).get_cell i j).is_revealed = false := by
        rw [get_cell_update_cell_ne b _ hij]; exact hu
      split at h
      · rename_i hz
        simp only [Bool.and_eq_true, beq_iff_eq, Bool.not_eq_true'] at hz
        have hblank : b0.blank i1 j1 := by
          rw [← (hext.ext_trans hext1).ext_blank]
          exact ⟨hext1.ext_inGrid hg, hz.1, hz.2⟩
        have hconn1 : Connected b0.blank r0 c0 i1 j1 := by
          by_cases hsame : i1 = row ∧ j1 = column
          · obtain ⟨rfl, rfl⟩ := hsame
            exact hconn
          · refine Connected.step hconn ?_ hblank
            unfold adjacent
            omega
        rcases hrec _ i1 j1 b' (hext.ext_trans hext1) hconn1 h i j hu1 hr with hh | hgood
        · exact absurd hh hij
        · exact Or.inr hgood
      · simp only [Option.some.injEq] at h
        subst h
        rw [hu1] at hr
        cases hr
  · simp only [Option.some.injEq] at h
    subst h
    rw [hu] at hr
    cases hr

/-- A cell revealed by `reveal_around(row, column)`, run on a cell that is blank and
connected to `(r0, c0)` if its counter is 0, is `(row, column)` itself or a neighbour
of a blank cell connected to `(r0, c0)`. -/
theorem reveal_around_fuel_border (b0 : Board) (hwf : b0.WF) (r0 c0 : Int) :
    ∀ (fuel : Nat) (b : Board) (row column : Int) (b' : Board), Extends b0 b →
      ((b.get_cell row column).bombs_around = 0 → Connected b0.blank r0 c0 row column) →
      reveal_around_fuel fuel b row column = some b' →
      ∀ i j, (b.get_cell i j).is_revealed = false → (b'.get_cell i j).is_revealed = true →
        (i = row ∧ j = column) ∨ ∃ p q, Connected b0.blank r0 c0 p q ∧ adjacent p q i j
  | 0, _, _, _, _, _, _, h => by simp [reveal_around_fuel] at h
  | fuel + 1, b, row, column, b', hext, hstart, h => by
    unfold reveal_around_fuel at h
    split at h
    · simp only [Option.some.injEq] at h
      subst h
      intro i j hu hr
      rw [hu] at hr
      cases hr
    · rename_i hz
      have hconn := hstart (by simpa using hz)
      have hvisit : ∀ (b3 : Board) (i j : Int) (b4 : Board),
          reveal_around_visit (reveal_around_fuel fuel) b3 i j = some b4 → Extends b3 b4 :=
        fun b3 i j b4 =>
          reveal_around_visit_extends _ (reveal_around_fuel_extends fuel) b3 i j b4
      have key := foldlM_option_inv _
        (fun bk => Extends b bk ∧ ∀ i j, (b.get_cell i j).is_revealed = false →
          (bk.get_cell i j).is_revealed = true →
          (i = row ∧ j = column) ∨ ∃ p q, Connected b0.blank r0 c0 p q ∧ adjacent p q i j)
        _ b b' ⟨Extends.ext_refl b, fun i j hu hr => by rw [hu] at hr; cases hr⟩ ?_ h
      · exact key.2
      · intro b1 i1 b2 hi1 hb1 hf
        refine foldlM_option_inv _
          (fun bk => Extends b bk ∧ ∀ i j, (b.get_cell i j).is_revealed = false →
            (bk.get_cell i j).is_revealed = true →
            (i = row ∧ j = column) ∨ ∃ p q, Connected b0.blank r0 c0 p q ∧ adjacent p q i j)
          _ b1 b2 hb1 ?_ hf
        intro b3 j1 b4 hj1 hb3 hv
        have hext34 := hvisit b3 i1 j1 b4 hv
        refine ⟨hb3.1.ext_trans hext34, fun i j hu hr => ?_⟩
        cases hr3 : (b3.get_cell i j).is_revealed
        · rw [mem_intRange] at hi1 hj1
          have hw : b1.width = b.width := hb1.1.1
          have hg3 : b3.inGrid i1 j1 :=
            hb3.1.ext_inGrid ⟨by omega, by omega, by omega, by omega⟩
          exact reveal_around_visit_border b0 r0 c0 (reveal_around_fuel fuel)
            (fun b i j b' he hc hra =>
              reveal_around_fuel_border b0 hwf r0 c0 fuel b i j b' he (fun _ => hc) hra)
            b3 (hext.ext_trans hb3.1) row column hconn i1 j1 hg3 ⟨by omega, by omega⟩
            ⟨by omega, by omega⟩ b4 hv i j hr3 hr
        · exact hb3.2 i j hu hr3

theorem get_cell_of_not_inGrid {b : Board} (hwf : b.WF) {i j : Int} (hg : ¬b.inGrid i j) :
    b.get_cell i j = Cell.new := by
  obtain ⟨h1, h2⟩ := hwf
  unfold get_cell
  split
  · rename_i h0
    cases hrow : b.board[i.toNat]? with
    | none => simp
    | some row =>
      have hlen := h2 row (List.getElem?_mem hrow)
      have hi : i.toNat < b.board.length := by
        rw [List.getElem?_eq_some] at hrow
        exact hrow.1
      have hj : row.length ≤ j.toNat := by
        unfold inGrid at hg
        omega
      simp [List.getElem?_eq_none hj]
  · rfl

theorem inGrid_of_revealed {b : Board} (hwf : b.WF) {i j : Int}
    (h : (b.get_cell i j).is_revealed = true) : b.inGrid i j := by
  by_contra hg
  rw [get_cell_of_not_inGrid hwf hg] at h
  cases h

theorem Connected.good {good : Int → Int → Prop} {r c i j : Int}
    (h : Connected good r c i j) : good i j := by
  cases h with
  | start h => exact h
  | step _ _ h => exact h

/-- The board `cornerBoard` is what set-up computes when the mines are drawn at
`(0, 2)` and `(2, 0)`. -/
theorem cornerBoard_setup :
    ((Board.new 5 5 2 4 4).place_bombs [(0, 2), (2, 0)]).map
      (fun b => b.count_all_bombs 5 5) = some cornerBoard := by
  decide

/-- Counterexample to claim C7 as stated: on `cornerBoard` the start cell `(0, 0)`
is an in-bounds non-mine cell, `reveal_around(0, 0)` changes it from unrevealed
to revealed, and it is not a neighbour of any blank cell connected to it (its
three neighbours have non-zero counters). -/
theorem reveal_around_reveals_start :
    cornerBoard.WF ∧ cornerBoard.inGrid 0 0 ∧
    (cornerBoard.get_cell 0 0).is_bomb = false ∧
    (cornerBoard.get_cell 0 0).is_revealed = false ∧
    (cornerBoard.reveal_around 0 0).map (fun b' => (b'.get_cell 0 0).is_revealed) =
      some true ∧
    ¬ ∃ p q, Connected cornerBoard.blank 0 0 p q ∧ adjacent p q 0 0 := by
  refine ⟨by decide, by decide, by decide, by decide, by decide, ?_⟩
  rintro ⟨p, q, hconn, hadj⟩
  obtain ⟨hg, hz, _⟩ := hconn.good
  have hpq : (p = 0 ∧ q = 1) ∨ (p = 1 ∧ q = 0) ∨ (p = 1 ∧ q = 1) := by
    unfold adjacent at hadj
    unfold inGrid at hg
    omega
  rcases hpq with ⟨rfl, rfl⟩ | ⟨rfl, rfl⟩ | ⟨rfl, rfl⟩
  · exact absurd hz (by decide)
  · exact absurd hz (by decide)
  · exact absurd hz (by decide)

/-- Claim C7, amended: a cell that `reveal_around(row, col)`, started on an
in-bounds non-mine cell, changes from unrevealed to revealed is an in-grid cell
that is either `(row, col)` itself or a neighbour of some blank (zero-count,
non-mine) cell connected to `(row, col)` through blank cells.  When `(row, col)`
is already revealed at entry, as at every call in the program, only the second
case remains. -/
theorem reveal_around_within_border (b : Board) (hwf : b.WF) (row col : Int)
    (hin : b.inGrid row col) (hnm : (b.get_cell row col).is_bomb = false) :
    ∃ b', b.reveal_around row col = some b' ∧
      (∀ i j, (b.get_cell i j).is_revealed = false → (b'.get_cell i j).is_revealed = true →
        b.inGrid i j ∧ ((i = row ∧ j = col) ∨
          ∃ p q, Connected b.blank row col p q ∧ adjacent p q i j)) ∧
      ((b.get_cell row col).is_revealed = true →
        ∀ i j, (b.get_cell i j).is_revealed = false → (b'.get_cell i j).is_revealed = true →
          b.inGrid i j ∧ ∃ p q, Connected b.blank row col p q ∧ adjacent p q i j) := by
  obtain ⟨b', h, hext⟩ := reveal_around_total b hwf row col
  have key : ∀ i j, (b.get_cell i j).is_revealed = false →
      (b'.get_cell i j).is_revealed = true →
      b.inGrid i j ∧ ((i = row ∧ j = col) ∨
        ∃ p q, Connected b.blank row col p q ∧ adjacent p q i j) := by
    intro i j hu hr
    have hg' : b'.inGrid i j := inGrid_of_revealed (hext.2.2.2.2.2.1 hwf) hr
    have hg : b.inGrid i j := by
      unfold inGrid at hg' ⊢
      rw [hext.1, hext.2.1] at hg'
      exact hg'
    refine ⟨hg, ?_⟩
    exact reveal_around_fuel_border b hwf row col _ b row col b' (Extends.ext_refl b)
      (fun hz => Connected.start ⟨hin, hz, hnm⟩) h i j hu hr
  refine ⟨b', h, key, ?_⟩
  intro hstart i j hu hr
  obtain ⟨hg, hcase⟩ := key i j hu hr
  refine ⟨hg, ?_⟩
  rcases hcase with ⟨rfl, rfl⟩ | hgood
  · rw [hstart] at hu
    cases hu
  · exact hgood

/-- Instance of claim C7 as amended: `reveal_around(0, 4)` on `flaggedBoard`. -/
theorem reveal_around_within_border_witness :
    ∃ b', flaggedBoard.reveal_around 0 4 = some b' ∧
      (∀ i j, (flaggedBoard.get_cell i j).is_revealed = false →
        (b'.get_cell i j).is_revealed = true →
        flaggedBoard.inGrid i j ∧ ((i = 0 ∧ j = 4) ∨
          ∃ p q, Connected flaggedBoard.blank 0 4 p q ∧ adjacent p q i j)) ∧
      ((flaggedBoard.get_cell 0 4).is_revealed = true →
        ∀ i j, (flaggedBoard.get_cell i j).is_revealed = false →
          (b'.get_cell i j).is_revealed = true →
          flaggedBoard.inGrid i j ∧
            ∃ p q, Connected flaggedBoard.blank 0 4 p q ∧ adjacent p q i j) :=
  reveal_around_within_border flaggedBoard (by decide) 0 4 (by decide) (by decide)

/-! ## Flood-fill closure -/

theorem SameMines.sm_refl (b : Board) : SameMines b b := ⟨rfl, rfl, fun _ _ => ⟨rfl, rfl⟩⟩

theorem SameMines.sm_trans {a b c : Board} (h1 : SameMines a b) (h2 : SameMines b c) :
    SameMines a c :=
  ⟨h2.1.trans h1.1, h2.2.1.trans h1.2.1, fun r col =>
    ⟨(h2.2.2 r col).1.trans (h1.2.2 r col).1, (h2.2.2 r col).2.trans (h1.2.2 r col).2⟩⟩

theorem SameMines.symm {a b : Board} (h : SameMines a b) : SameMines b a :=
  ⟨h.1.symm, h.2.1.symm, fun r c => ⟨(h.2.2 r c).1.symm, (h.2.2 r c).2.symm⟩⟩

theorem Extends.sameMines {b b' : Board} (h : Extends b b') : SameMines b b' :=
  ⟨h.1, h.2.1, fun r c => ⟨h.is_bomb r c, h.bombs_around r c⟩⟩

theorem SameMines.update_cell (b : Board) (i j : Int) (f : Cell → Cell)
    (hf : ∀ cell, (f cell).is_bomb = cell.is_bomb ∧ (f cell).bombs_around = cell.bombs_around) :
    SameMines b (b.update_cell i j f) := by
  refine ⟨by simp, by simp, fun r c => ?_⟩
  rcases get_cell_update_cell_cases b i j r c f with e | ⟨_, _, e⟩
  · rw [e]; exact ⟨rfl, rfl⟩
  · rw [e]; exact hf _

theorem SameMines.handle_lose_condition (b : Board) : SameMines b b.handle_lose_condition := by
  refine ⟨rfl, rfl, fun r c => ?_⟩
  rcases get_cell_handle_lose_condition b r c with e | e
  · rw [e]; exact ⟨rfl, rfl⟩
  · rw [e]; exact ⟨rfl, rfl⟩

theorem SameMines.sm_inGrid {b b' : Board} (h : SameMines b b') {i j : Int} :
    b'.inGrid i j ↔ b.inGrid i j := by
  unfold Board.inGrid
  rw [h.1, h.2.1]

theorem SameMines.sm_blank {b b' : Board} (h : SameMines b b') {i j : Int} :
    b'.blank i j ↔ b.blank i j := by
  unfold Board.blank
  rw [h.sm_inGrid, (h.2.2 i j).1, (h.2.2 i j).2]

theorem SameMines.sm_minesApart {b b' : Board} (h : SameMines b b') (hm : b.MinesApart) :
    b'.MinesApart := by
  intro p q hb i j hg hadj
  rw [(h.2.2 i j).1]
  exact hm p q (h.sm_blank.mp hb) i j (h.sm_inGrid.mp hg) hadj

theorem mine_neighbours_zero_apart (b : Board) (p q : Int) (h : b.mine_neighbours p q = 0)
    (i j : Int) (hg : b.inGrid i j) (hadj : adjacent p q i j) :
    (b.get_cell i j).is_bomb = false := by
  unfold mine_neighbours at h
  rw [List.sum_eq_zero_iff] at h
  have h1 := h _ (List.mem_map.mpr ⟨i, mem_intRange.mpr ⟨hg.1, hg.2.1⟩, rfl⟩)
  rw [List.countP_eq_zero] at h1
  have h2 := h1 j (mem_intRange.mpr ⟨hg.2.2.1, hg.2.2.2⟩)
  simp only [Bool.and_eq_true, decide_eq_true_eq, not_and, Bool.not_eq_true] at h2
  exact h2 hadj

theorem CorrectCounts.minesApart {b : Board} (h : b.CorrectCounts) : b.MinesApart := by
  intro p q hb i j hg hadj
  obtain ⟨hgp, hz, hnm⟩ := hb
  have hc := h p (mem_intRange.mpr ⟨hgp.1, hgp.2.1⟩) q (mem_intRange.mpr ⟨hgp.2.2.1, hgp.2.2.2⟩)
    hnm
  rw [hz] at hc
  exact mine_neighbours_zero_apart b p q (by exact_mod_cast hc.symm) i j hg hadj

/-- One visit of the loop body of `reveal_around`: a blank cell of `b0` that the
visit reveals ends with all its in-grid neighbours revealed. -/
theorem reveal_around_visit_closes (b0 : Board) (hwf : b0.WF) (hm : b0.MinesApart)
    (recurse : Board → Int → Int → Option Board)
    (hrecE : ∀ b i j b', recurse b i j = some b' → Extends b b')
    (hrecW : ∀ b i j b', recurse b i j = some b' → b.WF →
      (b.get_cell i j).bombs_around = 0 → ∀ i' j', b.inGrid i' j' →
        i - 1 ≤ i' ∧ i' ≤ i + 1 → j - 1 ≤ j' ∧ j' ≤ j + 1 →
        (b'.get_cell i' j').is_revealed = true ∨ (b'.get_cell i' j').is_bomb = true)
    (hrecC : ∀ b i j b', Extends b0 b → recurse b i j = some b' →
      ∀ p q, b0.blank p q → (b.get_cell p q).is_revealed = false →
        (b'.get_cell p q).is_revealed = true →
        ∀ i' j', b0.inGrid i' j' → adjacent p q i' j' → (b'.get_cell i' j').is_revealed = true)
    (b : Board) (hext : Extends b0 b) (i1 j1 : Int) (b' : Board)
    (h : reveal_around_visit recurse b i1 j1 = some b') (p q : Int) (hb : b0.blank p q)
    (hu : (b.get_cell p q).is_revealed = false) (hr : (b'.get_cell p q).is_revealed = true)
    (i j : Int) (hg : b0.inGrid i j) (hadj : adjacent p q i j) :
    (b'.get_cell i j).is_revealed = true := by
  unfold reveal_around_visit at h
  split at h
  · rename_i hc
    simp only [Bool.and_eq_true, Bool.not_eq_true'] at hc
    have hext1 := Extends.ext_update_reveal b i1 j1 hc.1 hc.2
    have hext01 := hext.ext_trans hext1
    simp only at h
    by_cases hpq : p = i1 ∧ q = j1
    · obtain ⟨rfl, rfl⟩ := hpq
      have hz : ((b.update_cell p q Cell.reveal).get_cell p q).bombs_around = 0 := by
        rw [hext01.bombs_around]; exact hb.2.1
      have hnb : ((b.update_cell p q Cell.reveal).get_cell p q).is_bomb = false := by
        rw [hext01.is_bomb]; exact hb.2.2
      rw [if_pos (by simp [hz, hnb])] at h
      unfold adjacent at hadj
      rcases hrecW _ p q b' h (hext01.2.2.2.2.2.1 hwf) hz i j (hext01.ext_inGrid hg)
        ⟨by omega, by omega⟩ ⟨by omega, by omega⟩ with hdone | hmine
      · exact hdone
      · rw [(hrecE _ _ _ _ h).is_bomb, hext01.is_bomb, hm p q hb i j hg
          (by unfold adjacent; omega)] at hmine
        cases hmine
    · have hu1 : ((b.update_cell i1 j1 Cell.reveal).get_cell p q).is_revealed = false := by
        rw [get_cell_update_cell_ne b _ hpq]; exact hu
      split at h
      · exact hrecC _ i1 j1 b' hext01 h p q hb hu1 hr i j hg hadj
      · simp only [Option.some.injEq] at h
        subst h
        rw [hu1] at hr
        cases hr
  · simp only [Option.some.injEq] at h
    subst h
    rw [hu] at hr
    cases hr

/-- A blank cell that `reveal_around` reveals ends with all its in-grid neighbours
revealed. -/
theorem reveal_around_fuel_closes (b0 : Board) (hwf : b0.WF) (hm : b0.MinesApart) :
    ∀ (fuel : Nat) (b : Board) (row column : Int) (b' : Board), Extends b0 b →
      reveal_around_fuel fuel b row column = some b' →
      ∀ p q, b0.blank p q → (b.get_cell p q).is_revealed = false →
        (b'.get_cell p q).is_revealed = true →
        ∀ i j, b0.inGrid i j → adjacent p q i j → (b'.get_cell i j).is_revealed = true
  | 0, _, _, _, _, _, h => by simp [reveal_around_fuel] at h
  | fuel + 1, b, row, column, b', hext, h => by
    unfold reveal_around_fuel at h
    split at h
    · simp only [Option.some.injEq] at h
      subst h
      intro p q _ hu hr
      rw [hu] at hr
      cases hr
    · have hvisit : ∀ (b3 : Board) (i j : Int) (b4 : Board),
          reveal_around_visit (reveal_around_fuel fuel) b3 i j = some b4 → Extends b3 b4 :=
        fun b3 i j b4 =>
          reveal_around_visit_extends _ (reveal_around_fuel_extends fuel) b3 i j b4
      have key := foldlM_option_inv _
        (fun bk => Extends b bk ∧ ∀ p q, b0.blank p q → (b.get_cell p q).is_revealed = false →
          (bk.get_cell p q).is_revealed = true →
          ∀ i j, b0.inGrid i j → adjacent p q i j → (bk.get_cell i j).is_revealed = true)
        _ b b' ⟨Extends.ext_refl b, fun p q _ hu hr => by rw [hu] at hr; cases hr⟩ ?_ h
      · exact key.2
      · intro b1 i1 b2 _ hb1 hf
        refine foldlM_option_inv _
          (fun bk => Extends b bk ∧ ∀ p q, b0.blank p q →
            (b.get_cell p q).is_revealed = false → (bk.get_cell p q).is_revealed = true →
            ∀ i j, b0.inGrid i j → adjacent p q i j → (bk.get_cell i j).is_revealed = true)
          _ b1 b2 hb1 ?_ hf
        intro b3 j1 b4 _ hb3 hv
        have hext34 := hvisit b3 i1 j1 b4 hv
        refine ⟨hb3.1.ext_trans hext34, fun p q hb hu hr i j hg hadj => ?_⟩
        cases hr3 : (b3.get_cell p q).is_revealed
        · exact reveal_around_visit_closes b0 hwf hm (reveal_around_fuel fuel)
            (reveal_around_fuel_extends fuel)
            (fun b i j b' hra hw hz i' j' hg' hi' hj' =>
              reveal_around_fuel_window fuel b i j b' hra hw hz i' j' hg' hi' hj')
            (fun b i j b' he hra => reveal_around_fuel_closes b0 hwf hm fuel b i j b' he hra)
            b3 (hext.ext_trans hb3.1) i1 j1 b4 hv p q hb hr3 hr i j hg hadj
        · exact hext34.revealed (hb3.2 p q hb hu hr3 i j hg hadj)

/-- After `reveal_around(row, col)`, every revealed blank cell has all its in-grid
neighbours revealed, provided this held before for every cell but `(row, col)`. -/
theorem reveal_around_closed (b : Board) (hwf : b.WF) (hm : b.MinesApart) (row col : Int)
    (hexc : b.ClosedExcept row col) (b' : Board) (h : b.reveal_around row col = some b') :
    b'.Closed := by
  have hext := reveal_around_fuel_extends _ _ _ _ _ h
  have hsm := hext.sameMines
  intro p q hb' hr' i j hg' hadj
  have hb := hsm.sm_blank.mp hb'
  have hg := hsm.sm_inGrid.mp hg'
  cases hr : (b.get_cell p q).is_revealed
  · exact reveal_around_fuel_closes b hwf hm _ b row col b' (Extends.ext_refl b) h p q hb hr hr'
      i j hg hadj
  · by_cases hpq : p = row ∧ q = col
    · obtain ⟨rfl, rfl⟩ := hpq
      have hadj' := hadj
      unfold adjacent at hadj'
      rcases reveal_around_fuel_window _ b p q b' h hwf hb.2.1 i j hg ⟨by omega, by omega⟩
        ⟨by omega, by omega⟩ with hdone | hmine
      · exact hdone
      · rw [hext.is_bomb, hm p q hb i j hg hadj] at hmine
        cases hmine
    · exact hext.revealed (hexc p q hb hr hpq i j hg hadj)

theorem Closed.of_same {b b' : Board} (hsm : SameMines b b')
    (hrev : ∀ r c, (b'.get_cell r c).is_revealed = (b.get_cell r c).is_revealed)
    (hc : b.Closed) : b'.Closed := by
  intro p q hb hr i j hg hadj
  rw [hrev] at hr ⊢
  exact hc p q (hsm.sm_blank.mp hb) hr i j (hsm.sm_inGrid.mp hg) hadj

theorem Closed.closed_update_reveal {b : Board} (hc : b.Closed) (row col : Int)
    (hu : (b.get_cell row col).is_revealed = false)
    (hn : (b.get_cell row col).is_bomb = false) :
    (b.update_cell row col Cell.reveal).ClosedExcept row col := by
  have hext := Extends.ext_update_reveal b row col hu hn
  intro p q hb hr hpq i j hg hadj
  rw [get_cell_update_cell_ne b _ hpq] at hr
  exact hext.revealed (hc p q (hext.sameMines.sm_blank.mp hb) hr i j
    (hext.sameMines.sm_inGrid.mp hg) hadj)

theorem handle_lose_condition_revealed {b : Board} (hwf : b.WF) {i j : Int}
    (hg : b.inGrid i j) : (b.handle_lose_condition.get_cell i j).is_revealed = true := by
  obtain ⟨row, hrow, hcell⟩ := get_cell_mem (handle_lose_condition_WF hwf)
    ((SameMines.handle_lose_condition b).sm_inGrid.mpr hg)
  exact handle_lose_condition_mem _ row hrow _ hcell

theorem unflag_sameMines (b : Board) (row col : Int) :
    SameMines b (if (b.get_cell row col).is_marked = true then
      b.update_cell row col Cell.flag_bomb else b) := by
  split
  · exact SameMines.update_cell b row col Cell.flag_bomb (fun _ => ⟨rfl, rfl⟩)
  · exact SameMines.sm_refl b

/-- The invariant of play: well-formed grid, no mine next to a blank cell, and every
revealed blank cell has its in-grid neighbours revealed. -/
theorem handle_first_mode_invariant (b : Board) (hwf : b.WF) (hm : b.MinesApart)
    (hc : b.Closed) (row col : Int) (res : Bool × Board)
    (h : b.handle_first_mode row col = some res) :
    res.2.WF ∧ res.2.MinesApart ∧ res.2.Closed := by
  have hwf1 := unflag_WF hwf row col
  have hsm1 := unflag_sameMines b row col
  have hc1 : Closed (if (b.get_cell row col).is_marked = true then
      b.update_cell row col Cell.flag_bomb else b) :=
    Closed.of_same hsm1 (fun r c => (unflag_get_cell b row col r c).2.1) hc
  have hm1 := hsm1.sm_minesApart hm
  unfold handle_first_mode at h
  simp only at h
  generalize (if (b.get_cell row col).is_marked = true then
      b.update_cell row col Cell.flag_bomb else b) = b1 at h hwf1 hsm1 hc1 hm1
  by_cases hcond : (!(b1.get_cell row col).is_revealed && !(b1.get_cell row col).is_bomb) = true
  · rw [if_pos hcond] at h
    simp only [Bool.and_eq_true, Bool.not_eq_true'] at hcond
    rw [Option.map_eq_some'] at h
    obtain ⟨b2, h2, rfl⟩ := h
    have hext1 := Extends.ext_update_reveal b1 row col hcond.1 hcond.2
    have hwf2 := update_cell_WF hwf1 row col Cell.reveal
    have hext2 := reveal_around_fuel_extends _ _ _ _ _ h2
    refine ⟨hext2.2.2.2.2.2.1 hwf2, ?_, ?_⟩
    · exact (hext1.ext_trans hext2).sameMines.sm_minesApart hm1
    · exact reveal_around_closed _ hwf2 (hext1.sameMines.sm_minesApart hm1) row col
        (hc1.closed_update_reveal row col hcond.1 hcond.2) b2 h2
  · rw [if_neg hcond] at h
    by_cases hb : (b1.get_cell row col).is_bomb = true
    · rw [if_pos hb] at h
      simp only [Option.some.injEq] at h
      subst h
      refine ⟨handle_lose_condition_WF hwf1, ?_, ?_⟩
      · exact (SameMines.handle_lose_condition b1).sm_minesApart hm1
      · intro p q _ _ i j hg _
        exact handle_lose_condition_revealed hwf1
          ((SameMines.handle_lose_condition b1).sm_inGrid.mp hg)
    · rw [if_neg hb] at h
      simp only [Option.some.injEq] at h
      subst h
      exact ⟨hwf1, hm1, hc1⟩

theorem handle_second_mode_invariant (b : Board) (hwf : b.WF) (hm : b.MinesApart)
    (hc : b.Closed) (row col : Int) :
    (b.handle_second_mode row col).WF ∧ (b.handle_second_mode row col).MinesApart ∧
      (b.handle_second_mode row col).Closed := by
  unfold handle_second_mode
  split
  · refine ⟨update_cell_WF hwf _ _ _, ?_, ?_⟩
    · exact (SameMines.update_cell b row col Cell.flag_bomb (fun _ => ⟨rfl, rfl⟩)).sm_minesApart hm
    · refine Closed.of_same
        (SameMines.update_cell b row col Cell.flag_bomb (fun _ => ⟨rfl, rfl⟩)) ?_ hc
      intro r c
      rcases get_cell_update_cell_cases b row col r c Cell.flag_bomb with e | ⟨_, _, e⟩
      · rw [e]
      · rw [e]; rfl
  · exact ⟨hwf, hm, hc⟩

theorem Reachable.invariant {b0 b : Board} (hwf : b0.WF) (hm : b0.MinesApart)
    (hc : b0.Closed) (h : Reachable b0 b) : b.WF ∧ b.MinesApart ∧ b.Closed := by
  induction h with
  | init => exact ⟨hwf, hm, hc⟩
  | first _ _ hf ih => exact handle_first_mode_invariant _ ih.1 ih.2.1 ih.2.2 _ _ _ hf
  | second _ _ ih => exact handle_second_mode_invariant _ ih.1 ih.2.1 ih.2.2 _ _

theorem closed_of_unrevealed {b : Board} (hwf : b.WF)
    (hunrev : ∀ row ∈ b.board, ∀ cell ∈ row, cell.is_revealed = false) : b.Closed := by
  intro p q hb hr
  obtain ⟨row, hrow, hcell⟩ := get_cell_mem hwf hb.1
  rw [hunrev row hrow _ hcell] at hr
  cases hr

/-- Claim C6: in every state reached from an all-unrevealed board with correct
adjacency counts by `handle_first_mode` and `handle_second_mode` calls,
`handle_first_mode` on an unrevealed non-mine cell whose counter is 0 returns
`true` and leaves revealed every cell connected to it through zero-count cells
and every in-grid neighbour of such a cell. -/
theorem flood_fill_closure (b0 : Board) (hwf0 : b0.WF)
    (hunrev : ∀ row ∈ b0.board, ∀ cell ∈ row, cell.is_revealed = false)
    (hcounts : b0.CorrectCounts) (b : Board) (hreach : Reachable b0 b) (row col : Int)
    (hin : b.inGrid row col) (hu : (b.get_cell row col).is_revealed = false)
    (hnm : (b.get_cell row col).is_bomb = false)
    (hz : (b.get_cell row col).bombs_around = 0) :
    ∃ b', b.handle_first_mode row col = some (true, b') ∧
      ∀ p q, Connected b.zero_count row col p q →
        (b'.get_cell p q).is_revealed = true ∧
        ∀ i j, b.inGrid i j → adjacent p q i j → (b'.get_cell i j).is_revealed = true := by
  obtain ⟨hwf, hm, hc⟩ := hreach.invariant hwf0 hcounts.minesApart
    (closed_of_unrevealed hwf0 hunrev)
  obtain ⟨res, hres, _⟩ := handle_first_mode_cases b hwf row col
  obtain ⟨_, hm', hc'⟩ := handle_first_mode_invariant b hwf hm hc row col res hres
  -- the shape of the result
  have hwf1 := unflag_WF hwf row col
  have hsm1 := unflag_sameMines b row col
  have hu1 := (unflag_get_cell b row col row col).2.1
  have hn1 := (unflag_get_cell b row col row col).1
  rw [hu] at hu1
  rw [hnm] at hn1
  have hres' := hres
  unfold handle_first_mode at hres'
  simp only at hres'
  generalize (if (b.get_cell row col).is_marked = true then
      b.update_cell row col Cell.flag_bomb else b) = b1 at hres' hwf1 hsm1 hu1 hn1
  rw [if_pos (by simp [hu1, hn1]), Option.map_eq_some'] at hres'
  obtain ⟨b', h2, rfl⟩ := hres'
  have hext1 := Extends.ext_update_reveal b1 row col hu1 hn1
  have hext2 := reveal_around_fuel_extends _ _ _ _ _ h2
  have hsm : SameMines b b' := hsm1.sm_trans (hext1.ext_trans hext2).sameMines
  have hstart : (b'.get_cell row col).is_revealed = true := by
    apply hext2.revealed
    rw [get_cell_update_cell_same hwf1 (hsm1.sm_inGrid.mpr hin)]
    rfl
  have hregion : ∀ p q, Connected b.zero_count row col p q →
      (b'.get_cell p q).is_revealed = true ∧ b.blank p q := by
    intro p q hconn
    induction hconn with
    | start hgood => exact ⟨hstart, hin, hz, hnm⟩
    | @step i j i' j' _ hadj hgood ih =>
      refine ⟨hc' i j (hsm.sm_blank.mpr ih.2) ih.1 i' j' (hsm.sm_inGrid.mpr hgood.1) hadj, hgood.1,
        hgood.2, hm i j ih.2 i' j' hgood.1 hadj⟩
  refine ⟨b', hres, fun p q hconn => ?_⟩
  obtain ⟨hr, hb⟩ := hregion p q hconn
  exact ⟨hr, fun i j hg hadj => hc' p q (hsm.sm_blank.mpr hb) hr i j (hsm.sm_inGrid.mpr hg) hadj⟩

/-- Instance of claim C6: the sample board with a flag on `(0, 3)`, click on the
zero-count cell `(0, 4)`. -/
theorem flood_fill_closure_witness :
    ∃ b', (sampleBoard.handle_second_mode 0 3).handle_first_mode 0 4 = some (true, b') ∧
      ∀ p q, Connected (sampleBoard.handle_second_mode 0 3).zero_count 0 4 p q →
        (b'.get_cell p q).is_revealed = true ∧
        ∀ i j, (sampleBoard.handle_second_mode 0 3).inGrid i j → adjacent p q i j →
          (b'.get_cell i j).is_revealed = true :=
  flood_fill_closure sampleBoard (by decide) (by decide) (by decide)
    (sampleBoard.handle_second_mode 0 3) (Reachable.second Reachable.init (by decide)) 0 4
    (by decide) (by decide) (by decide) (by decide)

/-! ## Outcome of a reveal -/

/-- The result of `handle_first_mode` on a mine: loss, and the board with the flag
of the target cleared and then every cell revealed. -/
theorem handle_first_mode_mine (b : Board) (row col : Int)
    (hm : (b.get_cell row col).is_bomb = true) :
    b.handle_first_mode row col = some (false,
      (if (b.get_cell row col).is_marked = true then b.update_cell row col Cell.flag_bomb
        else b).handle_lose_condition) := by
  have hb := (unflag_get_cell b row col row col).1
  rw [hm] at hb
  unfold handle_first_mode
  simp only [hb, Bool.not_true, Bool.and_false, Bool.false_eq_true, if_false, if_true]

/-- The result of `handle_first_mode` on a revealed non-mine cell: the game goes on
and the board only has the flag of the target cleared. -/
theorem handle_first_mode_revealed (b : Board) (row col : Int)
    (hr : (b.get_cell row col).is_revealed = true)
    (hn : (b.get_cell row col).is_bomb = false) :
    b.handle_first_mode row col = some (true,
      if (b.get_cell row col).is_marked = true then b.update_cell row col Cell.flag_bomb
        else b) := by
  have hb := (unflag_get_cell b row col row col).1
  have hr1 := (unflag_get_cell b row col row col).2.1
  rw [hn] at hb
  rw [hr] at hr1
  unfold handle_first_mode
  simp only [hb, hr1, Bool.not_true, Bool.false_and, Bool.false_eq_true, if_false]

/-- The result of `handle_first_mode` on an unrevealed non-mine cell: the game goes
on, and the board is the one `reveal_around` returns after the flag of the
target has been cleared and the target revealed. -/
theorem handle_first_mode_unrevealed (b : Board) (hwf : b.WF) (row col : Int)
    (hu : (b.get_cell row col).is_revealed = false)
    (hn : (b.get_cell row col).is_bomb = false) :
    ∃ b2, ((if (b.get_cell row col).is_marked = true then b.update_cell row col Cell.flag_bomb
        else b).update_cell row col Cell.reveal).reveal_around row col = some b2 ∧
      b.handle_first_mode row col = some (true, b2) ∧
      Extends (if (b.get_cell row col).is_marked = true then
        b.update_cell row col Cell.flag_bomb else b) b2 := by
  have hb := (unflag_get_cell b row col row col).1
  have hr1 := (unflag_get_cell b row col row col).2.1
  have hwf1 := unflag_WF hwf row col
  rw [hn] at hb
  rw [hu] at hr1
  obtain ⟨b2, h2, hext2⟩ := reveal_around_total _ (update_cell_WF hwf1 row col Cell.reveal)
    row col
  refine ⟨b2, h2, ?_, (Extends.ext_update_reveal _ row col hr1 hb).ext_trans hext2⟩
  unfold handle_first_mode
  simp only [hb, hr1, Bool.not_false, Bool.and_self, if_true, h2, Option.map_some']

/-- Claim C17: `handle_first_mode` on an in-bounds cell returns, and it returns
`false` exactly when the target is a mine, whatever its flag and reveal state;
on every non-mine target it returns `true`. -/
theorem reveal_outcome (b : Board) (hwf : b.WF) (row col : Int) (_hin : b.inGrid row col) :
    ∃ res, b.handle_first_mode row col = some res ∧
      (res.1 = false ↔ (b.get_cell row col).is_bomb = true) ∧
      ((b.get_cell row col).is_bomb = false → res.1 = true) := by
  cases hm : (b.get_cell row col).is_bomb
  · cases hr : (b.get_cell row col).is_revealed
    · obtain ⟨b2, _, h, _⟩ := handle_first_mode_unrevealed b hwf row col hr hm
      exact ⟨_, h, by simp, fun _ => rfl⟩
    · exact ⟨_, handle_first_mode_revealed b row col hr hm, by simp, fun _ => rfl⟩
  · exact ⟨_, handle_first_mode_mine b row col hm, by simp, by simp⟩

/-- Instance of claim C17: clicks on the flagged non-mine cell `(0, 3)` of
`flaggedBoard`. -/
theorem reveal_outcome_witness :
    ∃ res, flaggedBoard.handle_first_mode 0 3 = some res ∧
      (res.1 = false ↔ (flaggedBoard.get_cell 0 3).is_bomb = true) ∧
      ((flaggedBoard.get_cell 0 3).is_bomb = false → res.1 = true) :=
  reveal_outcome flaggedBoard (by decide) 0 3 (by decide)

/-- The board `floodedBoard` arises from `flaggedBoard` by the flood fill
started on `(0, 4)`. -/
theorem floodedBoard_reached : flaggedBoard.reveal_around 0 4 = some floodedBoard := by
  decide

/-- Counterexample to claim C18 as stated: on `floodedBoard` the cell `(0, 3)` is
in bounds, revealed, not a mine, and flagged; `handle_first_mode` on it clears
the flag, so the board is not left unchanged. -/
theorem first_mode_clears_flag_of_revealed :
    floodedBoard.WF ∧ floodedBoard.inGrid 0 3 ∧
    (floodedBoard.get_cell 0 3).is_revealed = true ∧
    (floodedBoard.get_cell 0 3).is_bomb = false ∧
    (floodedBoard.get_cell 0 3).is_marked = true ∧
    (floodedBoard.handle_first_mode 0 3).map
      (fun res => (res.2.get_cell 0 3).is_marked) = some false ∧
    floodedBoard.handle_first_mode 0 3 ≠ some (true, floodedBoard) := by
  decide

/-- Claim C18, amended: `handle_first_mode` on an in-bounds cell that is already
revealed and is not a mine returns `true` and changes nothing but the flag of
the target, which it clears if it is set; when the target is not flagged the
entire board is unchanged. -/
theorem reveal_of_revealed (b : Board) (hwf : b.WF) (row col : Int) (hin : b.inGrid row col)
    (hr : (b.get_cell row col).is_revealed = true)
    (hn : (b.get_cell row col).is_bomb = false) :
    ∃ b', b.handle_first_mode row col = some (true, b') ∧
      ((b.get_cell row col).is_marked = false → b' = b) ∧
      b'.width = b.width ∧ b'.height = b.height ∧
      (∀ r c, ¬(r = row ∧ c = col) → b'.get_cell r c = b.get_cell r c) ∧
      b'.get_cell row col = { b.get_cell row col with is_marked := false } := by
  refine ⟨_, handle_first_mode_revealed b row col hr hn, ?_, ?_, ?_, ?_, ?_⟩
  · intro hf
    rw [if_neg (by simp [hf])]
  · split <;> simp
  · split <;> simp
  · intro r c hne
    split
    · exact get_cell_update_cell_ne b _ hne
    · rfl
  · split
    · rename_i hmk
      rw [get_cell_update_cell_same hwf hin]
      simp [Cell.flag_bomb, hmk]
    · rename_i hmk
      have : (b.get_cell row col).is_marked = false := by simpa using hmk
      rw [← this]

/-- Instance of claim C18 as amended: a click on the revealed, flagged cell `(0, 3)`
of `floodedBoard`. -/
theorem reveal_of_revealed_witness :
    ∃ b', floodedBoard.handle_first_mode 0 3 = some (true, b') ∧
      ((floodedBoard.get_cell 0 3).is_marked = false → b' = floodedBoard) ∧
      b'.width = floodedBoard.width ∧ b'.height = floodedBoard.height ∧
      (∀ r c, ¬(r = 0 ∧ c = 3) → b'.get_cell r c = floodedBoard.get_cell r c) ∧
      b'.get_cell 0 3 = { floodedBoard.get_cell 0 3 with is_marked := false } :=
  reveal_of_revealed floodedBoard (by decide) 0 3 (by decide) (by decide) (by decide)

/-! ## Flags -/

theorem update_cell_twice (b : Board) (i j : Int) (f g : Cell → Cell) :
    (b.update_cell i j f).update_cell i j g = b.update_cell i j (g ∘ f) := by
  unfold update_cell
  split
  · simp only [List.modify_modify_eq]
    congr 2
    funext r
    simp [List.modify_modify_eq]
  · rfl

theorem update_cell_fixed (b : Board) (i j : Int) (f : Cell → Cell) (hf : ∀ cell, f cell = cell) :
    b.update_cell i j f = b := by
  unfold update_cell
  split
  · have : b.board.modify (fun r => r.modify f j.toNat) i.toNat = b.board := by
      apply modify_eq_self_of_fixed
      intro row _
      apply modify_eq_self_of_fixed
      intro a _
      exact hf a
    rw [this]
  · rfl

/-- Claim C12: `handle_second_mode` on an in-bounds cell flips `is_marked` when the
cell is not revealed and leaves the board as it is when the cell is revealed;
in both cases `is_bomb`, `is_revealed` and `bombs_around` of the cell are
unchanged, and two calls on an unrevealed cell restore the original board. -/
theorem toggle_flag (b : Board) (hwf : b.WF) (row col : Int) (hin : b.inGrid row col) :
    ((b.get_cell row col).is_revealed = false →
      (b.handle_second_mode row col).get_cell row col = (b.get_cell row col).flag_bomb ∧
      ((b.handle_second_mode row col).get_cell row col).is_marked =
        !(b.get_cell row col).is_marked ∧
      (b.handle_second_mode row col).handle_second_mode row col = b) ∧
    ((b.get_cell row col).is_revealed = true → b.handle_second_mode row col = b) ∧
    ((b.handle_second_mode row col).get_cell row col).is_bomb =
      (b.get_cell row col).is_bomb ∧
    ((b.handle_second_mode row col).get_cell row col).is_revealed =
      (b.get_cell row col).is_revealed ∧
    ((b.handle_second_mode row col).get_cell row col).bombs_around =
      (b.get_cell row col).bombs_around := by
  have hsame := get_cell_update_cell_same hwf hin Cell.flag_bomb
  cases hr : (b.get_cell row col).is_revealed
  · have h1 : b.handle_second_mode row col = b.update_cell row col Cell.flag_bomb := by
      unfold handle_second_mode
      simp [hr]
    rw [h1, hsame]
    refine ⟨fun _ => ⟨rfl, rfl, ?_⟩, fun h => (by cases h), rfl, hr, rfl⟩
    have h2 : (b.update_cell row col Cell.flag_bomb).handle_second_mode row col =
        (b.update_cell row col Cell.flag_bomb).update_cell row col Cell.flag_bomb := by
      unfold handle_second_mode
      rw [hsame]
      simp [Cell.flag_bomb, hr]
    rw [h2, update_cell_twice]
    exact update_cell_fixed b row col _ (fun cell => by cases cell; simp [Cell.flag_bomb])
  · have h1 : b.handle_second_mode row col = b := by
      unfold handle_second_mode
      simp [hr]
    rw [h1]
    exact ⟨fun h => (by cases h), fun _ => rfl, rfl, hr, rfl⟩

/-- Instance of claim C12: the unrevealed cell `(0, 3)` of the sample board. -/
theorem toggle_flag_witness :
    ((sampleBoard.get_cell 0 3).is_revealed = false →
      (sampleBoard.handle_second_mode 0 3).get_cell 0 3 = (sampleBoard.get_cell 0 3).flag_bomb ∧
      ((sampleBoard.handle_second_mode 0 3).get_cell 0 3).is_marked =
        !(sampleBoard.get_cell 0 3).is_marked ∧
      (sampleBoard.handle_second_mode 0 3).handle_second_mode 0 3 = sampleBoard) ∧
    ((sampleBoard.get_cell 0 3).is_revealed = true →
      sampleBoard.handle_second_mode 0 3 = sampleBoard) ∧
    ((sampleBoard.handle_second_mode 0 3).get_cell 0 3).is_bomb =
      (sampleBoard.get_cell 0 3).is_bomb ∧
    ((sampleBoard.handle_second_mode 0 3).get_cell 0 3).is_revealed =
      (sampleBoard.get_cell 0 3).is_revealed ∧
    ((sampleBoard.handle_second_mode 0 3).get_cell 0 3).bombs_around =
      (sampleBoard.get_cell 0 3).bombs_around :=
  toggle_flag sampleBoard (by decide) 0 3 (by decide)

/-! ## Numbered cells, flag then reveal, immutable mines -/

theorem reveal_around_of_nonzero (b : Board) (row col : Int)
    (hz : (b.get_cell row col).bombs_around ≠ 0) : b.reveal_around row col = some b := by
  unfold reveal_around reveal_around_fuel
  rw [if_pos hz]

/-- Claim C19: `reveal_around` on an in-bounds cell whose counter is positive returns
the board unchanged; `handle_first_mode` on such a cell, when it is unrevealed,
unflagged and not a mine, returns `true` with the board in which exactly that
cell has been revealed. -/
theorem numbered_cell_stops (b : Board) (hwf : b.WF) (row col : Int) (hin : b.inGrid row col)
    (hpos : 0 < (b.get_cell row col).bombs_around) :
    b.reveal_around row col = some b ∧
    ((b.get_cell row col).is_revealed = false → (b.get_cell row col).is_marked = false →
      (b.get_cell row col).is_bomb = false →
      b.handle_first_mode row col = some (true, b.update_cell row col Cell.reveal) ∧
      (b.update_cell row col Cell.reveal).get_cell row col = (b.get_cell row col).reveal ∧
      ∀ r c, ¬(r = row ∧ c = col) →
        (b.update_cell row col Cell.reveal).get_cell r c = b.get_cell r c) := by
  refine ⟨reveal_around_of_nonzero b row col (by omega), fun hu hf hn => ⟨?_, ?_, ?_⟩⟩
  · obtain ⟨b2, h2, h, _⟩ := handle_first_mode_unrevealed b hwf row col hu hn
    rw [if_neg (by simp [hf])] at h2
    rw [reveal_around_of_nonzero] at h2
    · simp only [Option.some.injEq] at h2
      rw [h, h2]
    · rw [get_cell_update_cell_same hwf hin]
      show (b.get_cell row col).bombs_around ≠ 0
      omega
  · exact get_cell_update_cell_same hwf hin _
  · intro r c hne
    exact get_cell_update_cell_ne b _ hne

/-- Instance of claim C19: the numbered cell `(1, 1)` of the sample board. -/
theorem numbered_cell_stops_witness :
    sampleBoard.reveal_around 1 1 = some sampleBoard ∧
    ((sampleBoard.get_cell 1 1).is_revealed = false →
      (sampleBoard.get_cell 1 1).is_marked = false →
      (sampleBoard.get_cell 1 1).is_bomb = false →
      sampleBoard.handle_first_mode 1 1 = some (true, sampleBoard.update_cell 1 1 Cell.reveal) ∧
      (sampleBoard.update_cell 1 1 Cell.reveal).get_cell 1 1 =
        (sampleBoard.get_cell 1 1).reveal ∧
      ∀ r c, ¬(r = 1 ∧ c = 1) →
        (sampleBoard.update_cell 1 1 Cell.reveal).get_cell r c = sampleBoard.get_cell r c) :=
  numbered_cell_stops sampleBoard (by decide) 1 1 (by decide) (by decide)

/-- Claim C11: on an in-bounds cell that is unrevealed, unflagged and not a mine,
`handle_second_mode` sets the flag, and `handle_first_mode` on the same cell
then returns `true` and leaves the cell unflagged and revealed. -/
theorem flag_then_reveal (b : Board) (hwf : b.WF) (row col : Int) (hin : b.inGrid row col)
    (hu : (b.get_cell row col).is_revealed = false)
    (hf : (b.get_cell row col).is_marked = false)
    (hn : (b.get_cell row col).is_bomb = false) :
    ((b.handle_second_mode row col).get_cell row col).is_marked = true ∧
    ∃ b', (b.handle_second_mode row col).handle_first_mode row col = some (true, b') ∧
      (b'.get_cell row col).is_marked = false ∧
      (b'.get_cell row col).is_revealed = true := by
  have h1 : b.handle_second_mode row col = b.update_cell row col Cell.flag_bomb := by
    unfold handle_second_mode
    simp [hu]
  have hwf1 : (b.update_cell row col Cell.flag_bomb).WF := update_cell_WF hwf _ _ _
  have hin1 : (b.update_cell row col Cell.flag_bomb).inGrid row col := by
    unfold inGrid; simpa using hin
  have hcell := get_cell_update_cell_same hwf hin Cell.flag_bomb
  rw [h1]
  have hm1 : ((b.update_cell row col Cell.flag_bomb).get_cell row col).is_marked = true := by
    rw [hcell]; simp [Cell.flag_bomb, hf]
  have hu1 : ((b.update_cell row col Cell.flag_bomb).get_cell row col).is_revealed = false := by
    rw [hcell]; exact hu
  have hn1 : ((b.update_cell row col Cell.flag_bomb).get_cell row col).is_bomb = false := by
    rw [hcell]; exact hn
  refine ⟨hm1, ?_⟩
  obtain ⟨b2, h2, h, _⟩ := handle_first_mode_unrevealed _ hwf1 row col hu1 hn1
  rw [if_pos hm1] at h2
  have hext := reveal_around_fuel_extends _ _ _ _ _ h2
  have hwf2 : ((b.update_cell row col Cell.flag_bomb).update_cell row col Cell.flag_bomb).WF :=
    update_cell_WF hwf1 _ _ _
  have hin2 : ((b.update_cell row col Cell.flag_bomb).update_cell row col
      Cell.flag_bomb).inGrid row col := by
    unfold inGrid; simpa using hin
  have hfinal : (((b.update_cell row col Cell.flag_bomb).update_cell row col
      Cell.flag_bomb).update_cell row col Cell.reveal).get_cell row col =
      ((b.get_cell row col).flag_bomb.flag_bomb).reveal := by
    rw [get_cell_update_cell_same hwf2 hin2, get_cell_update_cell_same hwf1 hin1, hcell]
  refine ⟨b2, h, ?_, ?_⟩
  · rw [hext.is_marked, hfinal]
    simp [Cell.flag_bomb, Cell.reveal, hf]
  · apply hext.revealed
    rw [hfinal]
    rfl

/-- Instance of claim C11: the numbered cell `(0, 3)` of the sample board. -/
theorem flag_then_reveal_witness :
    ((sampleBoard.handle_second_mode 0 3).get_cell 0 3).is_marked = true ∧
    ∃ b', (sampleBoard.handle_second_mode 0 3).handle_first_mode 0 3 = some (true, b') ∧
      (b'.get_cell 0 3).is_marked = false ∧
      (b'.get_cell 0 3).is_revealed = true :=
  flag_then_reveal sampleBoard (by decide) 0 3 (by decide) (by decide) (by decide) (by decide)

/-- Claim C20: `handle_first_mode`, `handle_second_mode`, `reveal_around` and
`handle_lose_condition` on in-bounds arguments keep the grid well formed with
the same `width` and `height`, and leave `is_bomb` and `bombs_around` of every
cell unchanged; `reveal_around` and `handle_lose_condition` also leave every
`is_marked` unchanged. -/
theorem mines_and_counts_immutable (b : Board) (hwf : b.WF) (row col : Int)
    (_hin : b.inGrid row col) :
    (∃ res, b.handle_first_mode row col = some res ∧ res.2.WF ∧ SameMines b res.2) ∧
    ((b.handle_second_mode row col).WF ∧ SameMines b (b.handle_second_mode row col)) ∧
    (∃ b', b.reveal_around row col = some b' ∧ b'.WF ∧ SameMines b b' ∧
      ∀ r c, (b'.get_cell r c).is_marked = (b.get_cell r c).is_marked) ∧
    (b.handle_lose_condition.WF ∧ SameMines b b.handle_lose_condition ∧
      ∀ r c, (b.handle_lose_condition.get_cell r c).is_marked = (b.get_cell r c).is_marked) := by
  refine ⟨?_, ?_, ?_, ?_⟩
  · obtain ⟨res, hres, hcase⟩ := handle_first_mode_cases b hwf row col
    have hwf1 := unflag_WF hwf row col
    have hsm1 := unflag_sameMines b row col
    refine ⟨res, hres, ?_⟩
    rcases hcase with hext | heq
    · exact ⟨hext.2.2.2.2.2.1 hwf1, hsm1.sm_trans hext.sameMines⟩
    · rw [heq]
      exact ⟨handle_lose_condition_WF hwf1,
        hsm1.sm_trans (SameMines.handle_lose_condition _)⟩
  · unfold handle_second_mode
    split
    · exact ⟨update_cell_WF hwf _ _ _,
        SameMines.update_cell b row col Cell.flag_bomb (fun _ => ⟨rfl, rfl⟩)⟩
    · exact ⟨hwf, SameMines.sm_refl b⟩
  · obtain ⟨b', h, hext⟩ := reveal_around_total b hwf row col
    exact ⟨b', h, hext.2.2.2.2.2.1 hwf, hext.sameMines, hext.is_marked⟩
  · refine ⟨handle_lose_condition_WF hwf, SameMines.handle_lose_condition b, fun r c => ?_⟩
    rcases get_cell_handle_lose_condition b r c with e | e
    · rw [e]
    · rw [e]; rfl

/-- Instance of claim C20: the four actions at `(0, 4)` on `flaggedBoard`. -/
theorem mines_and_counts_immutable_witness :
    (∃ res, flaggedBoard.handle_first_mode 0 4 = some res ∧ res.2.WF ∧
      SameMines flaggedBoard res.2) ∧
    ((flaggedBoard.handle_second_mode 0 4).WF ∧
      SameMines flaggedBoard (flaggedBoard.handle_second_mode 0 4)) ∧
    (∃ b', flaggedBoard.reveal_around 0 4 = some b' ∧ b'.WF ∧ SameMines flaggedBoard b' ∧
      ∀ r c, (b'.get_cell r c).is_marked = (flaggedBoard.get_cell r c).is_marked) ∧
    (flaggedBoard.handle_lose_condition.WF ∧
      SameMines flaggedBoard flaggedBoard.handle_lose_condition ∧
      ∀ r c, (flaggedBoard.handle_lose_condition.get_cell r c).is_marked =
        (flaggedBoard.get_cell r c).is_marked) :=
  mines_and_counts_immutable flaggedBoard (by decide) 0 4 (by decide)

/-! ## Construction and display -/

/-- Claim C15: for positive `w` and `h`, the constructor `Board(w, h, bombs, x, y)`
builds a grid of exactly `h` rows of exactly `w` cells, every one the default
cell, so no mine is placed whatever `bombs` is; the five numbers are stored
as given. -/
theorem construction_empty (w h bombs x y : Int) (hw : 0 < w) (hh : 0 < h) :
    ((Board.new w h bombs x y).board.length : Int) = h ∧
    (∀ row ∈ (Board.new w h bombs x y).board, (row.length : Int) = w ∧
      ∀ cell ∈ row, cell =
        { is_bomb := false, is_marked := false, is_revealed := false, bombs_around := 0 }) ∧
    (Board.new w h bombs x y).mines = 0 ∧
    (Board.new w h bombs x y).width = w ∧ (Board.new w h bombs x y).height = h ∧
    (Board.new w h bombs x y).bomb_amount = bombs ∧
    (Board.new w h bombs x y).first_x = x ∧ (Board.new w h bombs x y).first_y = y := by
  refine ⟨?_, ?_, new_mines w h bombs x y, rfl, rfl, rfl, rfl, rfl⟩
  · rw [new_board, List.length_replicate]
    omega
  · intro row hrow
    rw [new_board] at hrow
    rw [List.eq_of_mem_replicate hrow, List.length_replicate]
    refine ⟨by omega, fun cell hcell => ?_⟩
    rw [List.eq_of_mem_replicate hcell]
    rfl

/-- Instance of claim C15: the board built for a 5 x 7 game with 7 mines requested. -/
theorem construction_empty_witness :
    ((Board.new 5 7 7 3 2).board.length : Int) = 7 ∧
    (∀ row ∈ (Board.new 5 7 7 3 2).board, (row.length : Int) = 5 ∧
      ∀ cell ∈ row, cell =
        { is_bomb := false, is_marked := false, is_revealed := false, bombs_around := 0 }) ∧
    (Board.new 5 7 7 3 2).mines = 0 ∧
    (Board.new 5 7 7 3 2).width = 5 ∧ (Board.new 5 7 7 3 2).height = 7 ∧
    (Board.new 5 7 7 3 2).bomb_amount = 7 ∧
    (Board.new 5 7 7 3 2).first_x = 3 ∧ (Board.new 5 7 7 3 2).first_y = 2 :=
  construction_empty 5 7 7 3 2 (by decide) (by decide)

/-- Claim C16: for a cell whose counter is not negative, `Cell::display` writes what
the priority chain of the specification prescribes: the flag marker if the cell
is flagged, whatever its other fields; else the hidden marker if it is not
revealed; else the mine marker if it is a mine; else the counter in decimal if
it is positive; else a blank. -/
theorem display_priority_chain (c : Cell) (hnonneg : 0 ≤ c.bombs_around) :
    c.display = display_by_priority c.is_bomb c.is_marked c.is_revealed c.bombs_around ∧
    (c.is_marked = true → c.display = "⚐") ∧
    (c.is_marked = false → c.is_revealed = false → c.display = "■") ∧
    (c.is_marked = false → c.is_revealed = true → c.is_bomb = true → c.display = "⚹") ∧
    (c.is_marked = false → c.is_revealed = true → c.is_bomb = false → 0 < c.bombs_around →
      c.display = toString c.bombs_around) ∧
    (c.is_marked = false → c.is_revealed = true → c.is_bomb = false → c.bombs_around = 0 →
      c.display = " ") := by
  have hiff : c.bombs_around ≠ 0 ↔ 0 < c.bombs_around := by omega
  unfold Cell.display display_by_priority
  cases hm : c.is_marked <;> cases hr : c.is_revealed <;> cases hb : c.is_bomb <;>
    simp [hiff]
  all_goals omega

/-- Instance of claim C16: a revealed non-mine cell with counter 3 is written as the
digit 3. -/
theorem display_priority_chain_witness :
    ({ is_bomb := false, is_marked := false, is_revealed := true, bombs_around := 3 } :
      Cell).display = "3" ∧
    (0 : Int) ≤ 3 ∧ display_by_priority false false true 3 = "3" :=
  ⟨((display_priority_chain
      { is_bomb := false, is_marked := false, is_revealed := true, bombs_around := 3 }
      (by decide)).2.2.2.2.1 rfl rfl rfl (by decide)).trans (by decide), by decide, by decide⟩

/-! ## Flooding a board without mines -/

/-- On a board that satisfies the invariant of play, `handle_first_mode` on an
unrevealed blank cell returns `true` and leaves revealed every cell connected to
the target through zero-count cells and every in-grid neighbour of such a cell. -/
theorem handle_first_mode_floods (b : Board) (hwf : b.WF) (hm : b.MinesApart) (hc : b.Closed)
    (row col : Int) (hin : b.inGrid row col) (hu : (b.get_cell row col).is_revealed = false)
    (hnm : (b.get_cell row col).is_bomb = false)
    (hz : (b.get_cell row col).bombs_around = 0) :
    ∃ b', b.handle_first_mode row col = some (true, b') ∧ b'.WF ∧ SameMines b b' ∧
      ∀ p q, Connected b.zero_count row col p q →
        (b'.get_cell p q).is_revealed = true ∧
        ∀ i j, b.inGrid i j → adjacent p q i j → (b'.get_cell i j).is_revealed = true := by
  obtain ⟨b', h2, hres, hext⟩ := handle_first_mode_unrevealed b hwf row col hu hnm
  obtain ⟨hwf', _, hc'⟩ := handle_first_mode_invariant b hwf hm hc row col _ hres
  have hsm1 := unflag_sameMines b row col
  have hwf1 := unflag_WF hwf row col
  have hsm : SameMines b b' := hsm1.sm_trans hext.sameMines
  have hstart : (b'.get_cell row col).is_revealed = true := by
    apply (reveal_around_fuel_extends _ _ _ _ _ h2).revealed
    rw [get_cell_update_cell_same hwf1 (hsm1.sm_inGrid.mpr hin)]
    rfl
  have hregion : ∀ p q, Connected b.zero_count row col p q →
      (b'.get_cell p q).is_revealed = true ∧ b.blank p q := by
    intro p q hconn
    induction hconn with
    | start hgood => exact ⟨hstart, hin, hz, hnm⟩
    | @step i j i' j' _ hadj hgood ih =>
      refine ⟨hc' i j (hsm.sm_blank.mpr ih.2) ih.1 i' j' (hsm.sm_inGrid.mpr hgood.1) hadj, hgood.1,
        hgood.2, hm i j ih.2 i' j' hgood.1 hadj⟩
  refine ⟨b', hres, hwf', hsm, fun p q hconn => ?_⟩
  obtain ⟨hr, hb⟩ := hregion p q hconn
  exact ⟨hr, fun i j hg hadj => hc' p q (hsm.sm_blank.mpr hb) hr i j (hsm.sm_inGrid.mpr hg) hadj⟩

/-- Every cell stored in a well-formed grid is the cell at some in-grid coordinate. -/
theorem mem_board_get_cell {b : Board} (hwf : b.WF) {row : List Cell} (hrow : row ∈ b.board)
    {cell : Cell} (hcell : cell ∈ row) : ∃ i j, b.inGrid i j ∧ b.get_cell i j = cell := by
  obtain ⟨h1, h2⟩ := hwf
  obtain ⟨n, hn, rfl⟩ := List.getElem_of_mem hrow
  obtain ⟨m, hm, rfl⟩ := List.getElem_of_mem hcell
  have hlen := h2 _ (List.getElem_mem hn)
  refine ⟨(n : Int), (m : Int), ⟨by omega, by omega, by omega, by omega⟩, ?_⟩
  unfold get_cell
  simp [List.getElem?_eq_getElem hn, List.getElem?_eq_getElem hm]

theorem connected_along_column (b : Board) (good : Int → Int → Prop)
    (hgood : ∀ i j, b.inGrid i j → good i j) (row col : Int) (hin : b.inGrid row col) :
    ∀ (n : Nat) (p : Int), b.inGrid p col → (p - row).natAbs = n →
      Connected good row col p col
  | 0, p, _, hn => by
    have : p = row := by omega
    subst this
    exact Connected.start (hgood _ _ hin)
  | n + 1, p, hp, hn => by
    by_cases hlt : row < p
    · have hp' : b.inGrid (p - 1) col := by
        unfold inGrid at hp hin ⊢
        omega
      refine Connected.step (connected_along_column b good hgood row col hin n (p - 1) hp'
        (by omega)) ?_ (hgood _ _ hp)
      unfold adjacent
      omega
    · have hp' : b.inGrid (p + 1) col := by
        unfold inGrid at hp hin ⊢
        omega
      refine Connected.step (connected_along_column b good hgood row col hin n (p + 1) hp'
        (by omega)) ?_ (hgood _ _ hp)
      unfold adjacent
      omega

theorem connected_along_row (b : Board) (good : Int → Int → Prop)
    (hgood : ∀ i j, b.inGrid i j → good i j) (row col : Int) (hin : b.inGrid row col)
    (p : Int) (hp : b.inGrid p col) :
    ∀ (n : Nat) (q : Int), b.inGrid p q → (q - col).natAbs = n → Connected good row col p q
  | 0, q, _, hn => by
    have : q = col := by omega
    subst this
    exact connected_along_column b good hgood row q hin _ p hp rfl
  | n + 1, q, hq, hn => by
    by_cases hlt : col < q
    · have hq' : b.inGrid p (q - 1) := by
        unfold inGrid at hq hin ⊢
        omega
      refine Connected.step (connected_along_row b good hgood row col hin p hp n (q - 1) hq'
        (by omega)) ?_ (hgood _ _ hq)
      unfold adjacent
      omega
    · have hq' : b.inGrid p (q + 1) := by
        unfold inGrid at hq hin ⊢
        omega
      refine Connected.step (connected_along_row b good hgood row col hin p hp n (q + 1) hq'
        (by omega)) ?_ (hgood _ _ hq)
      unfold adjacent
      omega

/-- Any two cells of the grid are connected through cells of the grid. -/
theorem connected_grid (b : Board) (good : Int → Int → Prop)
    (hgood : ∀ i j, b.inGrid i j → good i j) (row col : Int) (hin : b.inGrid row col)
    (p q : Int) (hpq : b.inGrid p q) : Connected good row col p q :=
  connected_along_row b good hgood row col hin p
    ⟨hpq.1, hpq.2.1, hin.2.2.1, hin.2.2.2⟩ _ q hpq rfl

/-- Claim C13: on a board without mines, with all counters 0 and no cell revealed,
`handle_first_mode` on any in-bounds cell returns `true` and leaves every cell
of the grid revealed. -/
theorem zero_mine_board_floods (b : Board) (hwf : b.WF)
    (hempty : ∀ row ∈ b.board, ∀ cell ∈ row,
      cell.is_bomb = false ∧ cell.bombs_around = 0 ∧ cell.is_revealed = false)
    (row col : Int) (hin : b.inGrid row col) :
    ∃ b', b.handle_first_mode row col = some (true, b') ∧
      (∀ r ∈ b'.board, ∀ cell ∈ r, cell.is_revealed = true) ∧
      b'.WF ∧ b'.width = b.width ∧ b'.height = b.height ∧
      ∀ i j, b'.inGrid i j → (b'.get_cell i j).is_revealed = true := by
  have hcell : ∀ i j, b.inGrid i j → (b.get_cell i j).is_bomb = false ∧
      (b.get_cell i j).bombs_around = 0 ∧ (b.get_cell i j).is_revealed = false := by
    intro i j hg
    obtain ⟨r, hr, hc⟩ := get_cell_mem hwf hg
    exact hempty r hr _ hc
  have hm : b.MinesApart := fun _ _ _ i j hg _ => (hcell i j hg).1
  have hc : b.Closed := closed_of_unrevealed hwf (fun r hr c hc => (hempty r hr c hc).2.2)
  obtain ⟨b', hres, hwf', hsm, hflood⟩ := handle_first_mode_floods b hwf hm hc row col hin
    (hcell row col hin).2.2 (hcell row col hin).1 (hcell row col hin).2.1
  have hall : ∀ i j, b'.inGrid i j → (b'.get_cell i j).is_revealed = true := by
    intro i j hg
    have hg0 := hsm.sm_inGrid.mp hg
    exact (hflood i j (connected_grid b b.zero_count
      (fun i j hg => ⟨hg, (hcell i j hg).2.1⟩) row col hin i j hg0)).1
  refine ⟨b', hres, ?_, hwf', hsm.1, hsm.2.1, hall⟩
  intro r hr cell hc
  obtain ⟨i, j, hg, rfl⟩ := mem_board_get_cell hwf' hr hc
  exact hall i j hg

/-- Instance of claim C13: a 5 x 5 game with `bomb_amount = 0` and origin `(2, 2)`.
`place_bombs` places no mine, counting leaves every counter at 0, and the first
reveal, on the origin, reveals all 25 cells. -/
theorem zero_mine_board_floods_witness :
    (Board.new 5 5 0 2 2).place_bombs sampleDraws = some (Board.new 5 5 0 2 2) ∧
    (Board.new 5 5 0 2 2).mines = 0 ∧
    (∀ row ∈ ((Board.new 5 5 0 2 2).count_all_bombs 5 5).board, ∀ cell ∈ row,
      cell.is_bomb = false ∧ cell.bombs_around = 0 ∧ cell.is_revealed = false) ∧
    ∃ b', ((Board.new 5 5 0 2 2).count_all_bombs 5 5).handle_first_mode 2 2 = some (true, b') ∧
      (∀ r ∈ b'.board, ∀ cell ∈ r, cell.is_revealed = true) ∧
      b'.WF ∧ b'.width = ((Board.new 5 5 0 2 2).count_all_bombs 5 5).width ∧
      b'.height = ((Board.new 5 5 0 2 2).count_all_bombs 5 5).height ∧
      ∀ i j, b'.inGrid i j → (b'.get_cell i j).is_revealed = true :=
  ⟨by decide, by decide, by decide,
    zero_mine_board_floods ((Board.new 5 5 0 2 2).count_all_bombs 5 5) (by decide) (by decide)
      2 2 (by decide)⟩

/-! ## Placement with too many mines -/

/-- The loop of `place_bombs` cannot end while fewer cells are free than mines are
asked for: the accepted coordinates are distinct free cells, so `changed` stays
below `bomb_amount` and the loop asks for another draw. -/
theorem place_bombs_loop_stuck (zone free : List (Int × Int)) (bombs : Int)
    (hmany : (free.length : Int) < bombs) :
    ∀ (draws : List (Int × Int)) (changed : Int) (acc : List (Int × Int)) (b : Board),
      b.bomb_amount = bombs → (∀ d ∈ draws, d ∉ zone → d ∈ free) → acc.Nodup →
      (∀ p ∈ acc, p ∈ free) → changed = (acc.length : Int) →
      place_bombs_loop draws changed (zone ++ acc) b = none
  | [], changed, acc, b, hb, _, hnd, hsub, hch => by
    have hlen : acc.length ≤ free.length := (List.Nodup.subperm hnd hsub).length_le
    unfold place_bombs_loop
    rw [if_pos (by omega)]
  | (row, column) :: draws, changed, acc, b, hb, hd, hnd, hsub, hch => by
    have hlen : acc.length ≤ free.length := (List.Nodup.subperm hnd hsub).length_le
    unfold place_bombs_loop
    rw [if_pos (by omega)]
    by_cases hmem : (row, column) ∉ zone ++ acc
    · rw [if_pos hmem, List.append_assoc]
      rw [List.mem_append, not_or] at hmem
      refine place_bombs_loop_stuck zone free bombs hmany draws _ _ _ (by simpa using hb)
        (fun d hd' => hd d (List.mem_cons_of_mem _ hd')) ?_ ?_ (by simp [hch])
      · refine List.Nodup.append hnd (List.nodup_singleton _) ?_
        intro p hp hp'
        rw [List.mem_singleton] at hp'
        subst hp'
        exact hmem.2 hp
      · intro p hp
        rcases List.mem_append.mp hp with hp | hp
        · exact hsub p hp
        · rw [List.mem_singleton] at hp
          subst hp
          exact hd _ (List.mem_cons_self _ _) hmem.1
    · rw [if_neg hmem]
      exact place_bombs_loop_stuck zone free bombs hmany draws _ _ _ hb
        (fun d hd' => hd d (List.mem_cons_of_mem _ hd')) hnd hsub hch

theorem length_intRange (lo hi : Int) : (intRange lo hi).length = (hi - lo).toNat := by
  simp [intRange]

/-- The free cells are the `width * height` cells of the grid less those of the
exclusion zone. -/
theorem free_cells_length (b : Board) :
    b.free_cells.length +
      ((List.product (intRange 0 b.height) (intRange 0 b.width)).filter
        (fun p => decide (p ∈ b.exclusion_zone))).length =
      b.height.toNat * b.width.toNat := by
  unfold free_cells
  have h := List.length_eq_countP_add_countP (fun p => decide (p ∈ b.exclusion_zone))
    (List.product (intRange 0 b.height) (intRange 0 b.width))
  have hl : (List.product (intRange 0 b.height) (intRange 0 b.width)).length =
      (intRange 0 b.height).length * (intRange 0 b.width).length :=
    List.length_product _ _
  rw [hl, length_intRange, length_intRange] at h
  simp only [Int.sub_zero] at h
  rw [List.countP_eq_length_filter, List.countP_eq_length_filter] at h
  have e : (List.filter (fun a => decide ¬(decide (a ∈ b.exclusion_zone)) = true)
      (List.product (intRange 0 b.height) (intRange 0 b.width))) =
      (List.filter (fun p => decide (p ∉ b.exclusion_zone))
      (List.product (intRange 0 b.height) (intRange 0 b.width))) := by
    apply List.filter_congr
    intro p _
    simp
  rw [e] at h
  omega

/-- When fewer cells are free than mines are asked for, `place_bombs` does not
return, whatever the draws. -/
theorem place_bombs_stuck (b : Board) (draws : List (Int × Int))
    (hdraws : ∀ d ∈ draws, 0 ≤ d.1 ∧ d.1 ≤ b.height - 1 ∧ 0 ≤ d.2 ∧ d.2 ≤ b.width - 1)
    (hmany : (b.free_cells.length : Int) < b.bomb_amount) : b.place_bombs draws = none := by
  unfold place_bombs
  have key := place_bombs_loop_stuck b.exclusion_zone b.free_cells b.bomb_amount hmany draws 0 []
    b rfl ?_ List.nodup_nil (fun p hp => by cases hp) rfl
  · rw [List.append_nil] at key
    exact key
  · intro d hd hz
    obtain ⟨h1, h2, h3, h4⟩ := hdraws d hd
    unfold free_cells
    rw [List.mem_filter]
    refine ⟨?_, by simpa using hz⟩
    obtain ⟨d1, d2⟩ := d
    rw [List.pair_mem_product, mem_intRange, mem_intRange]
    simp only at h1 h2 h3 h4
    omega

/-- Counterexample to claim C14 as stated: on a 5 x 5 board with origin `(2, 2)`
only 16 cells lie outside the exclusion zone; with `bomb_amount = 17` the loop of
`place_bombs` is still running, with no error raised, after draws that visit
every cell of the grid once, and after the same draws made twice. -/
theorem place_bombs_loops_without_error :
    (Board.new 5 5 17 2 2).free_cells.length = 16 ∧
    (Board.new 5 5 17 2 2).bomb_amount = 17 ∧
    (Board.new 5 5 17 2 2).place_bombs fullDraws = none ∧
    (Board.new 5 5 17 2 2).place_bombs (fullDraws ++ fullDraws) = none := by
  decide

/-- Claim C14, amended: when `bomb_amount` is larger than the number of grid cells
outside the exclusion zone around the origin (the `width * height` cells of the
grid less those of the zone), `place_bombs` raises no error and does not
return: after every finite sequence of in-range draws the loop condition
`changed < bomb_amount` still holds. -/
theorem place_bombs_overfull (b : Board) (draws : List (Int × Int))
    (hdraws : ∀ d ∈ draws, 0 ≤ d.1 ∧ d.1 ≤ b.height - 1 ∧ 0 ≤ d.2 ∧ d.2 ≤ b.width - 1)
    (hmany : (b.free_cells.length : Int) < b.bomb_amount) :
    b.place_bombs draws = none ∧
    b.free_cells.length +
      ((List.product (intRange 0 b.height) (intRange 0 b.width)).filter
        (fun p => decide (p ∈ b.exclusion_zone))).length =
      b.height.toNat * b.width.toNat :=
  ⟨place_bombs_stuck b draws hdraws hmany, free_cells_length b⟩

/-- Instance of claim C14 as amended: 17 mines asked for on a 5 x 5 board with origin
`(2, 2)`, draws visiting every cell. -/
theorem place_bombs_overfull_witness :
    (Board.new 5 5 17 2 2).place_bombs fullDraws = none ∧
    (Board.new 5 5 17 2 2).free_cells.length +
      ((List.product (intRange 0 (Board.new 5 5 17 2 2).height)
        (intRange 0 (Board.new 5 5 17 2 2).width)).filter
        (fun p => decide (p ∈ (Board.new 5 5 17 2 2).exclusion_zone))).length =
      (Board.new 5 5 17 2 2).height.toNat * (Board.new 5 5 17 2 2).width.toNat :=
  place_bombs_overfull (Board.new 5 5 17 2 2) fullDraws (by decide) (by decide)

/-! ## Flood fill and mines -/

theorem Extends.mine_unrevealed {b b' : Board} (h : Extends b b') {r c : Int}
    (hm : (b.get_cell r c).is_bomb = true) (hu : (b.get_cell r c).is_revealed = false) :
    (b'.get_cell r c).is_revealed = false := by
  rcases h.2.2.2.2.2.2 r c with e | ⟨_, n, _⟩
  · rw [e]; exact hu
  · rw [hm] at n; cases n

/-- Claim C21: whatever the counters of the board, a mine that is unrevealed before
`reveal_around(row, col)` is unrevealed after it, and `handle_first_mode` on a
non-mine target returns `true` and likewise reveals no mine. -/
theorem flood_fill_reveals_no_mine (b : Board) (hwf : b.WF) (row col : Int)
    (_hin : b.inGrid row col) :
    (∃ b', b.reveal_around row col = some b' ∧
      ∀ r c, (b.get_cell r c).is_bomb = true → (b.get_cell r c).is_revealed = false →
        (b'.get_cell r c).is_bomb = true ∧ (b'.get_cell r c).is_revealed = false) ∧
    ((b.get_cell row col).is_bomb = false →
      ∃ b', b.handle_first_mode row col = some (true, b') ∧
        ∀ r c, (b.get_cell r c).is_bomb = true → (b.get_cell r c).is_revealed = false →
          (b'.get_cell r c).is_bomb = true ∧ (b'.get_cell r c).is_revealed = false) := by
  constructor
  · obtain ⟨b', h, hext⟩ := reveal_around_total b hwf row col
    exact ⟨b', h, fun r c hm hu => ⟨by rw [hext.is_bomb]; exact hm, hext.mine_unrevealed hm hu⟩⟩
  · intro hn
    have hfield := fun r c => unflag_get_cell b row col r c
    cases hr : (b.get_cell row col).is_revealed
    · obtain ⟨b2, _, h, hext⟩ := handle_first_mode_unrevealed b hwf row col hr hn
      refine ⟨b2, h, fun r c hm hu => ?_⟩
      have hm1 := (hfield r c).1.trans hm
      have hu1 := (hfield r c).2.1.trans hu
      exact ⟨by rw [hext.is_bomb]; exact hm1, hext.mine_unrevealed hm1 hu1⟩
    · refine ⟨_, handle_first_mode_revealed b row col hr hn, fun r c hm hu => ?_⟩
      exact ⟨(hfield r c).1.trans hm, (hfield r c).2.1.trans hu⟩

/-- Instance of claim C21: `reveal_around` and `handle_first_mode` at `(0, 4)` on
`flaggedBoard`, whose mines in column 2 are unrevealed. -/
theorem flood_fill_reveals_no_mine_witness :
    (∃ b', flaggedBoard.reveal_around 0 4 = some b' ∧
      ∀ r c, (flaggedBoard.get_cell r c).is_bomb = true →
        (flaggedBoard.get_cell r c).is_revealed = false →
        (b'.get_cell r c).is_bomb = true ∧ (b'.get_cell r c).is_revealed = false) ∧
    ((flaggedBoard.get_cell 0 4).is_bomb = false →
      ∃ b', flaggedBoard.handle_first_mode 0 4 = some (true, b') ∧
        ∀ r c, (flaggedBoard.get_cell r c).is_bomb = true →
          (flaggedBoard.get_cell r c).is_revealed = false →
          (b'.get_cell r c).is_bomb = true ∧ (b'.get_cell r c).is_revealed = false) :=
  flood_fill_reveals_no_mine flaggedBoard (by decide) 0 4 (by decide)

/-! ## Instrumented runs agree with the plain ones -/

theorem foldl_fst {α β γ : Type} (f : β → α → β) (g : β × γ → α → β × γ)
    (h : ∀ s x, (g s x).1 = f s.1 x) : ∀ (l : List α) (s : β × γ),
      (l.foldl g s).1 = l.foldl f s.1
  | [], _ => rfl
  | a :: l, s => by
    rw [List.foldl_cons, List.foldl_cons, foldl_fst f g h l, h]

theorem foldlM_fst {α β γ : Type} (f : β → α → Option β) (g : β × γ → α → Option (β × γ))
    (h : ∀ s x, (g s x).map Prod.fst = f s.1 x) : ∀ (l : List α) (s : β × γ),
      (l.foldlM g s).map Prod.fst = l.foldlM f s.1
  | [], _ => rfl
  | a :: l, s => by
    simp only [List.foldlM_cons]
    have ha := h s a
    cases hg : g s a with
    | none =>
      rw [hg] at ha
      simp only [Option.map_none'] at ha
      rw [← ha]
      rfl
    | some s' =>
      rw [hg] at ha
      simp only [Option.map_some'] at ha
      rw [← ha]
      exact foldlM_fst f g h l s'

/-- Erasing the record from `count_bombs_log` gives `count_bombs`. -/
theorem count_bombs_log_fst (b : Board) (x y : Int) :
    (b.count_bombs_log x y).1 = b.count_bombs x y := by
  unfold count_bombs_log count_bombs
  apply foldl_fst
  intro s i
  apply foldl_fst
  intro s j
  split <;> rfl

theorem reveal_around_visit_log_fst (recurse : Board → Int → Int → Option Board)
    (recurseL : Board → Int → Int → Option (Board × List Event))
    (h : ∀ b i j, (recurseL b i j).map Prod.fst = recurse b i j) (b : Board) (i j : Int) :
    (reveal_around_visit_log recurseL b i j).map Prod.fst = reveal_around_visit recurse b i j := by
  unfold reveal_around_visit_log reveal_around_visit
  split
  · simp only
    split
    · rw [← h, Option.map_map]
      rfl
    · rfl
  · rfl

/-- Erasing the record from `reveal_around_log_fuel` gives `reveal_around_fuel`. -/
theorem reveal_around_log_fuel_fst : ∀ (fuel : Nat) (b : Board) (row column : Int),
    (reveal_around_log_fuel fuel b row column).map Prod.fst = reveal_around_fuel fuel b row column
  | 0, _, _, _ => rfl
  | fuel + 1, b, row, column => by
    unfold reveal_around_log_fuel reveal_around_fuel
    split
    · rfl
    · apply foldlM_fst
      intro s i
      apply foldlM_fst
      intro s j
      rw [Option.map_map]
      exact reveal_around_visit_log_fst _ _ (reveal_around_log_fuel_fst fuel) s.1 i j

theorem reveal_around_log_fst (b : Board) (row column : Int) :
    (b.reveal_around_log row column).map Prod.fst = b.reveal_around row column :=
  reveal_around_log_fuel_fst _ b row column

/-! ## Recursive calls and grid indices of the flood fill -/

theorem calls_append (l1 l2 : List Event) : calls (l1 ++ l2) = calls l1 + calls l2 := by
  unfold calls
  rw [List.countP_append]

theorem calls_access_cons (i j : Int) (l : List Event) :
    calls (Event.access i j :: l) = calls l := by
  unfold calls
  rw [List.countP_cons]
  simp

theorem calls_call_cons (i j : Int) (l : List Event) :
    calls (Event.call i j :: l) = calls l + 1 := by
  unfold calls
  rw [List.countP_cons]
  simp

theorem Extends.unrevealed_before {b b' : Board} (h : Extends b b') {r c : Int}
    (hu : (b'.get_cell r c).is_revealed = false) : (b.get_cell r c).is_revealed = false := by
  cases hr : (b.get_cell r c).is_revealed
  · rfl
  · rw [h.revealed hr] at hu
    cases hu

theorem reveal_around_visit_log_extends (fuel : Nat) (b : Board) (i j : Int)
    (r : Board × List Event)
    (h : reveal_around_visit_log (reveal_around_log_fuel fuel) b i j = some r) :
    Extends b r.1 := by
  have e := reveal_around_visit_log_fst (reveal_around_fuel fuel) (reveal_around_log_fuel fuel)
    (reveal_around_log_fuel_fst fuel) b i j
  rw [h] at e
  exact reveal_around_visit_extends _ (reveal_around_fuel_extends fuel) b i j r.1 e.symm

theorem reveal_around_log_fuel_extends (fuel : Nat) (b : Board) (row column : Int)
    (r : Board × List Event) (h : reveal_around_log_fuel fuel b row column = some r) :
    Extends b r.1 := by
  have e := reveal_around_log_fuel_fst fuel b row column
  rw [h] at e
  exact reveal_around_fuel_extends fuel b row column r.1 e.symm

theorem RunSound.append {b b1 b2 : Board} {l1 l2 : List Event} (h1 : RunSound b b1 l1)
    (hext1 : Extends b b1) (h2 : RunSound b1 b2 l2) (hext2 : Extends b1 b2) :
    RunSound b b2 (l1 ++ l2) := by
  obtain ⟨c1, p1, g1⟩ := h1
  obtain ⟨c2, p2, g2⟩ := h2
  refine ⟨by rw [calls_append]; omega, ?_, ?_⟩
  · intro i j hm
    rcases List.mem_append.mp hm with hm | hm
    · exact ⟨(p1 i j hm).1, hext2.revealed (p1 i j hm).2⟩
    · exact ⟨hext1.unrevealed_before (p2 i j hm).1, (p2 i j hm).2⟩
  · intro i j hm
    have hsplit : (Event.access i j ∈ l1 ∨ Event.call i j ∈ l1) ∨
        (Event.access i j ∈ l2 ∨ Event.call i j ∈ l2) := by
      rcases hm with hm | hm <;> rcases List.mem_append.mp hm with hm | hm
      · exact Or.inl (Or.inl hm)
      · exact Or.inr (Or.inl hm)
      · exact Or.inl (Or.inr hm)
      · exact Or.inr (Or.inr hm)
    rcases hsplit with hm | hm
    · exact g1 i j hm
    · have := g2 i j hm
      unfold inGrid at this ⊢
      rw [hext1.1, hext1.2.1] at this
      exact this

theorem reveal_around_visit_log_sound (recurse : Board → Int → Int → Option (Board × List Event))
    (hrecE : ∀ b i j r, recurse b i j = some r → Extends b r.1)
    (hrec : ∀ b i j r, b.WF → b.inGrid i j → recurse b i j = some r → RunSound b r.1 r.2)
    (b : Board) (hwf : b.WF) (i j : Int) (hg : b.inGrid i j) (r : Board × List Event)
    (h : reveal_around_visit_log recurse b i j = some r) : RunSound b r.1 r.2 := by
  unfold reveal_around_visit_log at h
  split at h
  · rename_i hc
    simp only [Bool.and_eq_true, Bool.not_eq_true'] at hc
    have hlt := unrevealed_update_reveal_lt hwf hg hc.1
    have hext1 := Extends.ext_update_reveal b i j hc.1 hc.2
    have hrev1 : ((b.update_cell i j Cell.reveal).get_cell i j).is_revealed = true := by
      rw [get_cell_update_cell_same hwf hg]; rfl
    simp only at h
    split at h
    · rw [Option.map_eq_some'] at h
      obtain ⟨r0, hr0, rfl⟩ := h
      have hext0 := hrecE _ _ _ _ hr0
      obtain ⟨c0, p0, g0⟩ := hrec _ i j r0 (update_cell_WF hwf _ _ _) (hext1.ext_inGrid hg) hr0
      refine ⟨?_, ?_, ?_⟩
      · simp only [calls_access_cons, calls_call_cons]
        omega
      · intro p q hm
        simp only [List.mem_cons, Event.call.injEq] at hm
        rcases hm with hm | hm | hm
        · cases hm
        · obtain ⟨rfl, rfl⟩ := hm
          exact ⟨hc.1, hext0.revealed hrev1⟩
        · exact ⟨hext1.unrevealed_before (p0 p q hm).1, (p0 p q hm).2⟩
      · intro p q hm
        simp only [List.mem_cons, Event.access.injEq, Event.call.injEq] at hm
        have hcase : (p = i ∧ q = j) ∨ (Event.access p q ∈ r0.2 ∨ Event.call p q ∈ r0.2) := by
          rcases hm with (hm | hm | hm) | (hm | hm | hm)
          · exact Or.inl hm
          · cases hm
          · exact Or.inr (Or.inl hm)
          · cases hm
          · exact Or.inl hm
          · exact Or.inr (Or.inr hm)
        rcases hcase with ⟨rfl, rfl⟩ | hm
        · exact hg
        · have := g0 p q hm
          unfold inGrid at this ⊢
          simpa using this
    · simp only [Option.some.injEq] at h
      subst h
      refine ⟨?_, ?_, ?_⟩
      · simp only [calls_access_cons]
        have : calls [] = 0 := rfl
        omega
      · intro p q hm
        simp at hm
      · intro p q hm
        simp only [List.mem_singleton, Event.access.injEq] at hm
        rcases hm with ⟨rfl, rfl⟩ | hm
        · exact hg
        · cases hm
  · simp only [Option.some.injEq] at h
    subst h
    refine ⟨?_, ?_, ?_⟩
    · simp only [calls_access_cons]
      have : calls [] = 0 := rfl
      omega
    · intro p q hm
      simp at hm
    · intro p q hm
      simp only [List.mem_singleton, Event.access.injEq] at hm
      rcases hm with ⟨rfl, rfl⟩ | hm
      · exact hg
      · cases hm

theorem RunSound.entry (b : Board) (row column : Int) (hg : b.inGrid row column) :
    RunSound b b [Event.access row column] := by
  refine ⟨?_, ?_, ?_⟩
  · simp only [calls_access_cons]
    have : calls [] = 0 := rfl
    omega
  · intro p q hm
    simp at hm
  · intro p q hm
    simp only [List.mem_singleton, Event.access.injEq] at hm
    rcases hm with ⟨rfl, rfl⟩ | hm
    · exact hg
    · cases hm

/-- Every run of the instrumented `reveal_around` on a well-formed board and an
in-bounds cell is sound in the sense of `RunSound`. -/
theorem reveal_around_log_fuel_sound : ∀ (fuel : Nat) (b : Board) (row column : Int)
    (r : Board × List Event), b.WF → b.inGrid row column →
      reveal_around_log_fuel fuel b row column = some r → RunSound b r.1 r.2
  | 0, _, _, _, _, _, _, h => by simp [reveal_around_log_fuel] at h
  | fuel + 1, b, row, column, r, hwf, hg, h => by
    unfold reveal_around_log_fuel at h
    split at h
    · simp only [Option.some.injEq] at h
      subst h
      exact RunSound.entry b row column hg
    · have key := foldlM_option_inv _
        (fun s : Board × List Event => Extends b s.1 ∧ RunSound b s.1 s.2)
        _ (b, [Event.access row column]) r
        ⟨Extends.ext_refl b, RunSound.entry b row column hg⟩ ?_ h
      · exact key.2
      · intro s1 i1 s2 hi1 hs1 hf
        refine foldlM_option_inv _
          (fun s : Board × List Event => Extends b s.1 ∧ RunSound b s.1 s.2)
          _ s1 s2 hs1 ?_ hf
        intro s3 j1 s4 hj1 hs3 hv
        rw [Option.map_eq_some'] at hv
        obtain ⟨r0, hr0, rfl⟩ := hv
        have hext := reveal_around_visit_log_extends fuel s3.1 i1 j1 r0 hr0
        rw [mem_intRange] at hi1 hj1
        have hw : s1.1.width = b.width := hs1.1.1
        have hg3 : s3.1.inGrid i1 j1 :=
          hs3.1.ext_inGrid ⟨by omega, by omega, by omega, by omega⟩
        have hsound := reveal_around_visit_log_sound (reveal_around_log_fuel fuel)
          (reveal_around_log_fuel_extends fuel)
          (fun b i j r hw hg hr => reveal_around_log_fuel_sound fuel b i j r hw hg hr)
          s3.1 (hs3.1.2.2.2.2.2.1 hwf) i1 j1 hg3 r0 hr0
        exact ⟨hs3.1.ext_trans hext, hs3.2.append hs3.1 hsound hext⟩

/-- The instrumented `reveal_around` returns on every well-formed board, with the
board that `reveal_around` returns and a sound record. -/
theorem reveal_around_log_total (b : Board) (hwf : b.WF) (row column : Int)
    (hg : b.inGrid row column) :
    ∃ b' log, b.reveal_around_log row column = some (b', log) ∧
      b.reveal_around row column = some b' ∧ RunSound b b' log := by
  obtain ⟨b', h, _⟩ := reveal_around_total b hwf row column
  have e := reveal_around_log_fst b row column
  rw [h] at e
  rw [Option.map_eq_some'] at e
  obtain ⟨r, hr, rfl⟩ := e
  exact ⟨r.1, r.2, hr, h, reveal_around_log_fuel_sound _ b row column r hwf hg hr⟩

theorem foldl_inv {α β : Type} (f : β → α → β) (I : β → Prop) :
    ∀ (l : List α) (b : β), I b → (∀ b x, x ∈ l → I b → I (f b x)) → I (l.foldl f b)
  | [], _, hb, _ => hb
  | a :: l, b, hb, hstep => by
    rw [List.foldl_cons]
    exact foldl_inv f I l _ (hstep b a (List.mem_cons_self _ _) hb)
      (fun b x hx => hstep b x (List.mem_cons_of_mem _ hx))

/-- Every index used by `count_bombs(x, y)` on an in-bounds cell lies in the grid. -/
theorem count_bombs_log_in_bounds (b : Board) (x y : Int) (hg : b.inGrid x y) :
    ∀ p ∈ (b.count_bombs_log x y).2, b.inGrid p.1 p.2 := by
  have key := foldl_inv
    (fun (s : Board × List (Int × Int)) i =>
      (intRange (max 0 (y - 1)) (min s.1.width (y + 2))).foldl (fun s j =>
        if (s.1.get_cell i j).is_bomb && decide ((i, j) ≠ (x, y)) then
          (s.1.update_cell x y Cell.update_counter, s.2 ++ [(i, j), (x, y)])
        else (s.1, s.2 ++ [(i, j)])) s)
    (fun s => s.1.width = b.width ∧ s.1.height = b.height ∧ ∀ p ∈ s.2, b.inGrid p.1 p.2)
    (intRange (max 0 (x - 1)) (min b.height (x + 2))) (b, [])
    ⟨rfl, rfl, fun p hp => by cases hp⟩ ?_
  · exact key.2.2
  · intro s1 i hi hs1
    rw [mem_intRange] at hi
    refine foldl_inv _
      (fun s => s.1.width = b.width ∧ s.1.height = b.height ∧ ∀ p ∈ s.2, b.inGrid p.1 p.2)
      _ s1 hs1 ?_
    intro s3 j hj hs3
    rw [mem_intRange, hs1.1] at hj
    have hij : b.inGrid i j := ⟨by omega, by omega, by omega, by omega⟩
    split
    · refine ⟨by simpa using hs3.1, by simpa using hs3.2.1, fun p hp => ?_⟩
      simp only [List.mem_append, List.mem_cons, List.mem_singleton, List.mem_nil_iff,
        or_false] at hp
      rcases hp with hp | rfl | rfl
      · exact hs3.2.2 p hp
      · exact hij
      · exact hg
    · refine ⟨hs3.1, hs3.2.1, fun p hp => ?_⟩
      simp only [List.mem_append, List.mem_singleton] at hp
      rcases hp with hp | rfl
      · exact hs3.2.2 p hp
      · exact hij

/-- Claim C22: on a well-formed board, `reveal_around` on an in-bounds cell
terminates (any depth bound above the number of unrevealed cells is enough, and
they all give the same board); every recursive call is made on an in-grid
cell that was unrevealed at entry and is revealed at exit, each call uses up
one unrevealed cell, and so the number of recursive calls is at most the
number of cells unrevealed at entry. -/
theorem flood_fill_terminates (b : Board) (hwf : b.WF) (row col : Int)
    (hin : b.inGrid row col) :
    ∃ b' log, b.reveal_around_log row col = some (b', log) ∧
      b.reveal_around row col = some b' ∧
      (∀ fuel, b.unrevealed < fuel → reveal_around_fuel fuel b row col = some b') ∧
      calls log + b'.unrevealed ≤ b.unrevealed ∧ calls log ≤ b.unrevealed ∧
      ∀ i j, Event.call i j ∈ log → b.inGrid i j ∧
        (b.get_cell i j).is_revealed = false ∧ (b'.get_cell i j).is_revealed = true := by
  obtain ⟨b', log, hlog, h, hc, hp, hgrid⟩ := reveal_around_log_total b hwf row col hin
  refine ⟨b', log, hlog, h, ?_, hc, by omega, fun i j hm => ?_⟩
  · intro fuel hf
    exact reveal_around_fuel_mono (b.unrevealed + 1) fuel b row col b' (by omega) h
  · exact ⟨hgrid i j (Or.inr hm), (hp i j hm).1, (hp i j hm).2⟩

/-- Instance of claim C22: `reveal_around(0, 4)` on `flaggedBoard`. -/
theorem flood_fill_terminates_witness :
    ∃ b' log, flaggedBoard.reveal_around_log 0 4 = some (b', log) ∧
      flaggedBoard.reveal_around 0 4 = some b' ∧
      (∀ fuel, flaggedBoard.unrevealed < fuel →
        reveal_around_fuel fuel flaggedBoard 0 4 = some b') ∧
      calls log + b'.unrevealed ≤ flaggedBoard.unrevealed ∧
      calls log ≤ flaggedBoard.unrevealed ∧
      ∀ i j, Event.call i j ∈ log → flaggedBoard.inGrid i j ∧
        (flaggedBoard.get_cell i j).is_revealed = false ∧
        (b'.get_cell i j).is_revealed = true :=
  flood_fill_terminates flaggedBoard (by decide) 0 4 (by decide)

/-- Claim C23: on a well-formed board and an in-bounds cell `(row, col)`, every grid
index read or written by `count_bombs(row, col)` and by `reveal_around(row, col)`,
recursive calls included, lies in `[0, height) x [0, width)`; so do the cells on
which `reveal_around` is called recursively. -/
theorem scans_stay_in_bounds (b : Board) (hwf : b.WF) (row col : Int)
    (hin : b.inGrid row col) :
    ((b.count_bombs_log row col).1 = b.count_bombs row col ∧
      ∀ p ∈ (b.count_bombs_log row col).2,
        0 ≤ p.1 ∧ p.1 < b.height ∧ 0 ≤ p.2 ∧ p.2 < b.width) ∧
    ∃ b' log, b.reveal_around_log row col = some (b', log) ∧
      b.reveal_around row col = some b' ∧
      ∀ i j, Event.access i j ∈ log ∨ Event.call i j ∈ log →
        0 ≤ i ∧ i < b.height ∧ 0 ≤ j ∧ j < b.width := by
  refine ⟨⟨count_bombs_log_fst b row col, count_bombs_log_in_bounds b row col hin⟩, ?_⟩
  obtain ⟨b', log, hlog, h, _, _, hgrid⟩ := reveal_around_log_total b hwf row col hin
  exact ⟨b', log, hlog, h, hgrid⟩

/-- Instance of claim C23: the corner cell `(0, 4)` of `flaggedBoard`. -/
theorem scans_stay_in_bounds_witness :
    ((flaggedBoard.count_bombs_log 0 4).1 = flaggedBoard.count_bombs 0 4 ∧
      ∀ p ∈ (flaggedBoard.count_bombs_log 0 4).2,
        0 ≤ p.1 ∧ p.1 < flaggedBoard.height ∧ 0 ≤ p.2 ∧ p.2 < flaggedBoard.width) ∧
    ∃ b' log, flaggedBoard.reveal_around_log 0 4 = some (b', log) ∧
      flaggedBoard.reveal_around 0 4 = some b' ∧
      ∀ i j, Event.access i j ∈ log ∨ Event.call i j ∈ log →
        0 ≤ i ∧ i < flaggedBoard.height ∧ 0 ≤ j ∧ j < flaggedBoard.width :=
  scans_stay_in_bounds flaggedBoard (by decide) 0 4 (by decide)

/-! ## Board dimensions and the mine-count policy -/

theorem verify_input_range : ∀ (inputs : List Int) (min max v : Int) (rest : List Int),
    verify_input inputs min max = some (v, rest) → min ≤ v ∧ v ≤ max
  | [], _, _, _, _, h => by simp [verify_input] at h
  | temp :: inputs, min, max, v, rest, h => by
    unfold verify_input at h
    split at h
    · rename_i hacc
      simp only [Option.some.injEq, Prod.mk.injEq] at h
      obtain ⟨rfl, _⟩ := h
      exact ⟨hacc.1, hacc.2⟩
    · exact verify_input_range inputs min max v rest h

theorem get_board_dimensions_range (inputs : List Int) (size_x size_y : Int) (rest : List Int)
    (h : get_board_dimensions inputs = some ((size_x, size_y), rest)) :
    (5 ≤ size_x ∧ size_x ≤ 50) ∧ 5 ≤ size_y ∧ size_y ≤ 50 := by
  unfold get_board_dimensions at h
  split at h
  · cases h
  · rename_i width rest1 h1
    split at h
    · cases h
    · rename_i height rest2 h2
      simp only [Option.some.injEq, Prod.mk.injEq] at h
      obtain ⟨⟨rfl, rfl⟩, _⟩ := h
      exact ⟨verify_input_range _ _ _ _ _ h1, verify_input_range _ _ _ _ _ h2⟩

/-- Every pair of dimensions between 5 and 50 is returned by `get_board_dimensions`. -/
theorem get_board_dimensions_of_range (size_x size_y : Int) (rest : List Int)
    (hx : 5 ≤ size_x ∧ size_x ≤ 50) (hy : 5 ≤ size_y ∧ size_y ≤ 50) :
    get_board_dimensions (size_x :: size_y :: rest) = some ((size_x, size_y), rest) := by
  simp [get_board_dimensions, verify_input, hx, hy]

theorem check_block_sound (p : Nat → Bool) : ∀ (d lo : Nat), check_block p d lo = true →
    ∀ n, lo ≤ n → n < lo + 2 ^ d → p n = true
  | 0, lo, h, n, h1, h2 => by
    have : n = lo := by simp at h2; omega
    subst this
    exact h
  | d + 1, lo, h, n, h1, h2 => by
    simp only [check_block, Bool.and_eq_true] at h
    by_cases hn : n < lo + 2 ^ d
    · exact check_block_sound p d lo h.1 n h1 hn
    · exact check_block_sound p d (lo + 2 ^ d) h.2 n (by omega) (by rw [pow_succ] at h2; omega)

set_option maxHeartbeats 4000000 in
theorem floor_times_point_two_low :
    check_block (fun n => decide (floor_times_point_two (n : Int) = ((n / 5 : Nat) : Int))) 11 0 =
      true := by
  decide

set_option maxHeartbeats 4000000 in
theorem floor_times_point_two_high :
    check_block (fun n => decide (floor_times_point_two (n : Int) = ((n / 5 : Nat) : Int))) 9 2048 =
      true := by
  decide

/-- On the products of two accepted dimensions the rounded double product, floored,
is the integer quotient by 5. -/
theorem floor_times_point_two_eq (n : Int) (h0 : 0 ≤ n) (h1 : n ≤ 2500) :
    floor_times_point_two n = n / 5 := by
  obtain ⟨k, rfl⟩ := Int.eq_ofNat_of_zero_le h0
  have hk : k ≤ 2500 := by omega
  have key : decide (floor_times_point_two (k : Int) = ((k / 5 : Nat) : Int)) = true := by
    by_cases hlow : k < 2048
    · exact check_block_sound _ 11 0 floor_times_point_two_low k (Nat.zero_le _) (by norm_num; omega)
    · exact check_block_sound _ 9 2048 floor_times_point_two_high k (by omega) (by norm_num; omega)
  rw [of_decide_eq_true key]
  norm_cast

theorem grid_cells_nodup (b : Board) :
    (List.product (intRange 0 b.height) (intRange 0 b.width)).Nodup :=
  List.Nodup.product (intRange_nodup _ _) (intRange_nodup _ _)

/-- At most nine cells of the grid lie in the exclusion zone. -/
theorem zone_cells_le (b : Board) :
    ((List.product (intRange 0 b.height) (intRange 0 b.width)).filter
      (fun p => decide (p ∈ b.exclusion_zone))).length ≤ 9 := by
  have hnd : ((List.product (intRange 0 b.height) (intRange 0 b.width)).filter
      (fun p => decide (p ∈ b.exclusion_zone))).Nodup := (grid_cells_nodup b).filter _
  have hsub : ∀ p ∈ (List.product (intRange 0 b.height) (intRange 0 b.width)).filter
      (fun p => decide (p ∈ b.exclusion_zone)), p ∈ b.exclusion_zone := by
    intro p hp
    rw [List.mem_filter] at hp
    simpa using hp.2
  have hlen := (List.Nodup.subperm hnd hsub).length_le
  have h9 : b.exclusion_zone.length = 9 := by simp [exclusion_zone, place_bombs_offsets]
  omega

theorem free_cells_nodup (b : Board) : b.free_cells.Nodup :=
  (grid_cells_nodup b).filter _

theorem mem_free_cells (b : Board) (p : Int × Int) :
    p ∈ b.free_cells ↔ b.inGrid p.1 p.2 ∧ p ∉ b.exclusion_zone := by
  obtain ⟨p1, p2⟩ := p
  unfold free_cells
  rw [List.mem_filter, List.pair_mem_product, mem_intRange, mem_intRange]
  simp only [decide_eq_true_eq, inGrid]
  tauto

/-- The loop of `place_bombs` ends as soon as the draws contain enough distinct
coordinates that are not yet on `already_changed`. -/
theorem place_bombs_loop_returns :
    ∀ (draws : List (Int × Int)) (changed : Int) (already_changed : List (Int × Int))
      (b : Board) (cells : List (Int × Int)), cells.Nodup →
      (∀ p ∈ cells, p ∈ draws ∧ p ∉ already_changed) →
      b.bomb_amount - changed ≤ (cells.length : Int) →
      ∃ b', place_bombs_loop draws changed already_changed b = some b'
  | [], changed, ac, b, cells, _, hmem, hlen => by
    have hnil : cells = [] := by
      cases cells with
      | nil => rfl
      | cons p _ => exact absurd (hmem p (List.mem_cons_self _ _)).1 (List.not_mem_nil _)
    subst hnil
    unfold place_bombs_loop
    simp only [List.length_nil, Int.ofNat_zero] at hlen
    rw [if_neg (by omega)]
    exact ⟨b, rfl⟩
  | (row, column) :: draws, changed, ac, b, cells, hnd, hmem, hlen => by
    unfold place_bombs_loop
    by_cases hlt : changed < b.bomb_amount
    · rw [if_pos hlt]
      by_cases hnot : (row, column) ∉ ac
      · rw [if_pos hnot]
        refine place_bombs_loop_returns draws _ _ _ (cells.erase (row, column))
          (hnd.erase _) ?_ ?_
        · intro p hp
          have hpc : p ∈ cells := List.mem_of_mem_erase hp
          have hne : p ≠ (row, column) := fun e => by
            subst e
            exact (List.Nodup.not_mem_erase hnd) hp
          obtain ⟨h1, h2⟩ := hmem p hpc
          refine ⟨?_, ?_⟩
          · rcases List.mem_cons.mp h1 with h1 | h1
            · exact absurd h1 hne
            · exact h1
          · rw [List.mem_append, List.mem_singleton]
            exact fun h => h.elim h2 hne
        · simp only [update_cell_bomb_amount]
          have hle : cells.length ≤ (cells.erase (row, column)).length + 1 := by
            rw [List.length_erase]
            split <;> omega
          omega
      · rw [if_neg hnot]
        refine place_bombs_loop_returns draws _ _ _ cells hnd ?_ hlen
        intro p hp
        obtain ⟨h1, h2⟩ := hmem p hp
        refine ⟨?_, h2⟩
        rcases List.mem_cons.mp h1 with h1 | h1
        · subst h1
          exact absurd h2 hnot
        · exact h1
    · rw [if_neg hlt]
      exact ⟨b, rfl⟩

/-- On a fresh board `place_bombs` returns, with exactly `bomb_amount` mines placed,
on every sequence of in-range draws that contains `bomb_amount` distinct free
cells. -/
theorem place_bombs_returns (w h bombs x y : Int) (hbombs : 0 ≤ bombs)
    (draws : List (Int × Int))
    (hdraws : ∀ d ∈ draws, 0 ≤ d.1 ∧ d.1 ≤ h - 1 ∧ 0 ≤ d.2 ∧ d.2 ≤ w - 1)
    (henough : bombs ≤
      (((Board.new w h bombs x y).free_cells.filter (fun p => decide (p ∈ draws))).length : Int)) :
    ∃ b', (Board.new w h bombs x y).place_bombs draws = some b' ∧ (b'.mines : Int) = bombs := by
  obtain ⟨b', hb'⟩ := place_bombs_loop_returns draws 0 (Board.new w h bombs x y).exclusion_zone
    (Board.new w h bombs x y)
    ((Board.new w h bombs x y).free_cells.filter (fun p => decide (p ∈ draws)))
    ((free_cells_nodup _).filter _)
    (fun p hp => by
      rw [List.mem_filter] at hp
      exact ⟨by simpa using hp.2, ((mem_free_cells _ p).mp hp.1).2⟩)
    (by
      have : (Board.new w h bombs x y).bomb_amount = bombs := rfl
      rw [this]
      omega)
  refine ⟨b', hb', ?_⟩
  have key := place_bombs_loop_count draws 0 _ _ b' hb' (new_WF w h bombs x y) ?_ ?_ ?_ ?_
  · exact key.1
  · intro d hd
    have := hdraws d hd
    show 0 ≤ d.1 ∧ d.1 < h ∧ 0 ≤ d.2 ∧ d.2 < w
    omega
  · intro r c hb
    rw [new_get_cell] at hb
    cases hb
  · rw [new_mines]; rfl
  · exact hbombs

/-- Claim C24: whatever the inputs, for the dimensions `(size_x, size_y)` that
`get_board_dimensions` returns (each between 5 and 50) and every first move
`(row, column)`, the mine count `bomb_amount = std::floor((size_x * size_y) * 0.2)`
of `game_loop`, computed in IEEE 754 double arithmetic, is the integer quotient
of `size_x * size_y` by 5 and satisfies `0 <= bomb_amount < size_x * size_y - 9`.
The board that `game_loop` builds has at least `size_x * size_y - 9` cells
outside the 3 x 3 exclusion zone, all distinct and in the grid, so at least
`bomb_amount` of them; `place_bombs` returns with exactly `bomb_amount` mines on
every sequence of in-range draws that contains `bomb_amount` distinct such
cells, and such a sequence exists (the free cells themselves). -/
theorem mine_count_policy_fits (inputs : List Int) (size_x size_y : Int) (rest : List Int)
    (hdim : get_board_dimensions inputs = some ((size_x, size_y), rest)) (row column : Int) :
    ((5 ≤ size_x ∧ size_x ≤ 50) ∧ 5 ≤ size_y ∧ size_y ≤ 50) ∧
    game_loop_bomb_amount size_x size_y = size_x * size_y / 5 ∧
    0 ≤ game_loop_bomb_amount size_x size_y ∧
    game_loop_bomb_amount size_x size_y < size_x * size_y - 9 ∧
    size_x * size_y - 9 ≤ ((game_loop_board size_x size_y row column).free_cells.length : Int) ∧
    game_loop_bomb_amount size_x size_y ≤
      ((game_loop_board size_x size_y row column).free_cells.length : Int) ∧
    (game_loop_board size_x size_y row column).free_cells.Nodup ∧
    (∀ p ∈ (game_loop_board size_x size_y row column).free_cells,
      (0 ≤ p.1 ∧ p.1 < size_y ∧ 0 ≤ p.2 ∧ p.2 < size_x) ∧
      p ∉ (game_loop_board size_x size_y row column).exclusion_zone) ∧
    (∀ draws : List (Int × Int),
      (∀ d ∈ draws, 0 ≤ d.1 ∧ d.1 ≤ size_y - 1 ∧ 0 ≤ d.2 ∧ d.2 ≤ size_x - 1) →
      game_loop_bomb_amount size_x size_y ≤
        (((game_loop_board size_x size_y row column).free_cells.filter
          (fun p => decide (p ∈ draws))).length : Int) →
      ∃ b', (game_loop_board size_x size_y row column).place_bombs draws = some b' ∧
        (b'.mines : Int) = game_loop_bomb_amount size_x size_y) ∧
    ∃ b', (game_loop_board size_x size_y row column).place_bombs
        (game_loop_board size_x size_y row column).free_cells = some b' ∧
      (b'.mines : Int) = game_loop_bomb_amount size_x size_y := by
  have hr := get_board_dimensions_range inputs size_x size_y rest hdim
  obtain ⟨⟨hx1, hx2⟩, hy1, hy2⟩ := hr
  have hlo : 25 ≤ size_x * size_y := by nlinarith
  have hhi : size_x * size_y ≤ 2500 := by nlinarith
  have hm : game_loop_bomb_amount size_x size_y = size_x * size_y / 5 :=
    floor_times_point_two_eq _ (by omega) hhi
  have hfree : size_x * size_y - 9 ≤
      ((game_loop_board size_x size_y row column).free_cells.length : Int) := by
    have h1 := free_cells_length (game_loop_board size_x size_y row column)
    have h2 := zone_cells_le (game_loop_board size_x size_y row column)
    have hh : (game_loop_board size_x size_y row column).height = size_y := rfl
    have hw : (game_loop_board size_x size_y row column).width = size_x := rfl
    rw [hh, hw] at h1 h2
    have h3 : ((size_y.toNat * size_x.toNat : Nat) : Int) = size_x * size_y := by
      push_cast
      rw [Int.toNat_of_nonneg (by omega), Int.toNat_of_nonneg (by omega)]
      ring
    omega
  have hall : ∀ draws : List (Int × Int),
      (∀ d ∈ draws, 0 ≤ d.1 ∧ d.1 ≤ size_y - 1 ∧ 0 ≤ d.2 ∧ d.2 ≤ size_x - 1) →
      game_loop_bomb_amount size_x size_y ≤
        (((game_loop_board size_x size_y row column).free_cells.filter
          (fun p => decide (p ∈ draws))).length : Int) →
      ∃ b', (game_loop_board size_x size_y row column).place_bombs draws = some b' ∧
        (b'.mines : Int) = game_loop_bomb_amount size_x size_y := fun draws hd hen =>
    place_bombs_returns size_x size_y _ row column (by omega) draws hd hen
  have hmem : ∀ p ∈ (game_loop_board size_x size_y row column).free_cells,
      (0 ≤ p.1 ∧ p.1 < size_y ∧ 0 ≤ p.2 ∧ p.2 < size_x) ∧
      p ∉ (game_loop_board size_x size_y row column).exclusion_zone := fun p hp =>
    (mem_free_cells _ p).mp hp
  refine ⟨⟨⟨hx1, hx2⟩, hy1, hy2⟩, hm, by omega, by omega, hfree, by omega,
    free_cells_nodup _, hmem, hall, ?_⟩
  refine hall _ (fun d hd => ?_) ?_
  · have := (hmem d hd).1
    omega
  · rw [List.filter_eq_self.mpr (fun p hp => by simpa using hp)]
    omega

/-- Instance of claim C24: the inputs 3, 5, 60, 5 give a 5 x 5 board; with the first
move `(2, 2)` the policy asks for 5 mines and 16 cells are free. -/
theorem mine_count_policy_fits_witness :
    get_board_dimensions [3, 5, 60, 5] = some ((5, 5), []) ∧
      ((((5 : Int) ≤ 5 ∧ (5 : Int) ≤ 50) ∧ (5 : Int) ≤ 5 ∧ (5 : Int) ≤ 50) ∧
      game_loop_bomb_amount 5 5 = 5 * 5 / 5 ∧
      0 ≤ game_loop_bomb_amount 5 5 ∧
      game_loop_bomb_amount 5 5 < 5 * 5 - 9 ∧
      5 * 5 - 9 ≤ ((game_loop_board 5 5 2 2).free_cells.length : Int) ∧
      game_loop_bomb_amount 5 5 ≤
        ((game_loop_board 5 5 2 2).free_cells.length : Int) ∧
      (game_loop_board 5 5 2 2).free_cells.Nodup ∧
      (∀ p ∈ (game_loop_board 5 5 2 2).free_cells,
        (0 ≤ p.1 ∧ p.1 < 5 ∧ 0 ≤ p.2 ∧ p.2 < 5) ∧
        p ∉ (game_loop_board 5 5 2 2).exclusion_zone) ∧
      (∀ draws : List (Int × Int),
        (∀ d ∈ draws, 0 ≤ d.1 ∧ d.1 ≤ 5 - 1 ∧ 0 ≤ d.2 ∧ d.2 ≤ 5 - 1) →
        game_loop_bomb_amount 5 5 ≤
          (((game_loop_board 5 5 2 2).free_cells.filter
            (fun p => decide (p ∈ draws))).length : Int) →
        ∃ b', (game_loop_board 5 5 2 2).place_bombs draws = some b' ∧
          (b'.mines : Int) = game_loop_bomb_amount 5 5) ∧
      ∃ b', (game_loop_board 5 5 2 2).place_bombs
          (game_loop_board 5 5 2 2).free_cells = some b' ∧
        (b'.mines : Int) = game_loop_bomb_amount 5 5) :=
  ⟨by decide, mine_count_policy_fits [3, 5, 60, 5] 5 5 [] (by decide) 2 2⟩

end Board

end Minesweeper
